import Mathlib

/-!
Shallow embedding of the ChessTactics engine: `move.h` / `move.cpp`,
`position.h` / `position.cpp`, `engine.h` / `engine.cpp`.

Modelling conventions, applied uniformly:
* `char` is `Char`, `int` squares are `Nat` (0..63) except `m_en_passant`,
  which is `Int` because the source uses `-1` as a sentinel.
* `m_board` (a `char[65]` used as a 64-character string) is a `List Char`
  of length 64; `m_board[i]` is `boardGet`, with `'.'` as the
  out-of-range default.
* `std::unordered_multimap<char,int> m_pieces` is a `List (Char × Nat)`;
  equality of multimaps is content equality, i.e. equality of the coerced
  `Multiset (Char × Nat)`.  In-place mutation through an iterator is
  modelled by replacing the first matching entry.
* The transposition cache `std::unordered_map<size_t, std::pair<int,int>>`
  is an association list `List (Nat × (Nat × Int))` with unique keys;
  `insert` does not overwrite an existing key (as in C++), assignment
  through a found iterator does.
* `std::hash` is implementation defined; we fix a concrete deterministic
  string hash and combine the three component hashes exactly as the source
  does (`h1 ^ (h2 << 1) ^ (h3 << 2)`, reduced mod 2^64).
* A `throw` in the source is modelled by returning the state unchanged;
  the theorems below only ever run the functions on states where no throw
  can occur, which is proved, not assumed.
* Mutation of the single `Position` threaded through the search is made
  explicit: `evaluate` and friends return the final `Position` (and cache)
  next to their value.
* `std::random_shuffle` in `play_random_best` is modelled as the identity
  permutation of the generated move list (the process-wide PRNG is outside
  the embedding), and `std::sort`, which is unstable with an unspecified
  order on ties, is modelled as a stable descending insertion sort.
-/

namespace ChessTactics

/-- `is_upper` from position.cpp (C `isupper`, ASCII). -/
def is_upper (c : Char) : Bool := 'A' ≤ c && c ≤ 'Z'

/-- `are_valid_coords` from position.cpp. -/
def are_valid_coords (col row : Int) : Bool :=
  0 ≤ col && col < 8 && 0 ≤ row && row < 8

/-- `get_square(int,int)` from position.cpp.  The source throws on invalid
coordinates; we return the junk square 64 there. -/
def get_square (col row : Int) : Nat :=
  if are_valid_coords col row then (col + 8 * row).toNat else 64

/-- `square_string` from move.cpp, as its two characters. -/
def square_chars (square : Nat) : List Char :=
  [Char.ofNat (square % 8 + 'a'.toNat), Char.ofNat ('0'.toNat + (8 - square / 8))]

/-- `square_string` from move.cpp. -/
def square_string (square : Nat) : String := ⟨square_chars square⟩

/-- The `Move` data class from move.h. -/
structure Move where
  m_from : Nat
  m_to : Nat
  m_piece : Char
  m_captured : Char
  m_special : Char
  m_last_enpassant : Int
deriving DecidableEq, Repr

/-- The null `m_special` value `(char)0`. -/
def specNone : Char := Char.ofNat 0

/-- `Move::to_string` from move.cpp (short display notation). -/
def Move.to_string (m : Move) : String :=
  if m.m_piece.toLower = 'p' then
    let pre : String :=
      if m.m_captured ≠ '.' ∨ m.m_special.toLower = 'e' then
        ⟨[(square_chars m.m_from).headD 'a', 'x']⟩
      else ""
    let base := pre ++ square_string m.m_to
    if m.m_special ≠ specNone ∧ m.m_special.toLower ≠ 'e' then
      base ++ ⟨['=', m.m_special]⟩
    else base
  else if m.m_captured ≠ '.' then
    ⟨[m.m_piece.toUpper, 'x']⟩ ++ square_string m.m_to
  else
    ⟨[m.m_piece.toUpper]⟩ ++ square_string m.m_to

/-- `Move::to_full_string` from move.cpp (long notation, matched against
user input in main.cpp). -/
def Move.to_full_string (m : Move) : String :=
  if m.m_piece.toLower = 'p' then
    let base := square_string m.m_from ++
      (if m.m_captured ≠ '.' then "x" else "-") ++ square_string m.m_to
    if m.m_special ≠ specNone ∧ m.m_special.toLower ≠ 'e' then
      base ++ ⟨['=', m.m_special]⟩
    else base
  else
    ⟨[m.m_piece.toUpper]⟩ ++ square_string m.m_from ++
      (if m.m_captured ≠ '.' then "x" else "-") ++ square_string m.m_to

/-- The `Position` class from position.h. -/
structure Position where
  m_board : List Char
  m_to_move : Char
  m_en_passant : Int
  m_pieces : List (Char × Nat)
  m_prev_moves : List Move
deriving DecidableEq, Repr

/-- `m_board[sq]` (reads of the 64-character board string). -/
def boardGet (b : List Char) (sq : Nat) : Char := b.getD sq '.'

/-- Concrete model of `std::hash<std::string>` (implementation defined in
the source): a 64-bit polynomial string hash. -/
def stdHashString (l : List Char) : Nat :=
  l.foldl (fun h c => (h * 131 + c.toNat) % 2 ^ 64) 5381

/-- Concrete model of `std::hash<int>` on the en-passant field:
two's-complement value as a 64-bit word. -/
def stdHashInt (i : Int) : Nat := (i % 2 ^ 64).toNat

/-- `Position::get_hash` from position.cpp:
`h1 ^ (h2 << 1) ^ (h3 << 2)` over the component hashes. -/
def get_hash (p : Position) : Nat :=
  (stdHashString p.m_board ^^^ (stdHashInt p.m_en_passant <<< 1) ^^^
    (p.m_to_move.toNat <<< 2)) % 2 ^ 64

/-- First index of the entry `(piece, square)` in `m_pieces`
(`Position::get_piece`, which scans `equal_range(piece)` for `square` and
returns the found iterator, or `end()`, here `none`). -/
def pieceIdx : List (Char × Nat) → Char → Nat → Option Nat
  | [], _, _ => none
  | x :: xs, c, sq => if x = (c, sq) then some 0 else (pieceIdx xs c sq).map (· + 1)

/-- Erase the first occurrence of an entry
(`m_pieces.erase(iterator)` on the first matching entry). -/
def eraseFirst (l : List (Char × Nat)) (a : Char × Nat) : List (Char × Nat) :=
  match l with
  | [] => []
  | x :: xs => if x = a then xs else x :: eraseFirst xs a

/-- Replace the first occurrence of an entry (in-place mutation of the
found iterator's mapped value, `it->second = sq`). -/
def replaceFirst (l : List (Char × Nat)) (a b : Char × Nat) : List (Char × Nat) :=
  match l with
  | [] => []
  | x :: xs => if x = a then b :: xs else x :: replaceFirst xs a b

/-- `m_to_move` flip at the end of `perform_move` / `undo_move`. -/
def flipToMove (c : Char) : Char := if c = 'w' then 'b' else 'w'

/-- `Position::perform_move` from position.cpp.  Each `throw` in the
source is modelled by returning the position unchanged. -/
def perform_move (p : Position) (m : Move) : Position :=
  match pieceIdx p.m_pieces m.m_piece m.m_from with
  | none => p
  | some _ =>
    if m.m_captured ≠ '.' ∧ pieceIdx p.m_pieces m.m_captured m.m_to = none then p
    else
      let l1 := if m.m_captured ≠ '.' then eraseFirst p.m_pieces (m.m_captured, m.m_to)
                else p.m_pieces
      let l2 := replaceFirst l1 (m.m_piece, m.m_from) (m.m_piece, m.m_to)
      let b2 := (p.m_board.set m.m_from '.').set m.m_to m.m_piece
      let st : Position :=
        { m_board := b2, m_to_move := p.m_to_move, m_en_passant := p.m_en_passant,
          m_pieces := l2, m_prev_moves := p.m_prev_moves ++ [m] }
      let fin : Position → Position := fun s =>
        { s with
          m_en_passant :=
            if m.m_piece.toLower = 'p' ∧ ((m.m_from : Int) - m.m_to).natAbs = 16 then
              ((m.m_to + m.m_from) / 2 : Nat)
            else -1,
          m_to_move := flipToMove p.m_to_move }
      if m.m_special = specNone then fin st
      else if is_upper m.m_piece ≠ is_upper m.m_special then p
      else if m.m_special = 'e' then
        if pieceIdx st.m_pieces 'P' (m.m_to - 8) = none then p
        else fin { st with m_pieces := eraseFirst st.m_pieces ('P', m.m_to - 8),
                           m_board := st.m_board.set (m.m_to - 8) '.' }
      else if m.m_special = 'E' then
        if pieceIdx st.m_pieces 'p' (m.m_to + 8) = none then p
        else fin { st with m_pieces := eraseFirst st.m_pieces ('p', m.m_to + 8),
                           m_board := st.m_board.set (m.m_to + 8) '.' }
      else
        fin { st with m_pieces := (m.m_special, m.m_to) :: eraseFirst st.m_pieces (m.m_piece, m.m_to),
                      m_board := st.m_board.set m.m_to m.m_special }

/-- `Position::undo_move` from position.cpp.  `throw`s (and `back()` on an
empty history) are modelled by returning the position unchanged. -/
def undo_move (p : Position) : Position :=
  match p.m_prev_moves.getLast? with
  | none => p
  | some m =>
    let c0 := boardGet p.m_board m.m_to
    match pieceIdx p.m_pieces c0 m.m_to with
    | none => p
    | some _ =>
      let l1 := if m.m_captured ≠ '.' then (m.m_captured, m.m_to) :: p.m_pieces
                else p.m_pieces
      let l2 := replaceFirst l1 (c0, m.m_to) (c0, m.m_from)
      let b2 := (p.m_board.set m.m_from m.m_piece).set m.m_to m.m_captured
      let st : Position :=
        { m_board := b2, m_to_move := p.m_to_move, m_en_passant := p.m_en_passant,
          m_pieces := l2, m_prev_moves := p.m_prev_moves.dropLast }
      let fin : Position → Position := fun s =>
        { s with m_to_move := flipToMove p.m_to_move,
                 m_en_passant := m.m_last_enpassant }
      if m.m_special = specNone then fin st
      else if is_upper m.m_piece ≠ is_upper m.m_special then p
      else if m.m_special = 'e' then
        fin { st with m_pieces := ('P', m.m_to - 8) :: st.m_pieces,
                      m_board := st.m_board.set (m.m_to - 8) 'P' }
      else if m.m_special = 'E' then
        fin { st with m_pieces := ('p', m.m_to + 8) :: st.m_pieces,
                      m_board := st.m_board.set (m.m_to + 8) 'p' }
      else
        fin { st with m_pieces := (m.m_piece, m.m_from) :: eraseFirst st.m_pieces (c0, m.m_from),
                      m_board := st.m_board.set m.m_from m.m_piece }

/-- Knight offsets, in source order (shared by `square_hit` and the
knight case of `find_pseudo_legal_moves`). -/
def knightOffsets : List (Int × Int) :=
  [(1,2),(2,1),(-1,2),(-2,1),(-1,-2),(-2,-1),(1,-2),(2,-1)]

/-- King offsets, in source order (shared by `square_hit`, the king case
and the queen case of `find_pseudo_legal_moves`). -/
def kingOffsets : List (Int × Int) :=
  [(1,-1),(-1,1),(1,1),(-1,-1),(1,0),(-1,0),(0,1),(0,-1)]

/-- Rook directions, in source order. -/
def rookDirs : List (Int × Int) := [(1,0),(-1,0),(0,1),(0,-1)]

/-- Bishop directions in the order used by `square_hit`. -/
def hitBishopDirs : List (Int × Int) := [(1,1),(-1,1),(1,-1),(-1,-1)]

/-- Bishop directions in the order used by `find_pseudo_legal_moves`. -/
def genBishopDirs : List (Int × Int) := [(1,-1),(-1,1),(1,1),(-1,-1)]

/-- One non-sliding family of checks in `Position::square_hit`: some
offset lands on a piece of type `target` and color `by_white`. -/
def stepHit (b : List Char) (col row : Int) (offs : List (Int × Int))
    (target : Char) (by_white : Bool) : Bool :=
  offs.any fun cds =>
    are_valid_coords (col + cds.1) (row + cds.2) &&
    (boardGet b (get_square (col + cds.1) (row + cds.2))).toLower = target &&
    by_white = is_upper (boardGet b (get_square (col + cds.1) (row + cds.2)))

/-- One ray walk of `Position::square_hit`: walk from `(col,row)` in
direction `cds` until the first occupied square; hit iff that square holds
a `t1` or `t2` of color `by_white`.  The `while` loop is bounded by 8
steps, which any ray inside the board satisfies. -/
def rayHit (b : List Char) (by_white : Bool) (t1 t2 : Char) :
    Nat → Int → Int → Int × Int → Bool
  | 0, _, _, _ => false
  | fuel + 1, col, row, cds =>
    if are_valid_coords col row then
      let c := boardGet b (get_square col row)
      if c ≠ '.' then
        by_white = is_upper c && (c.toLower = t1 || c.toLower = t2)
      else rayHit b by_white t1 t2 fuel (col + cds.1) (row + cds.2) cds
    else false

/-- `Position::square_hit` from position.cpp. -/
def square_hit (p : Position) (square : Nat) (by_white : Bool) : Bool :=
  let col : Int := square % 8
  let row : Int := square / 8
  let pawnDirs : List (Int × Int) :=
    if by_white then [(1,1),(-1,1)] else [(1,-1),(-1,-1)]
  stepHit p.m_board col row knightOffsets 'n' by_white ||
  stepHit p.m_board col row pawnDirs 'p' by_white ||
  stepHit p.m_board col row kingOffsets 'k' by_white ||
  rookDirs.any (fun cds =>
    rayHit p.m_board by_white 'r' 'q' 8 (col + cds.1) (row + cds.2) cds) ||
  hitBishopDirs.any (fun cds =>
    rayHit p.m_board by_white 'b' 'q' 8 (col + cds.1) (row + cds.2) cds)

/-- The knight/king case of `find_pseudo_legal_moves`: non-sliding moves
to empty or opponent squares. -/
def stepMoves (p : Position) (piece : Char) (square : Nat)
    (offs : List (Int × Int)) : List Move :=
  offs.filterMap fun cds =>
    let col : Int := square % 8
    let row : Int := square / 8
    if are_valid_coords (col + cds.1) (row + cds.2) then
      let sq := get_square (col + cds.1) (row + cds.2)
      if boardGet p.m_board sq = '.' ∨ is_upper piece ≠ is_upper (boardGet p.m_board sq) then
        some ⟨square, sq, piece, boardGet p.m_board sq, specNone, p.m_en_passant⟩
      else none
    else none

/-- One ray walk of the rook/bishop/queen case of
`find_pseudo_legal_moves`; the `while` loop is bounded by 8 steps, which
any ray inside the board satisfies. -/
def rayMoves (p : Position) (piece : Char) (square : Nat) :
    Nat → Int → Int → Int × Int → List Move
  | 0, _, _, _ => []
  | fuel + 1, col, row, cds =>
    if are_valid_coords col row then
      let sq := get_square col row
      let c := boardGet p.m_board sq
      if c ≠ '.' ∧ is_upper piece = is_upper c then []
      else
        ⟨square, sq, piece, c, specNone, p.m_en_passant⟩ ::
          (if c ≠ '.' then []
           else rayMoves p piece square fuel (col + cds.1) (row + cds.2) cds)
    else []

/-- The rook/bishop/queen case of `find_pseudo_legal_moves`. -/
def slideMoves (p : Position) (piece : Char) (square : Nat)
    (dirs : List (Int × Int)) : List Move :=
  dirs.flatMap fun cds =>
    rayMoves p piece square 8 ((square % 8 : Int) + cds.1) ((square / 8 : Int) + cds.2) cds

/-- The white and black promotion fans of the pawn case. -/
def promoPieces (white : Bool) : List Char :=
  if white then ['Q', 'R', 'N', 'B'] else ['q', 'r', 'n', 'b']

/-- The pawn case of `find_pseudo_legal_moves`: the two diagonal-capture /
en-passant checks, then the single push, then the double push, in source
order. -/
def pawnMoves (p : Position) (piece : Char) (square : Nat) : List Move :=
  let col : Int := square % 8
  let row : Int := square / 8
  let dir : Int := if is_upper piece then -1 else 1
  let caps := [(1 : Int), -1].flatMap fun cdir =>
    if are_valid_coords (col + cdir) (row + dir) then
      let sq := get_square (col + cdir) (row + dir)
      let c := boardGet p.m_board sq
      if c ≠ '.' ∧ is_upper c ≠ is_upper piece then
        if row + dir = 0 then
          (promoPieces true).map fun pr => ⟨square, sq, piece, c, pr, p.m_en_passant⟩
        else if row + dir = 7 then
          (promoPieces false).map fun pr => ⟨square, sq, piece, c, pr, p.m_en_passant⟩
        else [⟨square, sq, piece, c, specNone, p.m_en_passant⟩]
      else if (sq : Int) = p.m_en_passant then
        [⟨square, sq, piece, c, if is_upper piece then 'E' else 'e', p.m_en_passant⟩]
      else []
    else []
  let push :=
    if boardGet p.m_board (get_square col (row + dir)) = '.' then
      let sq := get_square col (row + dir)
      if row + dir = 0 then
        (promoPieces true).map fun pr => ⟨square, sq, piece, '.', pr, p.m_en_passant⟩
      else if row + dir = 7 then
        (promoPieces false).map fun pr => ⟨square, sq, piece, '.', pr, p.m_en_passant⟩
      else [⟨square, sq, piece, '.', specNone, p.m_en_passant⟩]
    else []
  let dbl :=
    if ((is_upper piece ∧ row = 6) ∨ (¬ is_upper piece ∧ row = 1)) ∧
        boardGet p.m_board (get_square col (row + dir)) = '.' ∧
        boardGet p.m_board (get_square col (row + 2 * dir)) = '.' then
      [⟨square, get_square col (row + 2 * dir), piece, '.', specNone, p.m_en_passant⟩]
    else []
  caps ++ push ++ dbl

/-- `Position::find_pseudo_legal_moves` from position.cpp. -/
def find_pseudo_legal_moves (p : Position) (piece : Char) (square : Nat) : List Move :=
  match piece.toLower with
  | 'p' => pawnMoves p piece square
  | 'n' => stepMoves p piece square knightOffsets
  | 'k' => stepMoves p piece square kingOffsets
  | 'q' => slideMoves p piece square kingOffsets
  | 'b' => slideMoves p piece square genBishopDirs
  | 'r' => slideMoves p piece square rookDirs
  | _ => []

/-- The mover's king letter (`m_to_move == 'w' ? 'K' : 'k'`). -/
def moverKing (p : Position) : Char := if p.m_to_move = 'w' then 'K' else 'k'

/-- The square recorded for letter `c` in `m_pieces` (`m_pieces.find(c)`);
64 is the junk value for the source's undefined behavior when no such
piece exists. -/
def king_square_in (p : Position) (c : Char) : Nat :=
  ((p.m_pieces.find? fun e => e.1 = c).map Prod.snd).getD 64

/-- All pseudo-legal moves of the side to move, in `m_pieces` order. -/
def pseudoMoves (p : Position) : List Move :=
  (p.m_pieces.filter fun e => is_upper e.1 = decide (p.m_to_move = 'w')).flatMap
    fun e => find_pseudo_legal_moves p e.1 e.2

/-- `Position::get_possible_moves` from position.cpp.  The make / test /
undo filter of the source is the pure filter below: `undo_move` restores
the position exactly (proved below), and the king iterator found before
the loop reads back `m_to` when the king itself moved, the original
square otherwise. -/
def get_possible_moves (p : Position) : List Move :=
  let kingL := moverKing p
  let ksq := king_square_in p kingL
  (pseudoMoves p).filter fun m =>
    let p2 := perform_move p m
    let ks2 := if m.m_piece = kingL then m.m_to else ksq
    ! square_hit p2 ks2 (! is_upper kingL)

/-! ## The engine (engine.h / engine.cpp) -/

/-- The transposition cache: hash → (evaluation depth, evaluation). -/
def Cache : Type := List (Nat × (Nat × Int))

instance : DecidableEq Cache := by unfold Cache; infer_instance

instance : Repr Cache := by unfold Cache; infer_instance

/-- The empty cache. -/
def emptyCache : Cache := []

/-- `cache->find(hash)` (unique keys). -/
def cacheFind (c : Cache) (k : Nat) : Option (Nat × Int) :=
  ((c : List (Nat × (Nat × Int))).find? fun e => e.1 = k).map Prod.snd

/-- `cache->insert({k, v})`: no effect when the key is already present,
exactly as `std::unordered_map::insert`. -/
def cacheInsert (c : Cache) (k : Nat) (v : Nat × Int) : Cache :=
  match (c : List (Nat × (Nat × Int))).find? fun e => e.1 = k with
  | some _ => c
  | none => (k, v) :: c

/-- Write through a found iterator when the key is present
(`cached_result->second = v`), plain insert otherwise. -/
def cacheUpd (c : Cache) (k : Nat) (v : Nat × Int) : Cache :=
  match (c : List (Nat × (Nat × Int))).find? fun e => e.1 = k with
  | some _ => (c : List (Nat × (Nat × Int))).map fun e => if e.1 = k then (k, v) else e
  | none => (k, v) :: c

/-- `cache->erase(k)`. -/
def cacheErase (c : Cache) (k : Nat) : Cache :=
  (c : List (Nat × (Nat × Int))).filter fun e => ¬ e.1 = k

/-- `Engine::MATE`. -/
def MATE : Int := 1000000

/-- `Engine::MATE_THRESHOLD`. -/
def MATE_THRESHOLD : Int := 2000

/-- `Engine::MIN_DEPTH`. -/
def MIN_DEPTH : Nat := 2

/-- `Engine::MAX_DEPTH`. -/
def MAX_DEPTH : Nat := 5

/-- `__INT_MAX__`, the sentinel cache depth. -/
def INT_MAX : Nat := 2147483647

/-- `Engine::piece_values`; the source dereferences a failed lookup
(undefined behavior), modelled as 0. -/
def piece_values (c : Char) : Int :=
  match c with
  | 'K' => 1000 | 'Q' => 9 | 'R' => 5 | 'N' => 3 | 'B' => 3 | 'P' => 1
  | 'k' => -1000 | 'q' => -9 | 'r' => -5 | 'n' => -3 | 'b' => -3 | 'p' => -1
  | _ => 0

/-- `Engine::process_eval` from engine.cpp. -/
def process_eval (num : Int) : Int :=
  if |num| < MATE_THRESHOLD then num
  else if num ≥ MATE_THRESHOLD then num - 1
  else num + 1

/-- `Engine::get_eval_guess` from engine.cpp. -/
def get_eval_guess (h : Nat) (c : Cache) : Int :=
  match cacheFind c h with
  | some v => v.2
  | none => 0

/-- The move-ordering pass of `Engine::evaluate`: perform each move, read
the child's cached score as the key, undo (pure by undo symmetry). -/
def orderKeys (p : Position) (cache : Cache) (ms : List Move) : List (Int × Move) :=
  ms.map fun m => (get_eval_guess (get_hash (perform_move p m)) cache, m)

/-- Insertion step of the descending sort of `(guess, move)` pairs. -/
def insertDesc (x : Int × Move) : List (Int × Move) → List (Int × Move)
  | [] => [x]
  | y :: ys => if x.1 ≥ y.1 then x :: y :: ys else y :: insertDesc x ys

/-- `std::sort(..., sort_moves)` (descending by guess); `std::sort` has an
unspecified order on ties, fixed here as the stable insertion sort. -/
def sortMoves : List (Int × Move) → List (Int × Move)
  | [] => []
  | x :: xs => insertDesc x (sortMoves xs)

/-- Leaf material count of `Engine::evaluate`
(`result += piece_values.find(p.first)->second`). -/
def material (p : Position) : Int :=
  p.m_pieces.foldl (fun acc e => acc + piece_values e.1) 0

/-- Result of the recursive move loop of `Engine::evaluate`: either the
alpha-beta cutoff `return` or the loop running to completion.  Both carry
the running best `eval` (the mover-frame best), the cache and the
position at that point. -/
inductive LoopRes where
  | cutoff (eval : Int) (cache : Cache) (pos : Position)
  | finished (eval : Int) (cache : Cache) (pos : Position)
deriving DecidableEq, Repr

/-- The position a finished or cut-off move loop left behind. -/
def LoopRes.pos : LoopRes → Position
  | .cutoff _ _ p => p
  | .finished _ _ p => p

/-- The `for(auto pair : ordered_moves)` loop of `Engine::evaluate`,
parametrized by the recursive call `evalChild` at depth `maxdepth - 1`. -/
def searchLoop (evalChild : Position → Cache → Int → Int → Int × Cache × Position)
    (side beta : Int) :
    Position → Cache → Int → List (Int × Move) → Int → LoopRes
  | p, cache, _, [], eval => .finished eval cache p
  | p, cache, alfa, km :: rest, eval =>
    let p1 := perform_move p km.2
    let r := evalChild p1 cache (-beta) (-alfa)
    let new_eval := r.1 * side
    let eval2 := if new_eval > eval then new_eval else eval
    let alfa2 := if new_eval > eval then (if new_eval > alfa then new_eval else alfa) else alfa
    let p3 := undo_move r.2.2
    if process_eval eval2 ≥ beta then .cutoff eval2 r.2.1 p3
    else searchLoop evalChild side beta p3 r.2.1 alfa2 rest eval2

/-- Body of `Engine::evaluate` after the transposition-table check, with
the recursive call abstracted as `evalChild`. -/
def evalBody (evalChild : Position → Cache → Int → Int → Int × Cache × Position)
    (p : Position) (maxdepth : Nat) (cache : Cache) (alfa beta : Int) (hash : Nat) :
    Int × Cache × Position :=
  let moves := get_possible_moves p
  let side : Int := if p.m_to_move = 'w' then 1 else -1
  if moves.length = 0 then
    if square_hit p (king_square_in p (moverKing p)) (¬ p.m_to_move = 'w') then
      (-side * MATE, cacheInsert cache hash (INT_MAX, -side * MATE), p)
    else
      (0, cacheInsert cache hash (INT_MAX, 0), p)
  else if p.m_pieces.length ≤ 2 then
    (0, cacheInsert cache hash (INT_MAX, 0), p)
  else
    match maxdepth with
    | 0 =>
      let result := material p
      (result, cacheUpd cache hash (0, result), p)
    | d + 1 =>
      let ordered := sortMoves (orderKeys p cache moves)
      match searchLoop evalChild side beta p cache alfa ordered (-MATE) with
      | .cutoff ev c2 p2 => (process_eval ev * side, c2, p2)
      | .finished ev c2 p2 =>
        (process_eval ev * side,
         cacheUpd c2 hash
           (if MATE_THRESHOLD < |ev| then INT_MAX else d + 1, process_eval ev * side),
         p2)

/-- The transposition-table check at the top of `Engine::evaluate`. -/
def evalTop (evalChild : Position → Cache → Int → Int → Int × Cache × Position)
    (maxdepth : Nat) (p : Position) (cache : Cache) (alfa beta : Int) :
    Int × Cache × Position :=
  match cacheFind cache (get_hash p) with
  | some v =>
    if v.1 ≥ maxdepth then (v.2, cache, p)
    else evalBody evalChild p maxdepth cache alfa beta (get_hash p)
  | none => evalBody evalChild p maxdepth cache alfa beta (get_hash p)

/-- `Engine::evaluate` from engine.cpp, by structural recursion on
`maxdepth`.  At depth 0 the child evaluator is never reached (the leaf
branch returns first), so a dummy is passed. -/
def evaluate : Nat → Position → Cache → Int → Int → Int × Cache × Position
  | 0, p, cache, alfa, beta => evalTop (fun q c _ _ => (0, c, q)) 0 p cache alfa beta
  | d + 1, p, cache, alfa, beta =>
    evalTop (fun q c a b => evaluate d q c a b) (d + 1) p cache alfa beta

/-- The warm-up iterations `for depth = 1..maxdepth` of
`Engine::iter_evaluate`, threading position and cache. -/
def iterWarm (p : Position) (cache : Cache) : Nat → Position × Cache
  | 0 => (p, cache)
  | n + 1 =>
    let s := iterWarm p cache n
    let r := evaluate (n + 1) s.1 s.2 (-MATE) MATE
    (r.2.2, r.2.1)

/-- `Engine::iter_evaluate` from engine.cpp. -/
def iter_evaluate (p : Position) (maxdepth : Nat) (cache : Cache) :
    Int × Cache × Position :=
  let s := iterWarm p cache maxdepth
  evaluate maxdepth s.1 s.2 (-MATE) MATE

/-- The `for(int depth = 0; depth < max_moves; depth++)` loop of
`Engine::find_fastest_mate`: `depth` is the current index, the second
`Nat` the remaining iterations. -/
def ffmLoop : Position → Cache → Nat → Nat → String × Cache × Position
  | p, cache, _, 0 => ("Unknown result", cache, p)
  | p, cache, depth, r + 1 =>
    let e := evaluate (2 * depth) p cache (-MATE) MATE
    if MATE_THRESHOLD < |e.1| then
      ((if e.1 > 0 then "White " else "Black ") ++ "mates in " ++
        toString ((MATE - |e.1| + 1) / 2), e.2.1, e.2.2)
    else ffmLoop e.2.2 e.2.1 (depth + 1) r

/-- `Engine::find_fastest_mate` from engine.cpp. -/
def find_fastest_mate (p : Position) (max_moves : Nat) (cache : Cache) :
    String × Cache × Position :=
  ffmLoop p cache 0 max_moves

/-- The `for(auto m : moves)` loop of `Engine::play_random_best`: play a
move whose re-evaluation worsened by one ply meets the target, undoing
failed tries.  Falling off the end is the source's fatal `throw`,
modelled by returning the (fully restored) position. -/
def prbLoop (max_depth : Nat) (target : Int) :
    Position → Cache → List Move → Position × Cache
  | p, cache, [] => (p, cache)
  | p, cache, m :: rest =>
    let p1 := perform_move p m
    let r := iter_evaluate p1 (max_depth - 1) cache
    if process_eval r.1 = target then (r.2.2, r.2.1)
    else prbLoop max_depth target (undo_move r.2.2) r.2.1 rest

/-- `Engine::play_random_best` from engine.cpp; `std::random_shuffle` is
modelled as the identity permutation. -/
def play_random_best (p : Position) (max_depth : Nat) (cache : Cache) :
    Position × Cache :=
  let moves := get_possible_moves p
  if moves.length = 0 then (p, cache)
  else
    let c1 := cacheErase cache (get_hash p)
    let t := iter_evaluate p max_depth c1
    prbLoop max_depth t.1 t.2.2 t.2.1 moves

/-! ## FEN encoding and decoding (position.cpp) -/

/-- The board part of `Position::get_fen`: per square emit the piece (or
extend the empty-run buffer), flushing the buffer at each rank end and
separating ranks with `/`.  Arguments: remaining board, current index,
empty-run buffer. -/
def fenBoardGo : List Char → Nat → Nat → String
  | [], _, _ => ""
  | c :: rest, i, buf =>
    let s1 : String × Nat :=
      if c = '.' then ("", buf + 1)
      else ((if buf > 0 then toString buf else "") ++ ⟨[c]⟩, 0)
    let s2 : String × Nat :=
      if i % 8 = 7 then
        ((if s1.2 > 0 then toString s1.2 else "") ++ (if i ≠ 63 then "/" else ""), 0)
      else ("", s1.2)
    s1.1 ++ s2.1 ++ fenBoardGo rest (i + 1) s2.2

/-- `Position::get_fen` from position.cpp. -/
def get_fen (p : Position) : String :=
  fenBoardGo p.m_board 0 0 ++ " " ++ ⟨[p.m_to_move]⟩ ++ " - " ++
    (if p.m_en_passant = -1 then "-" else square_string p.m_en_passant.toNat) ++
    " 0 1"

/-- `get_square(std::string)` from position.cpp. -/
def get_square_s (c1 c2 : Char) : Nat :=
  get_square ((c1.toLower.toNat : Int) - 'a'.toNat) (8 - ((c2.toLower.toNat : Int) - '0'.toNat))

/-- The board-parsing loop of `Position::Position(std::string)`:
`/` is skipped, a digit places that many `'.'`, anything else is a piece
recorded in both board and piece list; stops once 64 squares are filled.
Returns (board, pieces, unconsumed input). -/
def parseBoardGo (s : List Char) (i : Nat) :
    List Char × List (Char × Nat) × List Char :=
  if 64 ≤ i then ([], [], s)
  else
    match s with
    | [] => ([], [], [])
    | ch :: rest =>
      if ch = '/' then parseBoardGo rest i
      else if '0' ≤ ch ∧ ch ≤ '9' then
        let d := ch.toNat - '0'.toNat
        let r := parseBoardGo rest (i + d)
        (List.replicate d '.' ++ r.1, r.2.1, r.2.2)
      else
        let r := parseBoardGo rest (i + 1)
        (ch :: r.1, (ch, i) :: r.2.1, r.2.2)

/-- `Position::Position(std::string FEN)` from position.cpp: board, then
side to move, then the ignored castling field, then the en-passant
square.  Inputs too short to parse (source: undefined behavior) yield a
junk `'?'` side to move. -/
def positionOfFEN (s : String) : Position :=
  let r := parseBoardGo s.data 0
  match r.2.2 with
  | _ :: tm :: r2 =>
    let r5 := ((r2.drop 1).dropWhile fun c => ¬ c = ' ').drop 1
    let ep : Int :=
      match r5 with
      | '-' :: _ => -1
      | c1 :: c2 :: _ => get_square_s c1 c2
      | _ => -1
    { m_board := r.1, m_to_move := tm, m_en_passant := ep,
      m_pieces := r.2.1, m_prev_moves := [] }
  | _ =>
    { m_board := r.1, m_to_move := '?', m_en_passant := -1,
      m_pieces := r.2.1, m_prev_moves := [] }

/-! ## Data-model invariants (spec §3) and claim-side notions -/

/-- The twelve piece letters. -/
def pieceLetters : List Char := ['K','Q','R','N','B','P','k','q','r','n','b','p']

/-- The non-empty squares of a board as (piece, square) pairs, in board
order; the reference content of `m_pieces`. -/
def listPieces : List Char → Nat → List (Char × Nat)
  | [], _ => []
  | c :: rest, i =>
    if c = '.' then listPieces rest (i + 1) else (c, i) :: listPieces rest (i + 1)

/-- The multiset a well-formed `m_pieces` must equal. -/
def boardPieces (b : List Char) : Multiset (Char × Nat) := (listPieces b 0 : List _)

/-- The data-model invariants of spec §3 (without the king clauses, which
no theorem below needs): board of 64 squares each empty or a piece
letter, `m_to_move` is `'w'` or `'b'`, `m_pieces` agrees with the board
as a multiset, pawns never on the back ranks, and a non-`-1`
`m_en_passant` is an empty 3rd/6th-rank square with the double-pushed
pawn of the side that just moved in front of it. -/
def Inv (p : Position) : Prop :=
  p.m_board.length = 64 ∧
  (p.m_to_move = 'w' ∨ p.m_to_move = 'b') ∧
  (∀ i < 64, boardGet p.m_board i = '.' ∨ boardGet p.m_board i ∈ pieceLetters) ∧
  (p.m_pieces : Multiset (Char × Nat)) = boardPieces p.m_board ∧
  (∀ e ∈ p.m_pieces, e.1.toLower = 'p' → e.2 / 8 ≠ 0 ∧ e.2 / 8 ≠ 7) ∧
  (p.m_en_passant = -1 ∨
    (0 ≤ p.m_en_passant ∧ boardGet p.m_board p.m_en_passant.toNat = '.' ∧
      ((p.m_to_move = 'w' ∧ p.m_en_passant.toNat / 8 = 2 ∧
          boardGet p.m_board (p.m_en_passant.toNat + 8) = 'p') ∨
       (p.m_to_move = 'b' ∧ p.m_en_passant.toNat / 8 = 5 ∧
          boardGet p.m_board (p.m_en_passant.toNat - 8) = 'P'))))

instance (p : Position) : Decidable (Inv p) := by unfold Inv; infer_instance

/-- Position equality as the C++ containers compare: equal board string,
side to move, en-passant, history, and `m_pieces` equal as unordered
content (multiset). -/
def posEq (a b : Position) : Prop :=
  a.m_board = b.m_board ∧ a.m_to_move = b.m_to_move ∧
  a.m_en_passant = b.m_en_passant ∧
  (a.m_pieces : Multiset (Char × Nat)) = (b.m_pieces : Multiset (Char × Nat)) ∧
  a.m_prev_moves = b.m_prev_moves

instance (a b : Position) : Decidable (posEq a b) := by unfold posEq; infer_instance

/-- Claim-side construction (spec §8, negamax symmetry): swap the letter
case of every board entry and piece entry and flip the side to move. -/
def swap_case (c : Char) : Char := if is_upper c then c.toLower else c.toUpper

/-- The color-swapped position of spec §8. -/
def swapColors (p : Position) : Position :=
  { m_board := p.m_board.map swap_case,
    m_to_move := flipToMove p.m_to_move,
    m_en_passant := p.m_en_passant,
    m_pieces := p.m_pieces.map fun e => (swap_case e.1, e.2),
    m_prev_moves := p.m_prev_moves }

/-- Shape facts holding of every move emitted by
`find_pseudo_legal_moves` for the side to move (proved below): target on
the board, distinct source, the mover standing on `m_from`, recorded
capture and en-passant data consistent with the board, and the
case/rank side conditions of the special moves. -/
def MoveOK (p : Position) (m : Move) : Prop :=
  m.m_to < 64 ∧ m.m_from ≠ m.m_to ∧
  boardGet p.m_board m.m_from = m.m_piece ∧
  m.m_piece ∈ pieceLetters ∧
  is_upper m.m_piece = decide (p.m_to_move = 'w') ∧
  m.m_last_enpassant = p.m_en_passant ∧
  ((m.m_special = specNone ∧
      boardGet p.m_board m.m_to = m.m_captured ∧
      (m.m_captured = '.' ∨
        (m.m_captured ∈ pieceLetters ∧ is_upper m.m_captured ≠ is_upper m.m_piece)) ∧
      (m.m_piece.toLower = 'p' →
        (m.m_to / 8 ≠ 0 ∧ m.m_to / 8 ≠ 7) ∧
        (((m.m_from : Int) - m.m_to).natAbs = 16 →
          m.m_captured = '.' ∧ boardGet p.m_board ((m.m_to + m.m_from) / 2) = '.' ∧
          ((m.m_piece = 'P' ∧ m.m_from = m.m_to + 16 ∧ m.m_from / 8 = 6) ∨
           (m.m_piece = 'p' ∧ m.m_to = m.m_from + 16 ∧ m.m_from / 8 = 1))))) ∨
   (m.m_special = 'E' ∧ m.m_piece = 'P' ∧ m.m_captured = '.' ∧
      m.m_to / 8 = 2 ∧ boardGet p.m_board m.m_to = '.' ∧
      boardGet p.m_board (m.m_to + 8) = 'p' ∧
      (m.m_from = m.m_to + 7 ∨ m.m_from = m.m_to + 9)) ∨
   (m.m_special = 'e' ∧ m.m_piece = 'p' ∧ m.m_captured = '.' ∧
      m.m_to / 8 = 5 ∧ boardGet p.m_board m.m_to = '.' ∧
      boardGet p.m_board (m.m_to - 8) = 'P' ∧
      (m.m_to = m.m_from + 7 ∨ m.m_to = m.m_from + 9)) ∨
   (m.m_piece.toLower = 'p' ∧ m.m_special.toLower ∈ (['q','r','n','b'] : List Char) ∧
      m.m_special ∈ pieceLetters ∧
      is_upper m.m_special = is_upper m.m_piece ∧
      boardGet p.m_board m.m_to = m.m_captured ∧
      (m.m_captured = '.' ∨
        (m.m_captured ∈ pieceLetters ∧ is_upper m.m_captured ≠ is_upper m.m_piece)) ∧
      ((m.m_piece = 'P' ∧ m.m_to / 8 = 0 ∧ m.m_from / 8 = 1) ∨
       (m.m_piece = 'p' ∧ m.m_to / 8 = 7 ∧ m.m_from / 8 = 6))))

set_option synthInstance.maxHeartbeats 1000000 in
set_option synthInstance.maxSize 2048 in
instance (p : Position) (m : Move) : Decidable (MoveOK p m) := by
  unfold MoveOK; infer_instance

/-! ## Concrete positions used by the closed example theorems -/

/-- Black king a8, white queen b7 guarded by white king b6, black to
move: checkmate (no legal moves, king attacked). -/
def matePos : Position :=
  { m_board := (List.replicate 64 '.').set 0 'k' |>.set 9 'Q' |>.set 17 'K',
    m_to_move := 'b', m_en_passant := -1,
    m_pieces := [('k', 0), ('Q', 9), ('K', 17)], m_prev_moves := [] }

/-- Only the two kings: White Kd4, Black kd6, white to move. -/
def bareKings : Position :=
  { m_board := (List.replicate 64 '.').set 35 'K' |>.set 19 'k',
    m_to_move := 'w', m_en_passant := -1,
    m_pieces := [('K', 35), ('k', 19)], m_prev_moves := [] }

/-- White Ka1 and Rh1 against black ka8, white to move (pawnless, more
than two pieces, legal moves available). -/
def krkPos : Position :=
  { m_board := (List.replicate 64 '.').set 56 'K' |>.set 63 'R' |>.set 0 'k',
    m_to_move := 'w', m_en_passant := -1,
    m_pieces := [('K', 56), ('R', 63), ('k', 0)], m_prev_moves := [] }

/-- White Kc1 and a pawn on a2 against black kg8, white to move.  Its
color-swapped twin has a black pawn one push away from promotion. -/
def pawnAsym : Position :=
  { m_board := (List.replicate 64 '.').set 58 'K' |>.set 48 'P' |>.set 6 'k',
    m_to_move := 'w', m_en_passant := -1,
    m_pieces := [('K', 58), ('P', 48), ('k', 6)], m_prev_moves := [] }

/-- Kings e1/e8, white pawn e5, black pawn d5 just double-pushed:
`m_en_passant` = d6 (square 19), white to move. -/
def epPos : Position :=
  { m_board := (List.replicate 64 '.').set 60 'K' |>.set 4 'k' |>.set 28 'P' |>.set 27 'p',
    m_to_move := 'w', m_en_passant := 19,
    m_pieces := [('K', 60), ('k', 4), ('P', 28), ('p', 27)], m_prev_moves := [] }

/-! ## Claim-side description of `find_fastest_mate` (spec §6) -/

/-- The (position, cache) state after `i` iterations of the
`find_fastest_mate` loop, per the spec's description: iteration `i`
evaluates at depth `2 * (d0 + i)` and threads position and cache on.
`d0` generalizes the starting depth (0 at the top-level call). -/
def ffmStates : Position → Cache → Nat → Nat → Position × Cache
  | p, cache, _, 0 => (p, cache)
  | p, cache, d0, i + 1 =>
    let e := evaluate (2 * d0) p cache (-MATE) MATE
    ffmStates e.2.2 e.2.1 (d0 + 1) i

/-- The score the spec's description assigns to iteration `i`: the
evaluation at depth `2 * (d0 + i)` from the threaded state. -/
def ffmScore (p : Position) (cache : Cache) (d0 i : Nat) : Int :=
  (evaluate (2 * (d0 + i)) (ffmStates p cache d0 i).1 (ffmStates p cache d0 i).2
    (-MATE) MATE).1

/-- The label the spec prescribes for a mate score `x`:
"White/Black mates in (MATE - |x| + 1) / 2". -/
def mateLabel (x : Int) : String :=
  (if x > 0 then "White " else "Black ") ++ "mates in " ++
    toString ((MATE - |x| + 1) / 2)

/-! ## Generic lemmas about the container model -/

theorem boardGet_set (b : List Char) (i j : Nat) (c : Char) :
    boardGet (b.set i c) j = if i = j ∧ j < b.length then c else boardGet b j := by
  induction b generalizing i j with
  | nil => simp [boardGet]
  | cons x xs ih =>
    cases i with
    | zero =>
      cases j with
      | zero => simp [boardGet]
      | succ j' => simp [boardGet, List.getD_cons_succ]
    | succ i' =>
      cases j with
      | zero => simp [boardGet]
      | succ j' =>
        simp only [List.set_cons_succ, boardGet, List.getD_cons_succ] at *
        rw [ih i' j']
        simp only [List.length_cons]
        congr 1
        simp only [eq_iff_iff]
        omega

theorem boardGet_of_ge {b : List Char} {i : Nat} (h : b.length ≤ i) :
    boardGet b i = '.' := by
  simp [boardGet, List.getD_eq_getElem?_getD, List.getElem?_eq_none h]

theorem lt_of_boardGet_ne {b : List Char} {i : Nat} (h : boardGet b i ≠ '.') :
    i < b.length := by
  by_contra hc
  exact h (boardGet_of_ge (by omega))

theorem list_eq_of_boardGet {a b : List Char} (hl : a.length = b.length)
    (hg : ∀ i, boardGet a i = boardGet b i) : a = b := by
  induction a generalizing b with
  | nil => cases b with
    | nil => rfl
    | cons y ys => simp at hl
  | cons x xs ih =>
    cases b with
    | nil => simp at hl
    | cons y ys =>
      have h0 := hg 0
      simp only [boardGet, List.getD_cons_zero] at h0
      subst h0
      have : xs = ys := by
        refine ih (by simpa using hl) fun i => ?_
        have := hg (i + 1)
        simpa [boardGet, List.getD_cons_succ] using this
      rw [this]

theorem eraseFirst_of_not_mem {l : List (Char × Nat)} {a : Char × Nat}
    (h : a ∉ l) : eraseFirst l a = l := by
  induction l with
  | nil => rfl
  | cons x xs ih =>
    simp only [List.mem_cons, not_or] at h
    simp [eraseFirst, Ne.symm h.1, ih h.2]

theorem coe_eraseFirst {l : List (Char × Nat)} {a : Char × Nat} (h : a ∈ l) :
    (↑(eraseFirst l a) : Multiset (Char × Nat)) = (↑l : Multiset (Char × Nat)).erase a := by
  induction l with
  | nil => simp at h
  | cons x xs ih =>
    by_cases hx : x = a
    · subst hx
      rw [← Multiset.cons_coe, Multiset.erase_cons_head]
      simp [eraseFirst]
    · have hmem : a ∈ xs := by
        rcases List.mem_cons.mp h with h1 | h1
        · exact absurd h1.symm hx
        · exact h1
      simp only [eraseFirst, if_neg hx]
      rw [← Multiset.cons_coe, ← Multiset.cons_coe, ih hmem,
        Multiset.erase_cons_tail_of_mem hmem]

theorem coe_replaceFirst {l : List (Char × Nat)} {a : Char × Nat} (b : Char × Nat)
    (h : a ∈ l) :
    (↑(replaceFirst l a b) : Multiset (Char × Nat)) =
      b ::ₘ (↑l : Multiset (Char × Nat)).erase a := by
  induction l with
  | nil => simp at h
  | cons x xs ih =>
    by_cases hx : x = a
    · subst hx
      rw [← Multiset.cons_coe, Multiset.erase_cons_head]
      simp [replaceFirst]
    · have hmem : a ∈ xs := by
        rcases List.mem_cons.mp h with h1 | h1
        · exact absurd h1.symm hx
        · exact h1
      simp only [replaceFirst, if_neg hx]
      rw [← Multiset.cons_coe, ← Multiset.cons_coe, ih hmem,
        Multiset.erase_cons_tail_of_mem hmem, Multiset.cons_swap]

theorem pieceIdx_eq_none_iff {l : List (Char × Nat)} {c : Char} {sq : Nat} :
    pieceIdx l c sq = none ↔ (c, sq) ∉ l := by
  induction l with
  | nil => simp [pieceIdx]
  | cons x xs ih =>
    by_cases hx : x = (c, sq)
    · simp [pieceIdx, hx]
    · simp only [pieceIdx, if_neg hx, Option.map_eq_none', List.mem_cons, not_or, ih]
      constructor
      · intro h
        exact ⟨fun hc => hx hc.symm, h⟩
      · intro h
        exact h.2

theorem pieceIdx_ne_none {l : List (Char × Nat)} {c : Char} {sq : Nat}
    (h : (c, sq) ∈ l) : pieceIdx l c sq ≠ none := by
  intro hc
  exact (pieceIdx_eq_none_iff.mp hc) h

theorem count_listPieces (b : List Char) : ∀ (i : Nat) (c : Char) (j : Nat),
    Multiset.count (c, j) (↑(listPieces b i) : Multiset (Char × Nat)) =
      if i ≤ j ∧ j - i < b.length ∧ b.getD (j - i) '.' = c ∧ ¬ c = '.' then 1 else 0 := by
  induction b with
  | nil =>
    intro i c j
    simp [listPieces]
  | cons x rest ih =>
    intro i c j
    have hsplit : listPieces (x :: rest) i =
        if x = '.' then listPieces rest (i + 1) else (x, i) :: listPieces rest (i + 1) := rfl
    by_cases hij : i ≤ j
    · by_cases hji : i = j
      · subst hji
        have hz : i - i = 0 := by omega
        by_cases hx : x = '.'
        · rw [hsplit, if_pos hx, ih (i + 1) c i,
            if_neg (fun h => absurd h.1 (by omega)), if_neg]
          intro h
          rw [hz, List.getD_cons_zero, hx] at h
          exact h.2.2.2 h.2.2.1.symm
        · rw [hsplit, if_neg hx, ← Multiset.cons_coe]
          by_cases hxc : x = c
          · subst hxc
            rw [Multiset.count_cons_self, ih (i + 1) x i,
              if_neg (fun h => absurd h.1 (by omega)), if_pos]
            exact ⟨le_refl _, by simp, by rw [hz, List.getD_cons_zero], hx⟩
          · rw [Multiset.count_cons_of_ne (by simp [Ne.symm hxc]),
              ih (i + 1) c i, if_neg (fun h => absurd h.1 (by omega)), if_neg]
            intro h
            rw [hz, List.getD_cons_zero] at h
            exact hxc h.2.2.1
      · have hlt : i < j := by omega
        have e : (x :: rest).getD (j - i) '.' = rest.getD (j - (i + 1)) '.' := by
          rw [show j - i = (j - (i + 1)) + 1 by omega, List.getD_cons_succ]
        have heq : (if i + 1 ≤ j ∧ j - (i + 1) < rest.length ∧
              rest.getD (j - (i + 1)) '.' = c ∧ ¬ c = '.' then 1 else 0) =
            (if i ≤ j ∧ j - i < (x :: rest).length ∧
              (x :: rest).getD (j - i) '.' = c ∧ ¬ c = '.' then (1 : Nat) else 0) := by
          rw [e]
          simp only [List.length_cons]
          congr 1
          simp only [eq_iff_iff]
          constructor
          · rintro ⟨h1, h2, h3, h4⟩
            exact ⟨by omega, by omega, h3, h4⟩
          · rintro ⟨h1, h2, h3, h4⟩
            exact ⟨by omega, by omega, h3, h4⟩
        by_cases hx : x = '.'
        · rw [hsplit, if_pos hx, ih (i + 1) c j, heq]
        · rw [hsplit, if_neg hx, ← Multiset.cons_coe,
            Multiset.count_cons_of_ne (by simp only [ne_eq, Prod.mk.injEq, not_and]; intro _; omega),
            ih (i + 1) c j, heq]
    · have h0 : ∀ k : Nat, Multiset.count (c, j) (↑(listPieces rest k) : Multiset (Char × Nat)) = 0 →
        True := fun _ _ => trivial
      by_cases hx : x = '.'
      · rw [hsplit, if_pos hx, ih (i + 1) c j,
          if_neg (fun h => absurd h.1 (by omega)), if_neg (fun h => absurd h.1 (by omega))]
      · rw [hsplit, if_neg hx, ← Multiset.cons_coe,
          Multiset.count_cons_of_ne (by simp only [ne_eq, Prod.mk.injEq, not_and]; intro _; omega),
          ih (i + 1) c j,
          if_neg (fun h => absurd h.1 (by omega)), if_neg (fun h => absurd h.1 (by omega))]

theorem count_boardPieces {b : List Char} (c : Char) (j : Nat) :
    Multiset.count (c, j) (boardPieces b) =
      if boardGet b j = c ∧ ¬ c = '.' ∧ j < b.length then 1 else 0 := by
  unfold boardPieces
  rw [count_listPieces b 0 c j]
  congr 1
  simp only [eq_iff_iff, Nat.sub_zero, boardGet]
  constructor
  · rintro ⟨_, h2, h3, h4⟩
    exact ⟨h3, h4, h2⟩
  · rintro ⟨h1, h2, h3⟩
    exact ⟨Nat.zero_le _, h3, h1, h2⟩

theorem mem_boardPieces_iff {b : List Char} {c : Char} {j : Nat} :
    (c, j) ∈ boardPieces b ↔ boardGet b j = c ∧ ¬ c = '.' ∧ j < b.length := by
  rw [← Multiset.count_pos, count_boardPieces]
  split_ifs with h
  · simpa using h
  · simpa using h

/-- Replacing one square exchanges exactly the corresponding entry of
`boardPieces`. -/
theorem boardPieces_set {b : List Char} {j : Nat} (hj : j < b.length) (c : Char) :
    boardPieces (b.set j c) +
      (if boardGet b j = '.' then 0 else {(boardGet b j, j)}) =
    boardPieces b + (if c = '.' then 0 else {(c, j)}) := by
  ext x
  rcases x with ⟨d, k⟩
  have hlen : (b.set j c).length = b.length := List.length_set b j c
  have hget := boardGet_set b j k c
  simp only [Multiset.count_add, count_boardPieces, hlen, hget]
  by_cases hjk : j = k
  · subst hjk
    have hcount1 : Multiset.count ((d, j) : Char × Nat)
        (if boardGet b j = '.' then 0 else {(boardGet b j, j)}) =
        if boardGet b j = d ∧ ¬ boardGet b j = '.' then 1 else 0 := by
      split_ifs with h1 h2 h3
      · exact absurd h1 h2.2
      · simp
      · rw [show boardGet b j = d from h3.1, Multiset.count_singleton, if_pos rfl]
      · rw [Multiset.count_singleton,
          if_neg (fun he : (d, j) = (boardGet b j, j) =>
            h3 ⟨by simpa using (congrArg Prod.fst he).symm, h1⟩)]
    have hcount2 : Multiset.count ((d, j) : Char × Nat)
        (if c = '.' then 0 else {(c, j)}) =
        if c = d ∧ ¬ c = '.' then 1 else 0 := by
      split_ifs with h1 h2 h3
      · exact absurd h1 h2.2
      · simp
      · rw [show c = d from h3.1, Multiset.count_singleton, if_pos rfl]
      · rw [Multiset.count_singleton,
          if_neg (fun he : (d, j) = (c, j) =>
            h3 ⟨by simpa using (congrArg Prod.fst he).symm, h1⟩)]
    rw [hcount1, hcount2]
    split_ifs <;> simp_all
  · have hc1 : Multiset.count ((d, k) : Char × Nat)
        (if boardGet b j = '.' then 0 else {(boardGet b j, j)}) = 0 := by
      split_ifs
      · simp
      · rw [Multiset.count_singleton,
          if_neg (fun he : (d, k) = (boardGet b j, j) =>
            hjk (Eq.symm (by simpa using congrArg Prod.snd he)))]
    have hc2 : Multiset.count ((d, k) : Char × Nat)
        (if c = '.' then 0 else {(c, j)}) = 0 := by
      split_ifs
      · simp
      · rw [Multiset.count_singleton,
          if_neg (fun he : (d, k) = (c, j) =>
            hjk (Eq.symm (by simpa using congrArg Prod.snd he)))]
    rw [hc1, hc2,
      if_neg (show ¬ (j = k ∧ k < b.length) from fun h => hjk h.1)]

/-! ## Characterization of `perform_move` on well-formed inputs -/

theorem pieceLetters_ne_dot : ∀ c ∈ pieceLetters, ¬ c = '.' := by decide

theorem mem_pieces_of_board {p : Position} (hI : Inv p) {c : Char} {s : Nat}
    (hb : boardGet p.m_board s = c) (hc : ¬ c = '.') : (c, s) ∈ p.m_pieces := by
  obtain ⟨hlen, _, _, hagree, _, _⟩ := hI
  have hslt : s < p.m_board.length := lt_of_boardGet_ne (fun h => hc (hb ▸ h))
  have : (c, s) ∈ boardPieces p.m_board := mem_boardPieces_iff.mpr ⟨hb, hc, hslt⟩
  rw [← hagree] at this
  exact Multiset.mem_coe.mp this

theorem moveok_spec_none {p : Position} {m : Move} (hm : MoveOK p m)
    (hs : m.m_special = specNone) :
    boardGet p.m_board m.m_to = m.m_captured ∧
      (m.m_captured = '.' ∨
        (m.m_captured ∈ pieceLetters ∧ is_upper m.m_captured ≠ is_upper m.m_piece)) ∧
      (m.m_piece.toLower = 'p' →
        (m.m_to / 8 ≠ 0 ∧ m.m_to / 8 ≠ 7) ∧
        (((m.m_from : Int) - m.m_to).natAbs = 16 →
          m.m_captured = '.' ∧ boardGet p.m_board ((m.m_to + m.m_from) / 2) = '.' ∧
          ((m.m_piece = 'P' ∧ m.m_from = m.m_to + 16 ∧ m.m_from / 8 = 6) ∨
           (m.m_piece = 'p' ∧ m.m_to = m.m_from + 16 ∧ m.m_from / 8 = 1)))) := by
  rcases hm with ⟨_, _, _, _, _, _, h | h | h | h⟩
  · exact h.2
  · exact absurd (hs ▸ h.1) (by decide)
  · exact absurd (hs ▸ h.1) (by decide)
  · exact absurd (hs ▸ h.2.1) (by decide)

theorem moveok_spec_E {p : Position} {m : Move} (hm : MoveOK p m)
    (hs : m.m_special = 'E') :
    m.m_piece = 'P' ∧ m.m_captured = '.' ∧
      m.m_to / 8 = 2 ∧ boardGet p.m_board m.m_to = '.' ∧
      boardGet p.m_board (m.m_to + 8) = 'p' ∧
      (m.m_from = m.m_to + 7 ∨ m.m_from = m.m_to + 9) := by
  rcases hm with ⟨_, _, _, _, _, _, h | h | h | h⟩
  · exact absurd (hs ▸ h.1) (by decide)
  · exact h.2
  · exact absurd (hs ▸ h.1) (by decide)
  · exact absurd (hs ▸ h.2.1) (by decide)

theorem moveok_spec_e {p : Position} {m : Move} (hm : MoveOK p m)
    (hs : m.m_special = 'e') :
    m.m_piece = 'p' ∧ m.m_captured = '.' ∧
      m.m_to / 8 = 5 ∧ boardGet p.m_board m.m_to = '.' ∧
      boardGet p.m_board (m.m_to - 8) = 'P' ∧
      (m.m_to = m.m_from + 7 ∨ m.m_to = m.m_from + 9) := by
  rcases hm with ⟨_, _, _, _, _, _, h | h | h | h⟩
  · exact absurd (hs ▸ h.1) (by decide)
  · exact absurd (hs ▸ h.1) (by decide)
  · exact h.2
  · exact absurd (hs ▸ h.2.1) (by decide)

theorem moveok_spec_promo {p : Position} {m : Move}  (hm : MoveOK p m)
    (hq : m.m_special.toLower ∈ (['q','r','n','b'] : List Char)) :
    m.m_piece.toLower = 'p' ∧
      m.m_special ∈ pieceLetters ∧
      is_upper m.m_special = is_upper m.m_piece ∧
      boardGet p.m_board m.m_to = m.m_captured ∧
      (m.m_captured = '.' ∨
        (m.m_captured ∈ pieceLetters ∧ is_upper m.m_captured ≠ is_upper m.m_piece)) ∧
      ((m.m_piece = 'P' ∧ m.m_to / 8 = 0 ∧ m.m_from / 8 = 1) ∨
       (m.m_piece = 'p' ∧ m.m_to / 8 = 7 ∧ m.m_from / 8 = 6)) := by
  rcases hm with ⟨_, _, _, _, _, _, h | h | h | h⟩
  · exact absurd (h.1 ▸ hq) (by decide)
  · exact absurd (h.1 ▸ hq) (by decide)
  · exact absurd (h.1 ▸ hq) (by decide)
  · exact ⟨h.1, h.2.2.1, h.2.2.2.1, h.2.2.2.2.1, h.2.2.2.2.2.1, h.2.2.2.2.2.2⟩

theorem moveok_special_cases {p : Position} {m : Move} (hm : MoveOK p m) :
    m.m_special = specNone ∨ m.m_special = 'E' ∨ m.m_special = 'e' ∨
      m.m_special.toLower ∈ (['q','r','n','b'] : List Char) := by
  rcases hm with ⟨_, _, _, _, _, _, h | h | h | h⟩
  · exact Or.inl h.1
  · exact Or.inr (Or.inl h.1)
  · exact Or.inr (Or.inr (Or.inl h.1))
  · exact Or.inr (Or.inr (Or.inr h.2.1))

theorem perform_move_eq_none {p : Position} {m : Move} (hI : Inv p)
    (hm : MoveOK p m) (hs : m.m_special = specNone) :
    perform_move p m =
      { m_board := (p.m_board.set m.m_from '.').set m.m_to m.m_piece,
        m_to_move := flipToMove p.m_to_move,
        m_en_passant :=
          if m.m_piece.toLower = 'p' ∧ ((m.m_from : Int) - m.m_to).natAbs = 16 then
            ((m.m_to + m.m_from) / 2 : Nat)
          else -1,
        m_pieces := replaceFirst
          (if m.m_captured ≠ '.' then eraseFirst p.m_pieces (m.m_captured, m.m_to)
           else p.m_pieces)
          (m.m_piece, m.m_from) (m.m_piece, m.m_to),
        m_prev_moves := p.m_prev_moves ++ [m] } := by
  obtain ⟨hcap, _, _⟩ := moveok_spec_none hm hs
  obtain ⟨hto, hne, hat, hletter, _, _, _⟩ := hm
  have hmem : (m.m_piece, m.m_from) ∈ p.m_pieces :=
    mem_pieces_of_board hI hat (pieceLetters_ne_dot _ hletter)
  have hguard : ¬ (m.m_captured ≠ '.' ∧ pieceIdx p.m_pieces m.m_captured m.m_to = none) := by
    rintro ⟨hne2, hnone⟩
    exact pieceIdx_ne_none (mem_pieces_of_board hI hcap hne2) hnone
  rcases hpi : pieceIdx p.m_pieces m.m_piece m.m_from with _ | k
  · exact absurd hpi (pieceIdx_ne_none hmem)
  · simp only [perform_move, hpi, if_neg hguard, if_pos hs]

theorem mem_replaceFirst_of_ne {l : List (Char × Nat)} {a b c : Char × Nat}
    (hmem : a ∈ l) (hb : b ∈ l) (hne : a ≠ b) : a ∈ replaceFirst l b c := by
  rw [← Multiset.mem_coe, coe_replaceFirst c hb]
  exact Multiset.mem_cons_of_mem ((Multiset.mem_erase_of_ne hne).mpr (Multiset.mem_coe.mpr hmem))

theorem perform_move_eq_E {p : Position} {m : Move} (hI : Inv p)
    (hm : MoveOK p m) (hs : m.m_special = 'E') :
    perform_move p m =
      { m_board := (((p.m_board.set m.m_from '.').set m.m_to m.m_piece).set (m.m_to + 8) '.'),
        m_to_move := flipToMove p.m_to_move,
        m_en_passant := -1,
        m_pieces := eraseFirst
          (replaceFirst p.m_pieces (m.m_piece, m.m_from) (m.m_piece, m.m_to))
          ('p', m.m_to + 8),
        m_prev_moves := p.m_prev_moves ++ [m] } := by
  obtain ⟨hP, hcap, hrow, hempty, hpawn, hfrom⟩ := moveok_spec_E hm hs
  obtain ⟨hto, hne, hat, hletter, _, _, _⟩ := hm
  have hmem : (m.m_piece, m.m_from) ∈ p.m_pieces :=
    mem_pieces_of_board hI hat (pieceLetters_ne_dot _ hletter)
  have hp8 : (('p' : Char), m.m_to + 8) ∈ p.m_pieces :=
    mem_pieces_of_board hI hpawn (by decide)
  have hp8' : (('p' : Char), m.m_to + 8) ∈
      replaceFirst p.m_pieces (m.m_piece, m.m_from) (m.m_piece, m.m_to) := by
    refine mem_replaceFirst_of_ne hp8 hmem ?_
    rw [hP]
    simp only [ne_eq, Prod.mk.injEq, not_and]
    intro h
    exact absurd h (by decide)
  rcases hpi : pieceIdx p.m_pieces m.m_piece m.m_from with _ | k
  · exact absurd hpi (pieceIdx_ne_none hmem)
  · have hnocap : ¬ (m.m_captured ≠ '.' ∧
        pieceIdx p.m_pieces m.m_captured m.m_to = none) := by
      rintro ⟨hne2, _⟩
      exact hne2 hcap
    have hg1 : ¬ m.m_special = specNone := by
      rw [hs]; decide
    have hg2 : ¬ (is_upper m.m_piece ≠ is_upper m.m_special) := by
      rw [hs, hP]; decide
    have hg3 : ¬ m.m_special = 'e' := by
      rw [hs]; decide
    have hcapif : (if m.m_captured ≠ '.' then
        eraseFirst p.m_pieces (m.m_captured, m.m_to) else p.m_pieces) = p.m_pieces := by
      rw [if_neg (fun h => h hcap)]
    have hg4 : ¬ pieceIdx
        (replaceFirst p.m_pieces (m.m_piece, m.m_from) (m.m_piece, m.m_to))
        'p' (m.m_to + 8) = none := pieceIdx_ne_none hp8'
    have hepn : ¬ (m.m_piece.toLower = 'p' ∧ ((m.m_from : Int) - m.m_to).natAbs = 16) := by
      rintro ⟨_, h16⟩
      rcases hfrom with h | h <;> rw [h] at h16 <;> omega
    simp only [perform_move, hpi, if_neg hnocap, if_neg hg1, if_neg hg2, if_neg hg3,
      if_pos hs, hcapif, if_neg hg4, if_neg hepn]

theorem perform_move_eq_e {p : Position} {m : Move} (hI : Inv p)
    (hm : MoveOK p m) (hs : m.m_special = 'e') :
    perform_move p m =
      { m_board := (((p.m_board.set m.m_from '.').set m.m_to m.m_piece).set (m.m_to - 8) '.'),
        m_to_move := flipToMove p.m_to_move,
        m_en_passant := -1,
        m_pieces := eraseFirst
          (replaceFirst p.m_pieces (m.m_piece, m.m_from) (m.m_piece, m.m_to))
          ('P', m.m_to - 8),
        m_prev_moves := p.m_prev_moves ++ [m] } := by
  obtain ⟨hP, hcap, hrow, hempty, hpawn, hfrom⟩ := moveok_spec_e hm hs
  obtain ⟨hto, hne, hat, hletter, _, _, _⟩ := hm
  have hmem : (m.m_piece, m.m_from) ∈ p.m_pieces :=
    mem_pieces_of_board hI hat (pieceLetters_ne_dot _ hletter)
  have hp8 : (('P' : Char), m.m_to - 8) ∈ p.m_pieces :=
    mem_pieces_of_board hI hpawn (by decide)
  have hp8' : (('P' : Char), m.m_to - 8) ∈
      replaceFirst p.m_pieces (m.m_piece, m.m_from) (m.m_piece, m.m_to) := by
    refine mem_replaceFirst_of_ne hp8 hmem ?_
    rw [hP]
    simp only [ne_eq, Prod.mk.injEq, not_and]
    intro h
    exact absurd h (by decide)
  rcases hpi : pieceIdx p.m_pieces m.m_piece m.m_from with _ | k
  · exact absurd hpi (pieceIdx_ne_none hmem)
  · have hnocap : ¬ (m.m_captured ≠ '.' ∧
        pieceIdx p.m_pieces m.m_captured m.m_to = none) := by
      rintro ⟨hne2, _⟩
      exact hne2 hcap
    have hg1 : ¬ m.m_special = specNone := by
      rw [hs]; decide
    have hg2 : ¬ (is_upper m.m_piece ≠ is_upper m.m_special) := by
      rw [hs, hP]; decide
    have hcapif : (if m.m_captured ≠ '.' then
        eraseFirst p.m_pieces (m.m_captured, m.m_to) else p.m_pieces) = p.m_pieces := by
      rw [if_neg (fun h => h hcap)]
    have hg4 : ¬ pieceIdx
        (replaceFirst p.m_pieces (m.m_piece, m.m_from) (m.m_piece, m.m_to))
        'P' (m.m_to - 8) = none := pieceIdx_ne_none hp8'
    have hepn : ¬ (m.m_piece.toLower = 'p' ∧ ((m.m_from : Int) - m.m_to).natAbs = 16) := by
      rintro ⟨_, h16⟩
      rcases hfrom with h | h <;> rw [h] at h16 <;> omega
    simp only [perform_move, hpi, if_neg hnocap, if_neg hg1, if_neg hg2, if_pos hs,
      hcapif, if_neg hg4, if_neg hepn]

theorem perform_move_eq_promo {p : Position} {m : Move} (hI : Inv p)
    (hm : MoveOK p m) (hq : m.m_special.toLower ∈ (['q','r','n','b'] : List Char)) :
    perform_move p m =
      { m_board := ((p.m_board.set m.m_from '.').set m.m_to m.m_piece).set m.m_to m.m_special,
        m_to_move := flipToMove p.m_to_move,
        m_en_passant := -1,
        m_pieces := (m.m_special, m.m_to) :: eraseFirst
          (replaceFirst
            (if m.m_captured ≠ '.' then eraseFirst p.m_pieces (m.m_captured, m.m_to)
             else p.m_pieces)
            (m.m_piece, m.m_from) (m.m_piece, m.m_to))
          (m.m_piece, m.m_to),
        m_prev_moves := p.m_prev_moves ++ [m] } := by
  obtain ⟨hpawn, _, hcase, hcap, _, hrows⟩ := moveok_spec_promo hm hq
  obtain ⟨hto, hne, hat, hletter, _, _, _⟩ := hm
  have hmem : (m.m_piece, m.m_from) ∈ p.m_pieces :=
    mem_pieces_of_board hI hat (pieceLetters_ne_dot _ hletter)
  have hguard : ¬ (m.m_captured ≠ '.' ∧ pieceIdx p.m_pieces m.m_captured m.m_to = none) := by
    rintro ⟨hne2, hnone⟩
    exact pieceIdx_ne_none (mem_pieces_of_board hI hcap hne2) hnone
  rcases hpi : pieceIdx p.m_pieces m.m_piece m.m_from with _ | k
  · exact absurd hpi (pieceIdx_ne_none hmem)
  · have hg1 : ¬ m.m_special = specNone := by
      intro h
      rw [h] at hq
      exact absurd hq (by decide)
    have hg2 : ¬ (is_upper m.m_piece ≠ is_upper m.m_special) := fun h => h hcase.symm
    have hg3 : ¬ m.m_special = 'e' := by
      intro h
      rw [h] at hq
      exact absurd hq (by decide)
    have hg4 : ¬ m.m_special = 'E' := by
      intro h
      rw [h] at hq
      exact absurd hq (by decide)
    have hepn : ¬ (m.m_piece.toLower = 'p' ∧ ((m.m_from : Int) - m.m_to).natAbs = 16) := by
      rintro ⟨_, h16⟩
      rcases hrows with ⟨_, h1, h2⟩ | ⟨_, h1, h2⟩ <;> omega
    simp only [perform_move, hpi, if_neg hguard, if_neg hg1, if_neg hg2, if_neg hg3,
      if_neg hg4, if_neg hepn]

/-! ## `perform_move` preserves the invariants -/

theorem ms_erase_add_singleton {α : Type} [DecidableEq α] {s : Multiset α} {a : α}
    (h : a ∈ s) : s.erase a + {a} = s := by
  rw [add_comm, Multiset.singleton_add, Multiset.cons_erase h]

theorem flip_wb {c : Char} (h : c = 'w' ∨ c = 'b') :
    flipToMove c = 'w' ∨ flipToMove c = 'b' := by
  rcases h with h | h <;> rw [h] <;> simp [flipToMove]

theorem from_lt_64 {p : Position} {m : Move} (hI : Inv p) (hm : MoveOK p m) :
    m.m_from < 64 := by
  obtain ⟨hlen, _, _, _, _, _⟩ := hI
  obtain ⟨_, _, hat, hletter, _⟩ := hm
  have := lt_of_boardGet_ne (b := p.m_board) (i := m.m_from)
    (fun h => pieceLetters_ne_dot _ hletter (hat.symm.trans h))
  omega

theorem inv_mk {b : List Char} {tm : Char} {ep : Int} {ps : List (Char × Nat)}
    {pm : List Move}
    (h1 : b.length = 64) (h2 : tm = 'w' ∨ tm = 'b')
    (h3 : ∀ i < 64, boardGet b i = '.' ∨ boardGet b i ∈ pieceLetters)
    (h4 : (ps : Multiset (Char × Nat)) = boardPieces b)
    (h5 : ∀ e ∈ ps, e.1.toLower = 'p' → e.2 / 8 ≠ 0 ∧ e.2 / 8 ≠ 7)
    (h6 : ep = -1 ∨
      (0 ≤ ep ∧ boardGet b ep.toNat = '.' ∧
        ((tm = 'w' ∧ ep.toNat / 8 = 2 ∧ boardGet b (ep.toNat + 8) = 'p') ∨
         (tm = 'b' ∧ ep.toNat / 8 = 5 ∧ boardGet b (ep.toNat - 8) = 'P')))) :
    Inv ⟨b, tm, ep, ps, pm⟩ :=
  ⟨h1, h2, h3, h4, h5, h6⟩

theorem inv_after_none {p : Position} {m : Move} (hI : Inv p) (hm : MoveOK p m)
    (hs : m.m_special = specNone) : Inv (perform_move p m) := by
  obtain ⟨hcap, hcapcase, hpawnfacts⟩ := moveok_spec_none hm hs
  obtain ⟨hlen, htm, hbl, hagree, hpr, hep⟩ := id hI
  obtain ⟨hto, hnefr, hat, hletter, hcolor, hprev, -⟩ := id hm
  have hflt : m.m_from < 64 := from_lt_64 hI hm
  have hmemf : (m.m_piece, m.m_from) ∈ p.m_pieces :=
    mem_pieces_of_board hI hat (pieceLetters_ne_dot _ hletter)
  rw [perform_move_eq_none hI hm hs]
  have hlen1 : (p.m_board.set m.m_from '.').length = 64 := by
    rw [List.length_set]; exact hlen
  have hlen2 : ((p.m_board.set m.m_from '.').set m.m_to m.m_piece).length = 64 := by
    rw [List.length_set]; exact hlen1
  have S1 : boardPieces (p.m_board.set m.m_from '.') + {(m.m_piece, m.m_from)} =
      boardPieces p.m_board := by
    have h := boardPieces_set (b := p.m_board) (j := m.m_from) (by omega) '.'
    rw [hat, if_neg (pieceLetters_ne_dot _ hletter), if_pos rfl, add_zero] at h
    exact h
  have hb1t : boardGet (p.m_board.set m.m_from '.') m.m_to = m.m_captured := by
    rw [boardGet_set, if_neg (fun h => hnefr h.1)]
    exact hcap
  have S2 : boardPieces ((p.m_board.set m.m_from '.').set m.m_to m.m_piece) +
      (if m.m_captured = '.' then 0 else {(m.m_captured, m.m_to)}) =
      boardPieces (p.m_board.set m.m_from '.') + {(m.m_piece, m.m_to)} := by
    have h := boardPieces_set (b := p.m_board.set m.m_from '.') (j := m.m_to)
      (by omega) m.m_piece
    rw [hb1t, if_neg (pieceLetters_ne_dot _ hletter)] at h
    exact h
  have hmemf1 : (m.m_piece, m.m_from) ∈
      (if m.m_captured ≠ '.' then eraseFirst p.m_pieces (m.m_captured, m.m_to)
       else p.m_pieces) := by
    split_ifs with h
    · rw [← Multiset.mem_coe, coe_eraseFirst (mem_pieces_of_board hI hcap h)]
      refine (Multiset.mem_erase_of_ne ?_).mpr (Multiset.mem_coe.mpr hmemf)
      simp only [ne_eq, Prod.mk.injEq, not_and]
      intro _
      exact hnefr
    · exact hmemf
  refine inv_mk hlen2 (flip_wb htm) ?_ ?_ ?_ ?_
  · -- board letters
    intro i hi
    rw [boardGet_set, boardGet_set]
    split_ifs with h1 h2
    · exact Or.inr hletter
    · exact Or.inl rfl
    · exact hbl i hi
  · -- pieces/board agreement
    rw [coe_replaceFirst _ hmemf1]
    by_cases h : m.m_captured = '.'
    · have hifL : (if m.m_captured ≠ '.' then eraseFirst p.m_pieces (m.m_captured, m.m_to)
          else p.m_pieces) = p.m_pieces := by rw [if_neg (fun hh => hh h)]
      rw [hifL, hagree]
      rw [if_pos h, add_zero] at S2
      rw [S2]
      have hkey : (boardPieces p.m_board).erase (m.m_piece, m.m_from) =
          boardPieces (p.m_board.set m.m_from '.') := by
        rw [← S1, add_comm, Multiset.singleton_add, Multiset.erase_cons_head]
      rw [hkey, add_comm, Multiset.singleton_add]
    · have hifL : (if m.m_captured ≠ '.' then eraseFirst p.m_pieces (m.m_captured, m.m_to)
          else p.m_pieces) = eraseFirst p.m_pieces (m.m_captured, m.m_to) := by
        rw [if_pos (fun hh => h hh)]
      have hmemc : (m.m_captured, m.m_to) ∈ p.m_pieces :=
        mem_pieces_of_board hI hcap h
      have hmemcB : ((m.m_captured, m.m_to) : Char × Nat) ∈ boardPieces p.m_board := by
        rw [← hagree]
        exact Multiset.mem_coe.mpr hmemc
      rw [hifL, coe_eraseFirst hmemc, hagree]
      rw [if_neg h] at S2
      have hmemf2 : ((m.m_piece, m.m_from) : Char × Nat) ∈
          (boardPieces p.m_board).erase (m.m_captured, m.m_to) := by
        refine (Multiset.mem_erase_of_ne ?_).mpr ?_
        · simp only [ne_eq, Prod.mk.injEq, not_and]
          intro _
          exact hnefr
        · rw [← hagree]
          exact Multiset.mem_coe.mpr hmemf
      have hL : ((m.m_piece, m.m_to) ::ₘ
            ((boardPieces p.m_board).erase (m.m_captured, m.m_to)).erase (m.m_piece, m.m_from)) +
            {(m.m_captured, m.m_to)} + {(m.m_piece, m.m_from)} =
          (m.m_piece, m.m_to) ::ₘ boardPieces p.m_board := by
        rw [Multiset.cons_add, Multiset.cons_add, add_right_comm,
          ms_erase_add_singleton hmemf2, ms_erase_add_singleton hmemcB]
      have hR : boardPieces ((p.m_board.set m.m_from '.').set m.m_to m.m_piece) +
            {(m.m_captured, m.m_to)} + {(m.m_piece, m.m_from)} =
          (m.m_piece, m.m_to) ::ₘ boardPieces p.m_board := by
        rw [S2, add_right_comm, S1, add_comm, Multiset.singleton_add]
      exact add_right_cancel (add_right_cancel (hL.trans hR.symm))
  · -- pawn ranks
    intro e he
    rw [← Multiset.mem_coe, coe_replaceFirst _ hmemf1] at he
    rcases Multiset.mem_cons.mp he with h | h
    · subst h
      intro hp
      exact (hpawnfacts hp).1
    · have h2 : e ∈ (if m.m_captured ≠ '.' then eraseFirst p.m_pieces (m.m_captured, m.m_to)
          else p.m_pieces) := Multiset.mem_coe.mp (Multiset.mem_of_mem_erase h)
      have h3 : e ∈ p.m_pieces := by
        by_cases hc : m.m_captured = '.'
        · rwa [if_neg (fun hh => hh hc)] at h2
        · rw [if_pos (fun hh => hc hh)] at h2
          have h4 := Multiset.mem_coe.mpr h2
          rw [coe_eraseFirst (mem_pieces_of_board hI hcap hc)] at h4
          exact Multiset.mem_coe.mp (Multiset.mem_of_mem_erase h4)
      exact hpr e h3
  · -- en-passant clause
    by_cases hd : m.m_piece.toLower = 'p' ∧ ((m.m_from : Int) - m.m_to).natAbs = 16
    · obtain ⟨hdp, hd16⟩ := hd
      obtain ⟨hcape, hmid, hside⟩ := (hpawnfacts hdp).2 hd16
      rw [if_pos ⟨hdp, hd16⟩]
      refine Or.inr ?_
      rcases hside with ⟨hw, hf, hr⟩ | ⟨hb, hf, hr⟩
      · -- white double push: new side to move is 'b'
        have htmw : p.m_to_move = 'w' := by
          rw [hw] at hcolor
          simpa [is_upper] using hcolor.symm
        have hmid' : (m.m_to + m.m_from) / 2 = m.m_to + 8 := by omega
        refine ⟨Int.natCast_nonneg _, ?_, Or.inr ⟨?_, ?_, ?_⟩⟩
        · rw [Int.toNat_natCast, hmid', boardGet_set,
            if_neg (by rintro ⟨h1, -⟩; omega), boardGet_set,
            if_neg (by rintro ⟨h1, -⟩; omega), ← hmid']
          exact hmid
        · simp [flipToMove, htmw]
        · rw [Int.toNat_natCast, hmid']
          omega
        · rw [Int.toNat_natCast, hmid',
            show m.m_to + 8 - 8 = m.m_to by omega,
            boardGet_set, if_pos ⟨rfl, by omega⟩, hw]
      · -- black double push: new side to move is 'w'
        have htmb : p.m_to_move = 'b' := by
          rw [hb] at hcolor
          rcases htm with h | h
          · rw [h] at hcolor
            simp [is_upper] at hcolor
          · exact h
        have hmid' : (m.m_to + m.m_from) / 2 = m.m_from + 8 := by omega
        refine ⟨Int.natCast_nonneg _, ?_, Or.inl ⟨?_, ?_, ?_⟩⟩
        · rw [Int.toNat_natCast, hmid', boardGet_set,
            if_neg (by rintro ⟨h1, -⟩; omega), boardGet_set,
            if_neg (by rintro ⟨h1, -⟩; omega),
            show m.m_from + 8 = (m.m_to + m.m_from) / 2 by omega]
          exact hmid
        · simp [flipToMove, htmb]
        · rw [Int.toNat_natCast, hmid']
          omega
        · rw [Int.toNat_natCast, hmid',
            show m.m_from + 8 + 8 = m.m_to by omega,
            boardGet_set, if_pos ⟨rfl, by omega⟩, hb]
    · rw [if_neg hd]
      exact Or.inl rfl

theorem cons_as_add {α : Type} (a : α) (s : Multiset α) : a ::ₘ s = s + {a} := by
  rw [← Multiset.singleton_add, add_comm]

theorem inv_after_E {p : Position} {m : Move} (hI : Inv p) (hm : MoveOK p m)
    (hs : m.m_special = 'E') : Inv (perform_move p m) := by
  obtain ⟨hP, hcap, hrow, hempty, hpawn, hfrom⟩ := moveok_spec_E hm hs
  obtain ⟨hlen, htm, hbl, hagree, hpr, hep⟩ := id hI
  obtain ⟨hto, hnefr, hat, hletter, hcolor, hprev, -⟩ := id hm
  have hflt : m.m_from < 64 := from_lt_64 hI hm
  have hmemf : (m.m_piece, m.m_from) ∈ p.m_pieces :=
    mem_pieces_of_board hI hat (pieceLetters_ne_dot _ hletter)
  have hmemfB : ((m.m_piece, m.m_from) : Char × Nat) ∈ boardPieces p.m_board := by
    rw [← hagree]; exact Multiset.mem_coe.mpr hmemf
  have hp8 : (('p' : Char), m.m_to + 8) ∈ p.m_pieces :=
    mem_pieces_of_board hI hpawn (by decide)
  have hp8' : (('p' : Char), m.m_to + 8) ∈
      replaceFirst p.m_pieces (m.m_piece, m.m_from) (m.m_piece, m.m_to) := by
    refine mem_replaceFirst_of_ne hp8 hmemf ?_
    rw [hP]
    simp only [ne_eq, Prod.mk.injEq, not_and]
    intro h
    exact absurd h (by decide)
  have hp8eB : (('p' : Char), m.m_to + 8) ∈
      (boardPieces p.m_board).erase (m.m_piece, m.m_from) := by
    refine (Multiset.mem_erase_of_ne ?_).mpr ?_
    · simp only [ne_eq, Prod.mk.injEq, not_and]
      intro _ h2
      rcases hfrom with h | h <;> omega
    · rw [← hagree]; exact Multiset.mem_coe.mpr hp8
  rw [perform_move_eq_E hI hm hs]
  have hlen1 : (p.m_board.set m.m_from '.').length = 64 := by
    rw [List.length_set]; exact hlen
  have hlen2 : ((p.m_board.set m.m_from '.').set m.m_to m.m_piece).length = 64 := by
    rw [List.length_set]; exact hlen1
  have hlen3 : (((p.m_board.set m.m_from '.').set m.m_to m.m_piece).set (m.m_to + 8) '.').length = 64 := by
    rw [List.length_set]; exact hlen2
  have S1 : boardPieces (p.m_board.set m.m_from '.') + {(m.m_piece, m.m_from)} =
      boardPieces p.m_board := by
    have h := boardPieces_set (b := p.m_board) (j := m.m_from) (by omega) '.'
    rw [hat, if_neg (pieceLetters_ne_dot _ hletter), if_pos rfl, add_zero] at h
    exact h
  have hb1t : boardGet (p.m_board.set m.m_from '.') m.m_to = '.' := by
    rw [boardGet_set, if_neg (fun h => hnefr h.1)]
    exact hempty
  have S2 : boardPieces ((p.m_board.set m.m_from '.').set m.m_to m.m_piece) =
      boardPieces (p.m_board.set m.m_from '.') + {(m.m_piece, m.m_to)} := by
    have h := boardPieces_set (b := p.m_board.set m.m_from '.') (j := m.m_to)
      (by omega) m.m_piece
    rw [hb1t, if_pos rfl, if_neg (pieceLetters_ne_dot _ hletter), add_zero] at h
    exact h
  have hb2t8 : boardGet ((p.m_board.set m.m_from '.').set m.m_to m.m_piece) (m.m_to + 8) = 'p' := by
    rw [boardGet_set, if_neg (by rintro ⟨h1, -⟩; omega), boardGet_set,
      if_neg (by rintro ⟨h1, -⟩; rcases hfrom with h | h <;> omega)]
    exact hpawn
  have S3 : boardPieces (((p.m_board.set m.m_from '.').set m.m_to m.m_piece).set (m.m_to + 8) '.') +
      {(('p' : Char), m.m_to + 8)} =
      boardPieces ((p.m_board.set m.m_from '.').set m.m_to m.m_piece) := by
    have h := boardPieces_set (b := (p.m_board.set m.m_from '.').set m.m_to m.m_piece)
      (j := m.m_to + 8) (by omega) '.'
    rw [hb2t8, if_neg (by decide), if_pos rfl, add_zero] at h
    exact h
  refine inv_mk hlen3 (flip_wb htm) ?_ ?_ ?_ (Or.inl rfl)
  · intro i hi
    rw [boardGet_set, boardGet_set, boardGet_set]
    split_ifs
    · exact Or.inl rfl
    · exact Or.inr hletter
    · exact Or.inl rfl
    · exact hbl i hi
  · rw [coe_eraseFirst hp8', coe_replaceFirst _ hmemf, hagree,
      Multiset.erase_cons_tail_of_mem hp8eB]
    have hfull : ((m.m_piece, m.m_to) ::ₘ
          ((boardPieces p.m_board).erase (m.m_piece, m.m_from)).erase (('p' : Char), m.m_to + 8)) +
          ({(('p' : Char), m.m_to + 8)} + {(m.m_piece, m.m_from)}) =
        boardPieces (((p.m_board.set m.m_from '.').set m.m_to m.m_piece).set (m.m_to + 8) '.') +
          ({(('p' : Char), m.m_to + 8)} + {(m.m_piece, m.m_from)}) := by
      rw [cons_as_add]
      calc (((boardPieces p.m_board).erase (m.m_piece, m.m_from)).erase (('p' : Char), m.m_to + 8) +
              {(m.m_piece, m.m_to)}) +
            ({(('p' : Char), m.m_to + 8)} + {(m.m_piece, m.m_from)})
          = ((((boardPieces p.m_board).erase (m.m_piece, m.m_from)).erase (('p' : Char), m.m_to + 8) +
              {(('p' : Char), m.m_to + 8)}) + {(m.m_piece, m.m_from)}) + {(m.m_piece, m.m_to)} := by
            abel
        _ = ((boardPieces p.m_board).erase (m.m_piece, m.m_from) + {(m.m_piece, m.m_from)}) +
              {(m.m_piece, m.m_to)} := by rw [ms_erase_add_singleton hp8eB]
        _ = boardPieces p.m_board + {(m.m_piece, m.m_to)} := by
            rw [ms_erase_add_singleton hmemfB]
        _ = (boardPieces (p.m_board.set m.m_from '.') + {(m.m_piece, m.m_from)}) +
              {(m.m_piece, m.m_to)} := by rw [S1]
        _ = boardPieces ((p.m_board.set m.m_from '.').set m.m_to m.m_piece) +
              {(m.m_piece, m.m_from)} := by
            rw [S2]
            abel
        _ = (boardPieces (((p.m_board.set m.m_from '.').set m.m_to m.m_piece).set (m.m_to + 8) '.') +
              {(('p' : Char), m.m_to + 8)}) + {(m.m_piece, m.m_from)} := by rw [S3]
        _ = boardPieces (((p.m_board.set m.m_from '.').set m.m_to m.m_piece).set (m.m_to + 8) '.') +
              ({(('p' : Char), m.m_to + 8)} + {(m.m_piece, m.m_from)}) := by abel
    exact add_right_cancel hfull
  · intro e he
    rw [← Multiset.mem_coe, coe_eraseFirst hp8', coe_replaceFirst _ hmemf] at he
    have hp8e' : (('p' : Char), m.m_to + 8) ∈ (↑p.m_pieces : Multiset (Char × Nat)).erase (m.m_piece, m.m_from) := by
      rw [hagree]
      exact hp8eB
    rw [Multiset.erase_cons_tail_of_mem hp8e'] at he
    rcases Multiset.mem_cons.mp he with h | h
    · subst h
      intro _
      simp only [hrow]
      omega
    · have h2 : e ∈ p.m_pieces :=
        Multiset.mem_coe.mp (Multiset.mem_of_mem_erase (Multiset.mem_of_mem_erase h))
      exact hpr e h2

theorem inv_after_e {p : Position} {m : Move} (hI : Inv p) (hm : MoveOK p m)
    (hs : m.m_special = 'e') : Inv (perform_move p m) := by
  obtain ⟨hP, hcap, hrow, hempty, hpawn, hfrom⟩ := moveok_spec_e hm hs
  obtain ⟨hlen, htm, hbl, hagree, hpr, hep⟩ := id hI
  obtain ⟨hto, hnefr, hat, hletter, hcolor, hprev, -⟩ := id hm
  have hflt : m.m_from < 64 := from_lt_64 hI hm
  have hmemf : (m.m_piece, m.m_from) ∈ p.m_pieces :=
    mem_pieces_of_board hI hat (pieceLetters_ne_dot _ hletter)
  have hmemfB : ((m.m_piece, m.m_from) : Char × Nat) ∈ boardPieces p.m_board := by
    rw [← hagree]; exact Multiset.mem_coe.mpr hmemf
  have hp8 : (('P' : Char), m.m_to - 8) ∈ p.m_pieces :=
    mem_pieces_of_board hI hpawn (by decide)
  have hp8' : (('P' : Char), m.m_to - 8) ∈
      replaceFirst p.m_pieces (m.m_piece, m.m_from) (m.m_piece, m.m_to) := by
    refine mem_replaceFirst_of_ne hp8 hmemf ?_
    rw [hP]
    simp only [ne_eq, Prod.mk.injEq, not_and]
    intro h
    exact absurd h (by decide)
  have hp8eB : (('P' : Char), m.m_to - 8) ∈
      (boardPieces p.m_board).erase (m.m_piece, m.m_from) := by
    refine (Multiset.mem_erase_of_ne ?_).mpr ?_
    · simp only [ne_eq, Prod.mk.injEq, not_and]
      intro _ h2
      rcases hfrom with h | h <;> omega
    · rw [← hagree]; exact Multiset.mem_coe.mpr hp8
  rw [perform_move_eq_e hI hm hs]
  have hlen1 : (p.m_board.set m.m_from '.').length = 64 := by
    rw [List.length_set]; exact hlen
  have hlen2 : ((p.m_board.set m.m_from '.').set m.m_to m.m_piece).length = 64 := by
    rw [List.length_set]; exact hlen1
  have hlen3 : (((p.m_board.set m.m_from '.').set m.m_to m.m_piece).set (m.m_to - 8) '.').length = 64 := by
    rw [List.length_set]; exact hlen2
  have S1 : boardPieces (p.m_board.set m.m_from '.') + {(m.m_piece, m.m_from)} =
      boardPieces p.m_board := by
    have h := boardPieces_set (b := p.m_board) (j := m.m_from) (by omega) '.'
    rw [hat, if_neg (pieceLetters_ne_dot _ hletter), if_pos rfl, add_zero] at h
    exact h
  have hb1t : boardGet (p.m_board.set m.m_from '.') m.m_to = '.' := by
    rw [boardGet_set, if_neg (fun h => hnefr h.1)]
    exact hempty
  have S2 : boardPieces ((p.m_board.set m.m_from '.').set m.m_to m.m_piece) =
      boardPieces (p.m_board.set m.m_from '.') + {(m.m_piece, m.m_to)} := by
    have h := boardPieces_set (b := p.m_board.set m.m_from '.') (j := m.m_to)
      (by omega) m.m_piece
    rw [hb1t, if_pos rfl, if_neg (pieceLetters_ne_dot _ hletter), add_zero] at h
    exact h
  have hb2t8 : boardGet ((p.m_board.set m.m_from '.').set m.m_to m.m_piece) (m.m_to - 8) = 'P' := by
    rw [boardGet_set, if_neg (by rintro ⟨h1, -⟩; omega), boardGet_set,
      if_neg (by rintro ⟨h1, -⟩; rcases hfrom with h | h <;> omega)]
    exact hpawn
  have S3 : boardPieces (((p.m_board.set m.m_from '.').set m.m_to m.m_piece).set (m.m_to - 8) '.') +
      {(('P' : Char), m.m_to - 8)} =
      boardPieces ((p.m_board.set m.m_from '.').set m.m_to m.m_piece) := by
    have h := boardPieces_set (b := (p.m_board.set m.m_from '.').set m.m_to m.m_piece)
      (j := m.m_to - 8) (by omega) '.'
    rw [hb2t8, if_neg (by decide), if_pos rfl, add_zero] at h
    exact h
  refine inv_mk hlen3 (flip_wb htm) ?_ ?_ ?_ (Or.inl rfl)
  · intro i hi
    rw [boardGet_set, boardGet_set, boardGet_set]
    split_ifs
    · exact Or.inl rfl
    · exact Or.inr hletter
    · exact Or.inl rfl
    · exact hbl i hi
  · rw [coe_eraseFirst hp8', coe_replaceFirst _ hmemf, hagree,
      Multiset.erase_cons_tail_of_mem hp8eB]
    have hfull : ((m.m_piece, m.m_to) ::ₘ
          ((boardPieces p.m_board).erase (m.m_piece, m.m_from)).erase (('P' : Char), m.m_to - 8)) +
          ({(('P' : Char), m.m_to - 8)} + {(m.m_piece, m.m_from)}) =
        boardPieces (((p.m_board.set m.m_from '.').set m.m_to m.m_piece).set (m.m_to - 8) '.') +
          ({(('P' : Char), m.m_to - 8)} + {(m.m_piece, m.m_from)}) := by
      rw [cons_as_add]
      calc (((boardPieces p.m_board).erase (m.m_piece, m.m_from)).erase (('P' : Char), m.m_to - 8) +
              {(m.m_piece, m.m_to)}) +
            ({(('P' : Char), m.m_to - 8)} + {(m.m_piece, m.m_from)})
          = ((((boardPieces p.m_board).erase (m.m_piece, m.m_from)).erase (('P' : Char), m.m_to - 8) +
              {(('P' : Char), m.m_to - 8)}) + {(m.m_piece, m.m_from)}) + {(m.m_piece, m.m_to)} := by
            abel
        _ = ((boardPieces p.m_board).erase (m.m_piece, m.m_from) + {(m.m_piece, m.m_from)}) +
              {(m.m_piece, m.m_to)} := by rw [ms_erase_add_singleton hp8eB]
        _ = boardPieces p.m_board + {(m.m_piece, m.m_to)} := by
            rw [ms_erase_add_singleton hmemfB]
        _ = (boardPieces (p.m_board.set m.m_from '.') + {(m.m_piece, m.m_from)}) +
              {(m.m_piece, m.m_to)} := by rw [S1]
        _ = boardPieces ((p.m_board.set m.m_from '.').set m.m_to m.m_piece) +
              {(m.m_piece, m.m_from)} := by
            rw [S2]
            abel
        _ = (boardPieces (((p.m_board.set m.m_from '.').set m.m_to m.m_piece).set (m.m_to - 8) '.') +
              {(('P' : Char), m.m_to - 8)}) + {(m.m_piece, m.m_from)} := by rw [S3]
        _ = boardPieces (((p.m_board.set m.m_from '.').set m.m_to m.m_piece).set (m.m_to - 8) '.') +
              ({(('P' : Char), m.m_to - 8)} + {(m.m_piece, m.m_from)}) := by abel
    exact add_right_cancel hfull
  · intro e he
    rw [← Multiset.mem_coe, coe_eraseFirst hp8', coe_replaceFirst _ hmemf] at he
    have hp8e' : (('P' : Char), m.m_to - 8) ∈ (↑p.m_pieces : Multiset (Char × Nat)).erase (m.m_piece, m.m_from) := by
      rw [hagree]
      exact hp8eB
    rw [Multiset.erase_cons_tail_of_mem hp8e'] at he
    rcases Multiset.mem_cons.mp he with h | h
    · subst h
      intro _
      simp only [hrow]
      omega
    · have h2 : e ∈ p.m_pieces :=
        Multiset.mem_coe.mp (Multiset.mem_of_mem_erase (Multiset.mem_of_mem_erase h))
      exact hpr e h2

theorem inv_after_promo {p : Position} {m : Move} (hI : Inv p) (hm : MoveOK p m)
    (hq : m.m_special.toLower ∈ (['q','r','n','b'] : List Char)) :
    Inv (perform_move p m) := by
  obtain ⟨hpawn, hspl, hcase, hcap, hcapcase, hrows⟩ := moveok_spec_promo hm hq
  obtain ⟨hlen, htm, hbl, hagree, hpr, hep⟩ := id hI
  obtain ⟨hto, hnefr, hat, hletter, hcolor, hprev, -⟩ := id hm
  have hflt : m.m_from < 64 := from_lt_64 hI hm
  have hmemf : (m.m_piece, m.m_from) ∈ p.m_pieces :=
    mem_pieces_of_board hI hat (pieceLetters_ne_dot _ hletter)
  have hmemfB : ((m.m_piece, m.m_from) : Char × Nat) ∈ boardPieces p.m_board := by
    rw [← hagree]; exact Multiset.mem_coe.mpr hmemf
  have hmemf1 : (m.m_piece, m.m_from) ∈
      (if m.m_captured ≠ '.' then eraseFirst p.m_pieces (m.m_captured, m.m_to)
       else p.m_pieces) := by
    split_ifs with h
    · rw [← Multiset.mem_coe, coe_eraseFirst (mem_pieces_of_board hI hcap h)]
      refine (Multiset.mem_erase_of_ne ?_).mpr (Multiset.mem_coe.mpr hmemf)
      simp only [ne_eq, Prod.mk.injEq, not_and]
      intro _
      exact hnefr
    · exact hmemf
  have hmempct : (m.m_piece, m.m_to) ∈
      replaceFirst
        (if m.m_captured ≠ '.' then eraseFirst p.m_pieces (m.m_captured, m.m_to)
         else p.m_pieces) (m.m_piece, m.m_from) (m.m_piece, m.m_to) := by
    rw [← Multiset.mem_coe, coe_replaceFirst _ hmemf1]
    exact Multiset.mem_cons_self _ _
  rw [perform_move_eq_promo hI hm hq]
  have hlen1 : (p.m_board.set m.m_from '.').length = 64 := by
    rw [List.length_set]; exact hlen
  have hlen2 : ((p.m_board.set m.m_from '.').set m.m_to m.m_piece).length = 64 := by
    rw [List.length_set]; exact hlen1
  have hlen3 : (((p.m_board.set m.m_from '.').set m.m_to m.m_piece).set m.m_to m.m_special).length = 64 := by
    rw [List.length_set]; exact hlen2
  have S1 : boardPieces (p.m_board.set m.m_from '.') + {(m.m_piece, m.m_from)} =
      boardPieces p.m_board := by
    have h := boardPieces_set (b := p.m_board) (j := m.m_from) (by omega) '.'
    rw [hat, if_neg (pieceLetters_ne_dot _ hletter), if_pos rfl, add_zero] at h
    exact h
  have hb1t : boardGet (p.m_board.set m.m_from '.') m.m_to = m.m_captured := by
    rw [boardGet_set, if_neg (fun h => hnefr h.1)]
    exact hcap
  have S2 : boardPieces ((p.m_board.set m.m_from '.').set m.m_to m.m_piece) +
      (if m.m_captured = '.' then 0 else {(m.m_captured, m.m_to)}) =
      boardPieces (p.m_board.set m.m_from '.') + {(m.m_piece, m.m_to)} := by
    have h := boardPieces_set (b := p.m_board.set m.m_from '.') (j := m.m_to)
      (by omega) m.m_piece
    rw [hb1t, if_neg (pieceLetters_ne_dot _ hletter)] at h
    exact h
  have hb2t : boardGet ((p.m_board.set m.m_from '.').set m.m_to m.m_piece) m.m_to = m.m_piece := by
    rw [boardGet_set, if_pos ⟨rfl, by omega⟩]
  have S3 : boardPieces (((p.m_board.set m.m_from '.').set m.m_to m.m_piece).set m.m_to m.m_special) +
      {(m.m_piece, m.m_to)} =
      boardPieces ((p.m_board.set m.m_from '.').set m.m_to m.m_piece) + {(m.m_special, m.m_to)} := by
    have h := boardPieces_set (b := (p.m_board.set m.m_from '.').set m.m_to m.m_piece)
      (j := m.m_to) (by omega) m.m_special
    rw [hb2t, if_neg (pieceLetters_ne_dot _ hletter),
      if_neg (pieceLetters_ne_dot _ hspl)] at h
    exact h
  refine inv_mk hlen3 (flip_wb htm) ?_ ?_ ?_ (Or.inl rfl)
  · intro i hi
    rw [boardGet_set, boardGet_set, boardGet_set]
    split_ifs
    · exact Or.inr hspl
    · exact Or.inr hletter
    · exact Or.inl rfl
    · exact hbl i hi
  · rw [← Multiset.cons_coe, coe_eraseFirst hmempct, coe_replaceFirst _ hmemf1,
      Multiset.erase_cons_head]
    by_cases h : m.m_captured = '.'
    · have hifL : (if m.m_captured ≠ '.' then eraseFirst p.m_pieces (m.m_captured, m.m_to)
          else p.m_pieces) = p.m_pieces := by rw [if_neg (fun hh => hh h)]
      rw [hifL, hagree]
      rw [if_pos h, add_zero] at S2
      have hfull : ((m.m_special, m.m_to) ::ₘ (boardPieces p.m_board).erase (m.m_piece, m.m_from)) +
            ({(m.m_piece, m.m_from)} + {(m.m_piece, m.m_to)}) =
          boardPieces (((p.m_board.set m.m_from '.').set m.m_to m.m_piece).set m.m_to m.m_special) +
            ({(m.m_piece, m.m_from)} + {(m.m_piece, m.m_to)}) := by
        rw [cons_as_add]
        calc ((boardPieces p.m_board).erase (m.m_piece, m.m_from) + {(m.m_special, m.m_to)}) +
              ({(m.m_piece, m.m_from)} + {(m.m_piece, m.m_to)})
            = ((boardPieces p.m_board).erase (m.m_piece, m.m_from) + {(m.m_piece, m.m_from)}) +
                ({(m.m_piece, m.m_to)} + {(m.m_special, m.m_to)}) := by abel
          _ = boardPieces p.m_board + ({(m.m_piece, m.m_to)} + {(m.m_special, m.m_to)}) := by
              rw [ms_erase_add_singleton hmemfB]
          _ = (boardPieces (p.m_board.set m.m_from '.') + {(m.m_piece, m.m_from)}) +
                ({(m.m_piece, m.m_to)} + {(m.m_special, m.m_to)}) := by rw [S1]
          _ = (boardPieces (p.m_board.set m.m_from '.') + {(m.m_piece, m.m_to)}) +
                ({(m.m_piece, m.m_from)} + {(m.m_special, m.m_to)}) := by abel
          _ = boardPieces ((p.m_board.set m.m_from '.').set m.m_to m.m_piece) +
                ({(m.m_piece, m.m_from)} + {(m.m_special, m.m_to)}) := by rw [S2]
          _ = (boardPieces ((p.m_board.set m.m_from '.').set m.m_to m.m_piece) +
                {(m.m_special, m.m_to)}) + {(m.m_piece, m.m_from)} := by abel
          _ = (boardPieces (((p.m_board.set m.m_from '.').set m.m_to m.m_piece).set m.m_to m.m_special) +
                {(m.m_piece, m.m_to)}) + {(m.m_piece, m.m_from)} := by rw [S3]
          _ = boardPieces (((p.m_board.set m.m_from '.').set m.m_to m.m_piece).set m.m_to m.m_special) +
                ({(m.m_piece, m.m_from)} + {(m.m_piece, m.m_to)}) := by abel
      exact add_right_cancel hfull
    · have hifL : (if m.m_captured ≠ '.' then eraseFirst p.m_pieces (m.m_captured, m.m_to)
          else p.m_pieces) = eraseFirst p.m_pieces (m.m_captured, m.m_to) := by
        rw [if_pos (fun hh => h hh)]
      have hmemc : (m.m_captured, m.m_to) ∈ p.m_pieces := mem_pieces_of_board hI hcap h
      have hmemcB : ((m.m_captured, m.m_to) : Char × Nat) ∈ boardPieces p.m_board := by
        rw [← hagree]; exact Multiset.mem_coe.mpr hmemc
      have hmemf2 : ((m.m_piece, m.m_from) : Char × Nat) ∈
          (boardPieces p.m_board).erase (m.m_captured, m.m_to) := by
        refine (Multiset.mem_erase_of_ne ?_).mpr hmemfB
        simp only [ne_eq, Prod.mk.injEq, not_and]
        intro _
        exact hnefr
      rw [hifL, coe_eraseFirst hmemc, hagree]
      rw [if_neg h] at S2
      have hfull : ((m.m_special, m.m_to) ::ₘ
            ((boardPieces p.m_board).erase (m.m_captured, m.m_to)).erase (m.m_piece, m.m_from)) +
            ({(m.m_piece, m.m_from)} + ({(m.m_piece, m.m_to)} + {(m.m_captured, m.m_to)})) =
          boardPieces (((p.m_board.set m.m_from '.').set m.m_to m.m_piece).set m.m_to m.m_special) +
            ({(m.m_piece, m.m_from)} + ({(m.m_piece, m.m_to)} + {(m.m_captured, m.m_to)})) := by
        rw [cons_as_add]
        calc (((boardPieces p.m_board).erase (m.m_captured, m.m_to)).erase (m.m_piece, m.m_from) +
              {(m.m_special, m.m_to)}) +
              ({(m.m_piece, m.m_from)} + ({(m.m_piece, m.m_to)} + {(m.m_captured, m.m_to)}))
            = ((((boardPieces p.m_board).erase (m.m_captured, m.m_to)).erase (m.m_piece, m.m_from) +
                {(m.m_piece, m.m_from)}) + {(m.m_captured, m.m_to)}) +
                ({(m.m_piece, m.m_to)} + {(m.m_special, m.m_to)}) := by abel
          _ = ((boardPieces p.m_board).erase (m.m_captured, m.m_to) + {(m.m_captured, m.m_to)}) +
                ({(m.m_piece, m.m_to)} + {(m.m_special, m.m_to)}) := by
              rw [ms_erase_add_singleton hmemf2]
          _ = boardPieces p.m_board + ({(m.m_piece, m.m_to)} + {(m.m_special, m.m_to)}) := by
              rw [ms_erase_add_singleton hmemcB]
          _ = (boardPieces (p.m_board.set m.m_from '.') + {(m.m_piece, m.m_from)}) +
                ({(m.m_piece, m.m_to)} + {(m.m_special, m.m_to)}) := by rw [S1]
          _ = (boardPieces (p.m_board.set m.m_from '.') + {(m.m_piece, m.m_to)}) +
                ({(m.m_piece, m.m_from)} + {(m.m_special, m.m_to)}) := by abel
          _ = (boardPieces ((p.m_board.set m.m_from '.').set m.m_to m.m_piece) +
                {(m.m_captured, m.m_to)}) +
                ({(m.m_piece, m.m_from)} + {(m.m_special, m.m_to)}) := by rw [S2]
          _ = (boardPieces ((p.m_board.set m.m_from '.').set m.m_to m.m_piece) +
                {(m.m_special, m.m_to)}) +
                ({(m.m_piece, m.m_from)} + {(m.m_captured, m.m_to)}) := by abel
          _ = (boardPieces (((p.m_board.set m.m_from '.').set m.m_to m.m_piece).set m.m_to m.m_special) +
                {(m.m_piece, m.m_to)}) +
                ({(m.m_piece, m.m_from)} + {(m.m_captured, m.m_to)}) := by rw [S3]
          _ = boardPieces (((p.m_board.set m.m_from '.').set m.m_to m.m_piece).set m.m_to m.m_special) +
                ({(m.m_piece, m.m_from)} + ({(m.m_piece, m.m_to)} + {(m.m_captured, m.m_to)})) := by
              abel
      exact add_right_cancel hfull
  · intro e he
    rw [← Multiset.mem_coe, ← Multiset.cons_coe, Multiset.mem_cons] at he
    rcases he with h | h
    · subst h
      intro hpl
      rw [hpl] at hq
      exact absurd hq (by decide)
    · have h2 := Multiset.mem_coe.mpr h
      rw [coe_eraseFirst hmempct, coe_replaceFirst _ hmemf1,
        Multiset.erase_cons_head] at h2
      have h3 : e ∈ (if m.m_captured ≠ '.' then eraseFirst p.m_pieces (m.m_captured, m.m_to)
          else p.m_pieces) := Multiset.mem_coe.mp (Multiset.mem_of_mem_erase h2)
      have h5 : e ∈ p.m_pieces := by
        by_cases hc : m.m_captured = '.'
        · rwa [if_neg (fun hh => hh hc)] at h3
        · rw [if_pos (fun hh => hc hh)] at h3
          have h6 := Multiset.mem_coe.mpr h3
          rw [coe_eraseFirst (mem_pieces_of_board hI hcap hc)] at h6
          exact Multiset.mem_coe.mp (Multiset.mem_of_mem_erase h6)
      exact hpr e h5

theorem inv_after_perform {p : Position} {m : Move} (hI : Inv p) (hm : MoveOK p m) :
    Inv (perform_move p m) := by
  rcases moveok_special_cases hm with h | h | h | h
  · exact inv_after_none hI hm h
  · exact inv_after_E hI hm h
  · exact inv_after_e hI hm h
  · exact inv_after_promo hI hm h

/-! ## Undo symmetry -/

theorem flip_flip {c : Char} (h : c = 'w' ∨ c = 'b') :
    flipToMove (flipToMove c) = c := by
  rcases h with h | h <;> rw [h] <;> rfl

theorem roundtrip_none {p : Position} {m : Move} (hI : Inv p) (hm : MoveOK p m)
    (hs : m.m_special = specNone) : posEq (undo_move (perform_move p m)) p := by
  obtain ⟨hcap, hcapcase, -⟩ := moveok_spec_none hm hs
  obtain ⟨hlen, htm, hbl, hagree, hpr, hep⟩ := id hI
  obtain ⟨hto, hnefr, hat, hletter, hcolor, hprev, -⟩ := id hm
  have hflt : m.m_from < 64 := from_lt_64 hI hm
  have hmemf : (m.m_piece, m.m_from) ∈ p.m_pieces :=
    mem_pieces_of_board hI hat (pieceLetters_ne_dot _ hletter)
  have hmemf1 : (m.m_piece, m.m_from) ∈
      (if m.m_captured ≠ '.' then eraseFirst p.m_pieces (m.m_captured, m.m_to)
       else p.m_pieces) := by
    split_ifs with h
    · rw [← Multiset.mem_coe, coe_eraseFirst (mem_pieces_of_board hI hcap h)]
      refine (Multiset.mem_erase_of_ne ?_).mpr (Multiset.mem_coe.mpr hmemf)
      simp only [ne_eq, Prod.mk.injEq, not_and]
      intro _
      exact hnefr
    · exact hmemf
  have hmempct : (m.m_piece, m.m_to) ∈
      replaceFirst
        (if m.m_captured ≠ '.' then eraseFirst p.m_pieces (m.m_captured, m.m_to)
         else p.m_pieces) (m.m_piece, m.m_from) (m.m_piece, m.m_to) := by
    rw [← Multiset.mem_coe, coe_replaceFirst _ hmemf1]
    exact Multiset.mem_cons_self _ _
  rw [perform_move_eq_none hI hm hs]
  have hc0 : boardGet ((p.m_board.set m.m_from '.').set m.m_to m.m_piece) m.m_to = m.m_piece := by
    rw [boardGet_set, if_pos ⟨rfl, by rw [List.length_set]; omega⟩]
  rcases hpi : pieceIdx
      (replaceFirst
        (if m.m_captured ≠ '.' then eraseFirst p.m_pieces (m.m_captured, m.m_to)
         else p.m_pieces) (m.m_piece, m.m_from) (m.m_piece, m.m_to))
      m.m_piece m.m_to with _ | k
  · exact absurd hpi (pieceIdx_ne_none hmempct)
  · simp only [undo_move, List.getLast?_concat, hc0, hpi, if_pos hs,
      List.dropLast_concat]
    refine ⟨?_, ?_, hprev, ?_, rfl⟩
    · -- board restored
      refine list_eq_of_boardGet ?_ ?_
      · simp only [List.length_set]
      · intro i
        rw [boardGet_set, boardGet_set, boardGet_set, boardGet_set]
        simp only [List.length_set, hlen]
        split_ifs with h1 h2
        · rw [← h1.1]
          exact hcap.symm
        · rw [← h2.1]
          exact hat.symm
        · rfl
    · -- to_move restored
      exact flip_flip htm
    · -- pieces restored (as a multiset)
      by_cases h : m.m_captured = '.'
      · have hifL : (if m.m_captured ≠ '.' then eraseFirst p.m_pieces (m.m_captured, m.m_to)
            else p.m_pieces) = p.m_pieces := by rw [if_neg (fun hh => hh h)]
        rw [hifL] at hmempct ⊢
        rw [if_neg (fun hh : ¬ m.m_captured = '.' => hh h)]
        rw [coe_replaceFirst _ hmempct, coe_replaceFirst _ hmemf,
          Multiset.erase_cons_head, Multiset.cons_erase (Multiset.mem_coe.mpr hmemf)]
      · have hifL : (if m.m_captured ≠ '.' then eraseFirst p.m_pieces (m.m_captured, m.m_to)
            else p.m_pieces) = eraseFirst p.m_pieces (m.m_captured, m.m_to) := by
          rw [if_pos (fun hh => h hh)]
        have hmemc : (m.m_captured, m.m_to) ∈ p.m_pieces := mem_pieces_of_board hI hcap h
        rw [hifL] at hmempct hmemf1 ⊢
        rw [if_pos (fun hh : m.m_captured = '.' => h hh)]
        have hconsmem : (m.m_piece, m.m_to) ∈
            (m.m_captured, m.m_to) ::
              replaceFirst (eraseFirst p.m_pieces (m.m_captured, m.m_to))
                (m.m_piece, m.m_from) (m.m_piece, m.m_to) :=
          List.mem_cons_of_mem _ hmempct
        have hmemf2 : ((m.m_piece, m.m_from) : Char × Nat) ∈
            (↑p.m_pieces : Multiset (Char × Nat)).erase (m.m_captured, m.m_to) := by
          rw [← coe_eraseFirst hmemc]
          exact Multiset.mem_coe.mpr hmemf1
        rw [coe_replaceFirst _ hconsmem, ← Multiset.cons_coe,
          Multiset.erase_cons_tail_of_mem (Multiset.mem_coe.mpr hmempct),
          coe_replaceFirst _ hmemf1, Multiset.erase_cons_head,
          coe_eraseFirst hmemc, Multiset.cons_swap,
          Multiset.cons_erase hmemf2,
          Multiset.cons_erase (Multiset.mem_coe.mpr hmemc)]

theorem roundtrip_E {p : Position} {m : Move} (hI : Inv p) (hm : MoveOK p m)
    (hs : m.m_special = 'E') : posEq (undo_move (perform_move p m)) p := by
  obtain ⟨hP, hcap, hrow, hempty, hpawn, hfrom⟩ := moveok_spec_E hm hs
  obtain ⟨hlen, htm, hbl, hagree, hpr, hep⟩ := id hI
  obtain ⟨hto, hnefr, hat, hletter, hcolor, hprev, -⟩ := id hm
  have hflt : m.m_from < 64 := from_lt_64 hI hm
  have hmemf : (m.m_piece, m.m_from) ∈ p.m_pieces :=
    mem_pieces_of_board hI hat (pieceLetters_ne_dot _ hletter)
  have hp8 : (('p' : Char), m.m_to + 8) ∈ p.m_pieces :=
    mem_pieces_of_board hI hpawn (by decide)
  have hp8' : (('p' : Char), m.m_to + 8) ∈
      replaceFirst p.m_pieces (m.m_piece, m.m_from) (m.m_piece, m.m_to) := by
    refine mem_replaceFirst_of_ne hp8 hmemf ?_
    rw [hP]
    simp only [ne_eq, Prod.mk.injEq, not_and]
    intro h
    exact absurd h (by decide)
  have hpctne : ((m.m_piece, m.m_to) : Char × Nat) ≠ (('p' : Char), m.m_to + 8) := by
    rw [hP]
    simp only [ne_eq, Prod.mk.injEq, not_and]
    intro h
    exact absurd h (by decide)
  have hmempct : (m.m_piece, m.m_to) ∈
      eraseFirst (replaceFirst p.m_pieces (m.m_piece, m.m_from) (m.m_piece, m.m_to))
        (('p' : Char), m.m_to + 8) := by
    rw [← Multiset.mem_coe, coe_eraseFirst hp8']
    refine (Multiset.mem_erase_of_ne hpctne).mpr ?_
    rw [coe_replaceFirst _ hmemf]
    exact Multiset.mem_cons_self _ _
  rw [perform_move_eq_E hI hm hs]
  have hc0 : boardGet ((((p.m_board.set m.m_from '.').set m.m_to m.m_piece).set (m.m_to + 8) '.'))
      m.m_to = m.m_piece := by
    rw [boardGet_set, if_neg (by rintro ⟨h1, -⟩; omega),
      boardGet_set, if_pos ⟨rfl, by rw [List.length_set]; omega⟩]
  rcases hpi : pieceIdx
      (eraseFirst (replaceFirst p.m_pieces (m.m_piece, m.m_from) (m.m_piece, m.m_to))
        (('p' : Char), m.m_to + 8)) m.m_piece m.m_to with _ | k
  · exact absurd hpi (pieceIdx_ne_none hmempct)
  · have hg1 : ¬ m.m_special = specNone := by rw [hs]; decide
    have hg2 : ¬ (is_upper m.m_piece ≠ is_upper m.m_special) := by rw [hs, hP]; decide
    have hg3 : ¬ m.m_special = 'e' := by rw [hs]; decide
    have hcapif : ¬ m.m_captured ≠ '.' := fun hh => hh hcap
    simp only [undo_move, List.getLast?_concat, hc0, hpi, if_neg hg1, if_neg hg2,
      if_neg hg3, if_pos hs, if_neg hcapif, List.dropLast_concat]
    refine ⟨?_, flip_flip htm, hprev, ?_, rfl⟩
    · refine list_eq_of_boardGet ?_ ?_
      · simp only [List.length_set]
      · intro i
        rw [boardGet_set, boardGet_set, boardGet_set, boardGet_set, boardGet_set,
          boardGet_set]
        simp only [List.length_set, hlen]
        split_ifs with h1 h2 h3
        · rw [← h1.1]
          exact hpawn.symm
        · rw [← h2.1, hcap]
          exact hempty.symm
        · rw [← h3.1]
          exact hat.symm
        · rfl
    · have hmemf2 : ((m.m_piece, m.m_from) : Char × Nat) ∈
          (↑p.m_pieces : Multiset (Char × Nat)).erase (('p' : Char), m.m_to + 8) := by
        refine (Multiset.mem_erase_of_ne ?_).mpr (Multiset.mem_coe.mpr hmemf)
        rw [hP]
        simp only [ne_eq, Prod.mk.injEq, not_and]
        intro h
        exact absurd h (by decide)
      rw [← Multiset.cons_coe, coe_replaceFirst _ hmempct, coe_eraseFirst hp8',
        coe_replaceFirst _ hmemf,
        Multiset.erase_comm, Multiset.erase_cons_head, Multiset.erase_comm,
        Multiset.cons_erase hmemf2,
        Multiset.cons_erase (Multiset.mem_coe.mpr hp8)]

theorem roundtrip_e {p : Position} {m : Move} (hI : Inv p) (hm : MoveOK p m)
    (hs : m.m_special = 'e') : posEq (undo_move (perform_move p m)) p := by
  obtain ⟨hP, hcap, hrow, hempty, hpawn, hfrom⟩ := moveok_spec_e hm hs
  obtain ⟨hlen, htm, hbl, hagree, hpr, hep⟩ := id hI
  obtain ⟨hto, hnefr, hat, hletter, hcolor, hprev, -⟩ := id hm
  have hflt : m.m_from < 64 := from_lt_64 hI hm
  have hmemf : (m.m_piece, m.m_from) ∈ p.m_pieces :=
    mem_pieces_of_board hI hat (pieceLetters_ne_dot _ hletter)
  have hp8 : (('P' : Char), m.m_to - 8) ∈ p.m_pieces :=
    mem_pieces_of_board hI hpawn (by decide)
  have hp8' : (('P' : Char), m.m_to - 8) ∈
      replaceFirst p.m_pieces (m.m_piece, m.m_from) (m.m_piece, m.m_to) := by
    refine mem_replaceFirst_of_ne hp8 hmemf ?_
    rw [hP]
    simp only [ne_eq, Prod.mk.injEq, not_and]
    intro h
    exact absurd h (by decide)
  have hpctne : ((m.m_piece, m.m_to) : Char × Nat) ≠ (('P' : Char), m.m_to - 8) := by
    rw [hP]
    simp only [ne_eq, Prod.mk.injEq, not_and]
    intro h
    exact absurd h (by decide)
  have hmempct : (m.m_piece, m.m_to) ∈
      eraseFirst (replaceFirst p.m_pieces (m.m_piece, m.m_from) (m.m_piece, m.m_to))
        (('P' : Char), m.m_to - 8) := by
    rw [← Multiset.mem_coe, coe_eraseFirst hp8']
    refine (Multiset.mem_erase_of_ne hpctne).mpr ?_
    rw [coe_replaceFirst _ hmemf]
    exact Multiset.mem_cons_self _ _
  rw [perform_move_eq_e hI hm hs]
  have hc0 : boardGet ((((p.m_board.set m.m_from '.').set m.m_to m.m_piece).set (m.m_to - 8) '.'))
      m.m_to = m.m_piece := by
    rw [boardGet_set, if_neg (by rintro ⟨h1, -⟩; omega),
      boardGet_set, if_pos ⟨rfl, by rw [List.length_set]; omega⟩]
  rcases hpi : pieceIdx
      (eraseFirst (replaceFirst p.m_pieces (m.m_piece, m.m_from) (m.m_piece, m.m_to))
        (('P' : Char), m.m_to - 8)) m.m_piece m.m_to with _ | k
  · exact absurd hpi (pieceIdx_ne_none hmempct)
  · have hg1 : ¬ m.m_special = specNone := by rw [hs]; decide
    have hg2 : ¬ (is_upper m.m_piece ≠ is_upper m.m_special) := by rw [hs, hP]; decide
    have hcapif : ¬ m.m_captured ≠ '.' := fun hh => hh hcap
    simp only [undo_move, List.getLast?_concat, hc0, hpi, if_neg hg1, if_neg hg2,
      if_pos hs, if_neg hcapif, List.dropLast_concat]
    refine ⟨?_, flip_flip htm, hprev, ?_, rfl⟩
    · refine list_eq_of_boardGet ?_ ?_
      · simp only [List.length_set]
      · intro i
        rw [boardGet_set, boardGet_set, boardGet_set, boardGet_set, boardGet_set,
          boardGet_set]
        simp only [List.length_set, hlen]
        split_ifs with h1 h2 h3
        · rw [← h1.1]
          exact hpawn.symm
        · rw [← h2.1, hcap]
          exact hempty.symm
        · rw [← h3.1]
          exact hat.symm
        · rfl
    · have hmemf2 : ((m.m_piece, m.m_from) : Char × Nat) ∈
          (↑p.m_pieces : Multiset (Char × Nat)).erase (('P' : Char), m.m_to - 8) := by
        refine (Multiset.mem_erase_of_ne ?_).mpr (Multiset.mem_coe.mpr hmemf)
        rw [hP]
        simp only [ne_eq, Prod.mk.injEq, not_and]
        intro h
        exact absurd h (by decide)
      rw [← Multiset.cons_coe, coe_replaceFirst _ hmempct, coe_eraseFirst hp8',
        coe_replaceFirst _ hmemf,
        Multiset.erase_comm, Multiset.erase_cons_head, Multiset.erase_comm,
        Multiset.cons_erase hmemf2,
        Multiset.cons_erase (Multiset.mem_coe.mpr hp8)]

theorem roundtrip_promo {p : Position} {m : Move} (hI : Inv p) (hm : MoveOK p m)
    (hq : m.m_special.toLower ∈ (['q','r','n','b'] : List Char)) :
    posEq (undo_move (perform_move p m)) p := by
  obtain ⟨hpawn, hspl, hcase, hcap, hcapcase, hrows⟩ := moveok_spec_promo hm hq
  obtain ⟨hlen, htm, hbl, hagree, hpr, hep⟩ := id hI
  obtain ⟨hto, hnefr, hat, hletter, hcolor, hprev, -⟩ := id hm
  have hflt : m.m_from < 64 := from_lt_64 hI hm
  have hmemf : (m.m_piece, m.m_from) ∈ p.m_pieces :=
    mem_pieces_of_board hI hat (pieceLetters_ne_dot _ hletter)
  have hmemf1 : (m.m_piece, m.m_from) ∈
      (if m.m_captured ≠ '.' then eraseFirst p.m_pieces (m.m_captured, m.m_to)
       else p.m_pieces) := by
    split_ifs with h
    · rw [← Multiset.mem_coe, coe_eraseFirst (mem_pieces_of_board hI hcap h)]
      refine (Multiset.mem_erase_of_ne ?_).mpr (Multiset.mem_coe.mpr hmemf)
      simp only [ne_eq, Prod.mk.injEq, not_and]
      intro _
      exact hnefr
    · exact hmemf
  have hmempct : (m.m_piece, m.m_to) ∈
      replaceFirst
        (if m.m_captured ≠ '.' then eraseFirst p.m_pieces (m.m_captured, m.m_to)
         else p.m_pieces) (m.m_piece, m.m_from) (m.m_piece, m.m_to) := by
    rw [← Multiset.mem_coe, coe_replaceFirst _ hmemf1]
    exact Multiset.mem_cons_self _ _
  rw [perform_move_eq_promo hI hm hq]
  have hc0 : boardGet (((p.m_board.set m.m_from '.').set m.m_to m.m_piece).set m.m_to m.m_special)
      m.m_to = m.m_special := by
    rw [boardGet_set, if_pos ⟨rfl, by rw [List.length_set, List.length_set]; omega⟩]
  have hspt : ((m.m_special, m.m_to) : Char × Nat) ∈
      (m.m_special, m.m_to) :: eraseFirst
        (replaceFirst
          (if m.m_captured ≠ '.' then eraseFirst p.m_pieces (m.m_captured, m.m_to)
           else p.m_pieces) (m.m_piece, m.m_from) (m.m_piece, m.m_to))
        (m.m_piece, m.m_to) := List.mem_cons_self _ _
  rcases hpi : pieceIdx
      ((m.m_special, m.m_to) :: eraseFirst
        (replaceFirst
          (if m.m_captured ≠ '.' then eraseFirst p.m_pieces (m.m_captured, m.m_to)
           else p.m_pieces) (m.m_piece, m.m_from) (m.m_piece, m.m_to))
        (m.m_piece, m.m_to)) m.m_special m.m_to with _ | k
  · exact absurd hpi (pieceIdx_ne_none hspt)
  · have hg1 : ¬ m.m_special = specNone := by
      intro h
      rw [h] at hq
      exact absurd hq (by decide)
    have hg2 : ¬ (is_upper m.m_piece ≠ is_upper m.m_special) := fun h => h hcase.symm
    have hg3 : ¬ m.m_special = 'e' := by
      intro h
      rw [h] at hq
      exact absurd hq (by decide)
    have hg4 : ¬ m.m_special = 'E' := by
      intro h
      rw [h] at hq
      exact absurd hq (by decide)
    simp only [undo_move, List.getLast?_concat, hc0, hpi, if_neg hg1, if_neg hg2,
      if_neg hg3, if_neg hg4, List.dropLast_concat]
    refine ⟨?_, flip_flip htm, hprev, ?_, rfl⟩
    · refine list_eq_of_boardGet ?_ ?_
      · simp only [List.length_set]
      · intro i
        rw [boardGet_set, boardGet_set, boardGet_set, boardGet_set, boardGet_set,
          boardGet_set]
        simp only [List.length_set, hlen]
        split_ifs with h1 h2
        · rw [← h1.1]
          exact hat.symm
        · rw [← h2.1]
          exact hcap.symm
        · rfl
    · by_cases h : m.m_captured = '.'
      · simp only [if_neg (fun hh : ¬ m.m_captured = '.' => hh h)] at hmemf1 hmempct ⊢
        have hsptL : ((m.m_special, m.m_to) : Char × Nat) ∈
            (m.m_special, m.m_to) :: eraseFirst
              (replaceFirst p.m_pieces (m.m_piece, m.m_from) (m.m_piece, m.m_to))
              (m.m_piece, m.m_to) := List.mem_cons_self _ _
        have hspf : ((m.m_special, m.m_from) : Char × Nat) ∈
            replaceFirst
              ((m.m_special, m.m_to) :: eraseFirst
                (replaceFirst p.m_pieces (m.m_piece, m.m_from) (m.m_piece, m.m_to))
                (m.m_piece, m.m_to))
              (m.m_special, m.m_to) (m.m_special, m.m_from) := by
          rw [← Multiset.mem_coe, coe_replaceFirst _ hsptL]
          exact Multiset.mem_cons_self _ _
        rw [← Multiset.cons_coe, coe_eraseFirst hspf, coe_replaceFirst _ hsptL,
          Multiset.erase_cons_head, ← Multiset.cons_coe, Multiset.erase_cons_head,
          coe_eraseFirst hmempct, coe_replaceFirst _ hmemf1,
          Multiset.erase_cons_head,
          Multiset.cons_erase (Multiset.mem_coe.mpr hmemf1)]
      · simp only [ne_eq, if_pos (fun hh : m.m_captured = '.' => h hh)] at hmemf1 hmempct ⊢
        have hmemc : (m.m_captured, m.m_to) ∈ p.m_pieces := mem_pieces_of_board hI hcap h
        have hsptLnew : ((m.m_special, m.m_to) : Char × Nat) ∈
            (m.m_special, m.m_to) :: eraseFirst
              (replaceFirst (eraseFirst p.m_pieces (m.m_captured, m.m_to))
                (m.m_piece, m.m_from) (m.m_piece, m.m_to))
              (m.m_piece, m.m_to) := List.mem_cons_self _ _
        have hsptl1 : ((m.m_special, m.m_to) : Char × Nat) ∈
            (m.m_captured, m.m_to) ::
              (m.m_special, m.m_to) :: eraseFirst
                (replaceFirst (eraseFirst p.m_pieces (m.m_captured, m.m_to))
                  (m.m_piece, m.m_from) (m.m_piece, m.m_to))
                (m.m_piece, m.m_to) := List.mem_cons_of_mem _ hsptLnew
        have hspf : ((m.m_special, m.m_from) : Char × Nat) ∈
            replaceFirst
              ((m.m_captured, m.m_to) ::
                (m.m_special, m.m_to) :: eraseFirst
                  (replaceFirst (eraseFirst p.m_pieces (m.m_captured, m.m_to))
                    (m.m_piece, m.m_from) (m.m_piece, m.m_to))
                  (m.m_piece, m.m_to))
              (m.m_special, m.m_to) (m.m_special, m.m_from) := by
          rw [← Multiset.mem_coe, coe_replaceFirst _ hsptl1]
          exact Multiset.mem_cons_self _ _
        have hmemf2 : ((m.m_piece, m.m_from) : Char × Nat) ∈
            (↑p.m_pieces : Multiset (Char × Nat)).erase (m.m_captured, m.m_to) := by
          rw [← coe_eraseFirst hmemc]
          exact Multiset.mem_coe.mpr hmemf1
        have hsptLnewMS : ((m.m_special, m.m_to) : Char × Nat) ∈
            (↑((m.m_special, m.m_to) :: eraseFirst
              (replaceFirst (eraseFirst p.m_pieces (m.m_captured, m.m_to))
                (m.m_piece, m.m_from) (m.m_piece, m.m_to))
              (m.m_piece, m.m_to)) : Multiset (Char × Nat)) :=
          Multiset.mem_coe.mpr hsptLnew
        rw [← Multiset.cons_coe, coe_eraseFirst hspf, coe_replaceFirst _ hsptl1,
          Multiset.erase_cons_head, ← Multiset.cons_coe,
          Multiset.erase_cons_tail_of_mem hsptLnewMS,
          ← Multiset.cons_coe, Multiset.erase_cons_head,
          coe_eraseFirst hmempct, coe_replaceFirst _ hmemf1,
          Multiset.erase_cons_head, coe_eraseFirst hmemc, Multiset.cons_swap,
          Multiset.cons_erase hmemf2,
          Multiset.cons_erase (Multiset.mem_coe.mpr hmemc)]


theorem perform_undo_posEq {p : Position} {m : Move} (hI : Inv p) (hm : MoveOK p m) :
    posEq (undo_move (perform_move p m)) p := by
  rcases moveok_special_cases hm with h | h | h | h
  · exact roundtrip_none hI hm h
  · exact roundtrip_E hI hm h
  · exact roundtrip_e hI hm h
  · exact roundtrip_promo hI hm h

/-! ## Generated pseudo-legal moves satisfy `MoveOK` -/

theorem valid_coords_iff {col row : Int} :
    are_valid_coords col row = true ↔ 0 ≤ col ∧ col < 8 ∧ 0 ≤ row ∧ row < 8 := by
  simp only [are_valid_coords, Bool.and_eq_true, decide_eq_true_eq]
  constructor
  · rintro ⟨⟨⟨h1, h2⟩, h3⟩, h4⟩
    exact ⟨h1, h2, h3, h4⟩
  · rintro ⟨h1, h2, h3, h4⟩
    exact ⟨⟨⟨h1, h2⟩, h3⟩, h4⟩

theorem get_square_valid {col row : Int} (h : 0 ≤ col ∧ col < 8 ∧ 0 ≤ row ∧ row < 8) :
    get_square col row = (col + 8 * row).toNat := by
  rw [get_square, if_pos (valid_coords_iff.mpr h)]

theorem captured_case {p : Position} (hI : Inv p) {c : Char} {sq : Nat}
    (hsq : sq < 64)
    (h : boardGet p.m_board sq = '.' ∨ is_upper c ≠ is_upper (boardGet p.m_board sq)) :
    boardGet p.m_board sq = '.' ∨
      (boardGet p.m_board sq ∈ pieceLetters ∧
        is_upper (boardGet p.m_board sq) ≠ is_upper c) := by
  obtain ⟨-, -, hbl, -, -, -⟩ := id hI
  rcases h with h | h
  · exact Or.inl h
  · rcases hbl sq hsq with h2 | h2
    · exact Or.inl h2
    · exact Or.inr ⟨h2, fun hh => h hh.symm⟩

theorem stepMoves_ok {p : Position} (hI : Inv p) {c : Char} {sq : Nat}
    {offs : List (Int × Int)}
    (hsq : sq < 64) (hat : boardGet p.m_board sq = c) (hcl : c ∈ pieceLetters)
    (hcolor : is_upper c = decide (p.m_to_move = 'w'))
    (hnp : ¬ c.toLower = 'p')
    (hoffs : ∀ o ∈ offs, ¬ (o.1 = 0 ∧ o.2 = 0)) :
    ∀ m ∈ stepMoves p c sq offs, MoveOK p m := by
  intro m hm
  obtain ⟨cds, hcds, hsome⟩ := List.mem_filterMap.mp hm
  by_cases hv : are_valid_coords ((sq % 8 : Int) + cds.1) ((sq / 8 : Int) + cds.2) = true
  · rw [if_pos hv] at hsome
    obtain ⟨hc1, hc2, hc3, hc4⟩ := valid_coords_iff.mp hv
    have hgs : get_square ((sq % 8 : Int) + cds.1) ((sq / 8 : Int) + cds.2) =
        ((sq % 8 : Int) + cds.1 + 8 * ((sq / 8 : Int) + cds.2)).toNat :=
      get_square_valid ⟨hc1, hc2, hc3, hc4⟩
    by_cases hcond : boardGet p.m_board
        (get_square ((sq % 8 : Int) + cds.1) ((sq / 8 : Int) + cds.2)) = '.' ∨
        is_upper c ≠ is_upper (boardGet p.m_board
          (get_square ((sq % 8 : Int) + cds.1) ((sq / 8 : Int) + cds.2)))
    · rw [if_pos hcond] at hsome
      obtain rfl := Option.some.inj hsome
      have hne8 := hoffs cds hcds
      refine ⟨?_, ?_, hat, hcl, hcolor, rfl, Or.inl ⟨rfl, rfl, ?_, ?_⟩⟩
      · rw [hgs]
        dsimp only
        omega
      · rw [hgs]
        dsimp only
        intro hcon
        omega
      · exact captured_case hI (by rw [hgs]; omega) hcond
      · intro hp
        exact absurd hp hnp
    · rw [if_neg hcond] at hsome
      exact absurd hsome (by simp)
  · rw [if_neg (fun h => hv h)] at hsome
    exact absurd hsome (by simp)

theorem rayMoves_ok {p : Position} (hI : Inv p) {c : Char} {sq : Nat}
    {cds : Int × Int}
    (hat : boardGet p.m_board sq = c) (hcl : c ∈ pieceLetters)
    (hcolor : is_upper c = decide (p.m_to_move = 'w'))
    (hnp : ¬ c.toLower = 'p') :
    ∀ (fuel : Nat) (col row : Int),
      ((0 < cds.1 + 8 * cds.2 ∧ (sq : Int) < col + 8 * row) ∨
       (cds.1 + 8 * cds.2 < 0 ∧ col + 8 * row < (sq : Int))) →
      ∀ m ∈ rayMoves p c sq fuel col row cds, MoveOK p m := by
  intro fuel
  induction fuel with
  | zero =>
    intro col row _ m hm
    simp [rayMoves] at hm
  | succ n ih =>
    intro col row hmono m hm
    rw [rayMoves] at hm
    by_cases hv : are_valid_coords col row = true
    · rw [if_pos hv] at hm
      obtain ⟨hc1, hc2, hc3, hc4⟩ := valid_coords_iff.mp hv
      have hgs : get_square col row = (col + 8 * row).toNat :=
        get_square_valid ⟨hc1, hc2, hc3, hc4⟩
      by_cases hstop : boardGet p.m_board (get_square col row) ≠ '.' ∧
          is_upper c = is_upper (boardGet p.m_board (get_square col row))
      · rw [if_pos hstop] at hm
        simp at hm
      · rw [if_neg hstop] at hm
        rcases List.mem_cons.mp hm with h | h
        · subst h
          refine ⟨?_, ?_, hat, hcl, hcolor, rfl, Or.inl ⟨rfl, rfl, ?_, ?_⟩⟩
          · rw [hgs]
            dsimp only
            omega
          · rw [hgs]
            dsimp only
            intro hcon
            omega
          · refine captured_case hI (by rw [hgs]; omega) ?_
            by_cases he : boardGet p.m_board (get_square col row) = '.'
            · exact Or.inl he
            · refine Or.inr ?_
              intro heq
              exact hstop ⟨he, heq⟩
          · intro hp
            exact absurd hp hnp
        · by_cases hdot : boardGet p.m_board (get_square col row) ≠ '.'
          · rw [if_pos hdot] at h
            simp at h
          · rw [if_neg hdot] at h
            refine ih (col + cds.1) (row + cds.2) ?_ m h
            rcases hmono with ⟨hd, hlt⟩ | ⟨hd, hlt⟩
            · exact Or.inl ⟨hd, by omega⟩
            · exact Or.inr ⟨hd, by omega⟩
    · rw [if_neg (fun h => hv h)] at hm
      simp at hm

theorem pawnMoves_ok {p : Position} (hI : Inv p) {c : Char} {sq : Nat}
    (hsq : sq < 64) (hat : boardGet p.m_board sq = c)
    (hc : c = 'P' ∨ c = 'p')
    (hcolor : is_upper c = decide (p.m_to_move = 'w')) :
    ∀ m ∈ pawnMoves p c sq, MoveOK p m := by
  have hcp : c.toLower = 'p' := by rcases hc with rfl | rfl <;> decide
  have hmemP : (c, sq) ∈ p.m_pieces :=
    mem_pieces_of_board hI hat (by rcases hc with rfl | rfl <;> decide)
  obtain ⟨hlen, htm, hbl, hagree, hpawn, hep⟩ := id hI
  have hrank := hpawn (c, sq) hmemP hcp
  rcases hc with rfl | rfl
  · -- white pawn, moving towards row 0
    have htmw : p.m_to_move = 'w' := by
      have h : decide (p.m_to_move = 'w') = true := by rw [← hcolor]; decide
      exact of_decide_eq_true h
    have hdir : (if is_upper 'P' then (-1 : Int) else 1) = -1 := by decide
    have hspc : (if is_upper 'P' then 'E' else 'e') = 'E' := by decide
    intro m hm
    simp only [pawnMoves, hdir, hspc, List.mem_append, List.mem_flatMap] at hm
    rcases hm with (⟨cd, hcd, hm⟩ | hm) | hm
    · -- diagonal capture / en passant fan
      have hcd12 : cd = 1 ∨ cd = -1 := by simpa using hcd
      split at hm
      next hv =>
        obtain ⟨hb1, hb2, hb3, hb4⟩ := valid_coords_iff.mp hv
        have hgs := get_square_valid ⟨hb1, hb2, hb3, hb4⟩
        split at hm
        next hcap =>
          split at hm
          next hrow0 =>
            obtain ⟨pr, hpr, rfl⟩ := List.mem_map.mp hm
            have hpr4 : pr ∈ (['Q', 'R', 'N', 'B'] : List Char) := by
              simpa [promoPieces] using hpr
            refine ⟨?_, ?_, hat, (by dsimp only; decide), hcolor, rfl,
              Or.inr (Or.inr (Or.inr
                ⟨(by dsimp only; decide), ?_, ?_, ?_, rfl, ?_, Or.inl ⟨rfl, ?_, ?_⟩⟩))⟩
            · rw [hgs]; dsimp only; omega
            · rw [hgs]; dsimp only; intro hcon; omega
            · fin_cases hpr4 <;> (dsimp only; decide)
            · fin_cases hpr4 <;> (dsimp only; decide)
            · fin_cases hpr4 <;> (dsimp only; decide)
            · exact captured_case hI (by rw [hgs]; omega)
                (Or.inr (fun h => hcap.2 h.symm))
            · rw [hgs]; dsimp only; omega
            · dsimp only; omega
          next hrow0 =>
            split at hm
            next hrow7 => exact absurd hrow7 (by omega)
            next hrow7 =>
              simp only [List.mem_singleton] at hm
              subst hm
              refine ⟨?_, ?_, hat, (by dsimp only; decide), hcolor, rfl,
                Or.inl ⟨rfl, rfl, ?_, ?_⟩⟩
              · rw [hgs]; dsimp only; omega
              · rw [hgs]; dsimp only; intro hcon
                rcases hcd12 with rfl | rfl <;> omega
              · exact captured_case hI (by rw [hgs]; omega)
                  (Or.inr (fun h => hcap.2 h.symm))
              · intro _
                refine ⟨?_, ?_⟩
                · rw [hgs]; dsimp only
                  exact ⟨fun hcon => by omega, fun hcon => by omega⟩
                · rw [hgs]; dsimp only
                  intro habs
                  exfalso
                  rcases hcd12 with rfl | rfl <;> omega
        next hcap =>
          split at hm
          next hepq =>
            simp only [List.mem_singleton] at hm
            subst hm
            rcases hep with hep1 | ⟨hep0, hdot, hside⟩
            · rw [hep1] at hepq
              exfalso
              omega
            · rw [hgs] at hepq
              have hside2 : p.m_en_passant.toNat / 8 = 2 ∧
                  boardGet p.m_board (p.m_en_passant.toNat + 8) = 'p' := by
                rcases hside with h | h
                · exact ⟨h.2.1, h.2.2⟩
                · exact absurd (htmw.symm.trans h.1) (by decide)
              obtain ⟨hr2, hp8⟩ := hside2
              refine ⟨?_, ?_, hat, (by dsimp only; decide), hcolor, rfl,
                Or.inr (Or.inl ⟨rfl, rfl, ?_, ?_, ?_, ?_, ?_⟩)⟩
              · rw [hgs]; dsimp only; omega
              · rw [hgs]; dsimp only; intro hcon
                rcases hcd12 with rfl | rfl <;> omega
              · convert hdot using 2
                rw [hgs]; omega
              · rw [hgs]; dsimp only; omega
              · convert hdot using 2
                rw [hgs]; dsimp only; omega
              · convert hp8 using 2
                rw [hgs]; dsimp only; omega
              · rw [hgs]; dsimp only
                rcases hcd12 with rfl | rfl
                · exact Or.inl (by omega)
                · exact Or.inr (by omega)
          next hepq => simp at hm
      next hv => simp at hm
    · -- single push
      split at hm
      next hpush =>
        have hgsp : get_square (sq % 8 : Int) ((sq / 8 : Int) + -1) =
            ((sq % 8 : Int) + 8 * ((sq / 8 : Int) + -1)).toNat :=
          get_square_valid (by omega)
        split at hm
        next hrow0 =>
          obtain ⟨pr, hpr, rfl⟩ := List.mem_map.mp hm
          have hpr4 : pr ∈ (['Q', 'R', 'N', 'B'] : List Char) := by
            simpa [promoPieces] using hpr
          refine ⟨?_, ?_, hat, (by dsimp only; decide), hcolor, rfl,
            Or.inr (Or.inr (Or.inr
              ⟨(by dsimp only; decide), ?_, ?_, ?_, hpush, Or.inl rfl, Or.inl ⟨rfl, ?_, ?_⟩⟩))⟩
          · rw [hgsp]; dsimp only; omega
          · rw [hgsp]; dsimp only; intro hcon; omega
          · fin_cases hpr4 <;> (dsimp only; decide)
          · fin_cases hpr4 <;> (dsimp only; decide)
          · fin_cases hpr4 <;> (dsimp only; decide)
          · rw [hgsp]; dsimp only; omega
          · dsimp only; omega
        next hrow0 =>
          split at hm
          next hrow7 => exact absurd hrow7 (by omega)
          next hrow7 =>
            simp only [List.mem_singleton] at hm
            subst hm
            refine ⟨?_, ?_, hat, (by dsimp only; decide), hcolor, rfl,
              Or.inl ⟨rfl, hpush, Or.inl rfl, ?_⟩⟩
            · rw [hgsp]; dsimp only; omega
            · rw [hgsp]; dsimp only; intro hcon; omega
            · intro _
              refine ⟨?_, ?_⟩
              · rw [hgsp]; dsimp only
                exact ⟨fun hcon => by omega, fun hcon => by omega⟩
              · rw [hgsp]; dsimp only
                intro habs
                exfalso
                omega
      next hpush => simp at hm
    · -- double push
      split at hm
      next hdbl =>
        obtain ⟨hside6, hmid, htgt⟩ := hdbl
        have hrow6 : (sq / 8 : Int) = 6 := by
          rcases hside6 with ⟨-, h⟩ | ⟨hnu, -⟩
          · exact h
          · exact absurd (by decide) hnu
        have hgsd : get_square (sq % 8 : Int) ((sq / 8 : Int) + 2 * -1) =
            ((sq % 8 : Int) + 8 * ((sq / 8 : Int) + 2 * -1)).toNat :=
          get_square_valid (by omega)
        have hgsm : get_square (sq % 8 : Int) ((sq / 8 : Int) + -1) =
            ((sq % 8 : Int) + 8 * ((sq / 8 : Int) + -1)).toNat :=
          get_square_valid (by omega)
        simp only [List.mem_singleton] at hm
        subst hm
        rw [hgsm] at hmid
        refine ⟨?_, ?_, hat, (by dsimp only; decide), hcolor, rfl,
          Or.inl ⟨rfl, htgt, Or.inl rfl, ?_⟩⟩
        · rw [hgsd]; dsimp only; omega
        · rw [hgsd]; dsimp only; intro hcon; omega
        · intro _
          refine ⟨?_, ?_⟩
          · rw [hgsd]; dsimp only
            exact ⟨fun hcon => by omega, fun hcon => by omega⟩
          · rw [hgsd]; dsimp only
            intro _
            refine ⟨rfl, ?_, Or.inl ⟨rfl, by omega, by omega⟩⟩
            convert hmid using 2
            omega
      next => simp at hm
  · -- black pawn, moving towards row 7
    have htmb : p.m_to_move = 'b' := by
      rcases htm with h | h
      · have h2 := hcolor
        rw [h] at h2
        exact absurd h2 (by decide)
      · exact h
    have hdir : (if is_upper 'p' then (-1 : Int) else 1) = 1 := by decide
    have hspc : (if is_upper 'p' then 'E' else 'e') = 'e' := by decide
    intro m hm
    simp only [pawnMoves, hdir, hspc, List.mem_append, List.mem_flatMap] at hm
    rcases hm with (⟨cd, hcd, hm⟩ | hm) | hm
    · -- diagonal capture / en passant fan
      have hcd12 : cd = 1 ∨ cd = -1 := by simpa using hcd
      split at hm
      next hv =>
        obtain ⟨hb1, hb2, hb3, hb4⟩ := valid_coords_iff.mp hv
        have hgs := get_square_valid ⟨hb1, hb2, hb3, hb4⟩
        split at hm
        next hcap =>
          split at hm
          next hrow0 => exact absurd hrow0 (by omega)
          next hrow0 =>
            split at hm
            next hrow7 =>
              obtain ⟨pr, hpr, rfl⟩ := List.mem_map.mp hm
              have hpr4 : pr ∈ (['q', 'r', 'n', 'b'] : List Char) := by
                simpa [promoPieces] using hpr
              refine ⟨?_, ?_, hat, (by dsimp only; decide), hcolor, rfl,
                Or.inr (Or.inr (Or.inr
                  ⟨(by dsimp only; decide), ?_, ?_, ?_, rfl, ?_, Or.inr ⟨rfl, ?_, ?_⟩⟩))⟩
              · rw [hgs]; dsimp only; omega
              · rw [hgs]; dsimp only; intro hcon; omega
              · fin_cases hpr4 <;> (dsimp only; decide)
              · fin_cases hpr4 <;> (dsimp only; decide)
              · fin_cases hpr4 <;> (dsimp only; decide)
              · exact captured_case hI (by rw [hgs]; omega)
                  (Or.inr (fun h => hcap.2 h.symm))
              · rw [hgs]; dsimp only; omega
              · dsimp only; omega
            next hrow7 =>
              simp only [List.mem_singleton] at hm
              subst hm
              refine ⟨?_, ?_, hat, (by dsimp only; decide), hcolor, rfl,
                Or.inl ⟨rfl, rfl, ?_, ?_⟩⟩
              · rw [hgs]; dsimp only; omega
              · rw [hgs]; dsimp only; intro hcon
                rcases hcd12 with rfl | rfl <;> omega
              · exact captured_case hI (by rw [hgs]; omega)
                  (Or.inr (fun h => hcap.2 h.symm))
              · intro _
                refine ⟨?_, ?_⟩
                · rw [hgs]; dsimp only
                  exact ⟨fun hcon => by omega, fun hcon => by omega⟩
                · rw [hgs]; dsimp only
                  intro habs
                  exfalso
                  rcases hcd12 with rfl | rfl <;> omega
        next hcap =>
          split at hm
          next hepq =>
            simp only [List.mem_singleton] at hm
            subst hm
            rcases hep with hep1 | ⟨hep0, hdot, hside⟩
            · rw [hep1] at hepq
              exfalso
              omega
            · rw [hgs] at hepq
              have hside5 : p.m_en_passant.toNat / 8 = 5 ∧
                  boardGet p.m_board (p.m_en_passant.toNat - 8) = 'P' := by
                rcases hside with h | h
                · exact absurd (h.1.symm.trans htmb) (by decide)
                · exact ⟨h.2.1, h.2.2⟩
              obtain ⟨hr5, hP8⟩ := hside5
              refine ⟨?_, ?_, hat, (by dsimp only; decide), hcolor, rfl,
                Or.inr (Or.inr (Or.inl ⟨rfl, rfl, ?_, ?_, ?_, ?_, ?_⟩))⟩
              · rw [hgs]; dsimp only; omega
              · rw [hgs]; dsimp only; intro hcon
                rcases hcd12 with rfl | rfl <;> omega
              · convert hdot using 2
                rw [hgs]; omega
              · rw [hgs]; dsimp only; omega
              · convert hdot using 2
                rw [hgs]; dsimp only; omega
              · convert hP8 using 2
                rw [hgs]; dsimp only; omega
              · rw [hgs]; dsimp only
                rcases hcd12 with rfl | rfl
                · exact Or.inr (by omega)
                · exact Or.inl (by omega)
          next hepq => simp at hm
      next hv => simp at hm
    · -- single push
      split at hm
      next hpush =>
        have hgsp : get_square (sq % 8 : Int) ((sq / 8 : Int) + 1) =
            ((sq % 8 : Int) + 8 * ((sq / 8 : Int) + 1)).toNat :=
          get_square_valid (by omega)
        split at hm
        next hrow0 => exact absurd hrow0 (by omega)
        next hrow0 =>
          split at hm
          next hrow7 =>
            obtain ⟨pr, hpr, rfl⟩ := List.mem_map.mp hm
            have hpr4 : pr ∈ (['q', 'r', 'n', 'b'] : List Char) := by
              simpa [promoPieces] using hpr
            refine ⟨?_, ?_, hat, (by dsimp only; decide), hcolor, rfl,
              Or.inr (Or.inr (Or.inr
                ⟨(by dsimp only; decide), ?_, ?_, ?_, hpush, Or.inl rfl, Or.inr ⟨rfl, ?_, ?_⟩⟩))⟩
            · rw [hgsp]; dsimp only; omega
            · rw [hgsp]; dsimp only; intro hcon; omega
            · fin_cases hpr4 <;> (dsimp only; decide)
            · fin_cases hpr4 <;> (dsimp only; decide)
            · fin_cases hpr4 <;> (dsimp only; decide)
            · rw [hgsp]; dsimp only; omega
            · dsimp only; omega
          next hrow7 =>
            simp only [List.mem_singleton] at hm
            subst hm
            refine ⟨?_, ?_, hat, (by dsimp only; decide), hcolor, rfl,
              Or.inl ⟨rfl, hpush, Or.inl rfl, ?_⟩⟩
            · rw [hgsp]; dsimp only; omega
            · rw [hgsp]; dsimp only; intro hcon; omega
            · intro _
              refine ⟨?_, ?_⟩
              · rw [hgsp]; dsimp only
                exact ⟨fun hcon => by omega, fun hcon => by omega⟩
              · rw [hgsp]; dsimp only
                intro habs
                exfalso
                omega
      next hpush => simp at hm
    · -- double push
      split at hm
      next hdbl =>
        obtain ⟨hside6, hmid, htgt⟩ := hdbl
        have hrow1 : (sq / 8 : Int) = 1 := by
          rcases hside6 with ⟨hu, -⟩ | ⟨-, h⟩
          · exact absurd hu (by decide)
          · exact h
        have hgsd : get_square (sq % 8 : Int) ((sq / 8 : Int) + 2 * 1) =
            ((sq % 8 : Int) + 8 * ((sq / 8 : Int) + 2 * 1)).toNat :=
          get_square_valid (by omega)
        have hgsm : get_square (sq % 8 : Int) ((sq / 8 : Int) + 1) =
            ((sq % 8 : Int) + 8 * ((sq / 8 : Int) + 1)).toNat :=
          get_square_valid (by omega)
        simp only [List.mem_singleton] at hm
        subst hm
        rw [hgsm] at hmid
        refine ⟨?_, ?_, hat, (by dsimp only; decide), hcolor, rfl,
          Or.inl ⟨rfl, htgt, Or.inl rfl, ?_⟩⟩
        · rw [hgsd]; dsimp only; omega
        · rw [hgsd]; dsimp only; intro hcon; omega
        · intro _
          refine ⟨?_, ?_⟩
          · rw [hgsd]; dsimp only
            exact ⟨fun hcon => by omega, fun hcon => by omega⟩
          · rw [hgsd]; dsimp only
            intro _
            refine ⟨rfl, ?_, Or.inr ⟨rfl, by omega, by omega⟩⟩
            convert hmid using 2
            omega
      next => simp at hm

theorem slideMoves_ok {p : Position} (hI : Inv p) {c : Char} {sq : Nat}
    {dirs : List (Int × Int)}
    (_hsq : sq < 64) (hat : boardGet p.m_board sq = c) (hcl : c ∈ pieceLetters)
    (hcolor : is_upper c = decide (p.m_to_move = 'w'))
    (hnp : ¬ c.toLower = 'p')
    (hdirs : ∀ o ∈ dirs, ¬ o.1 + 8 * o.2 = 0) :
    ∀ m ∈ slideMoves p c sq dirs, MoveOK p m := by
  intro m hm
  obtain ⟨cds, hcds, hmem⟩ := List.mem_flatMap.mp hm
  have hδ := hdirs cds hcds
  refine rayMoves_ok hI hat hcl hcolor hnp 8
    ((sq % 8 : Int) + cds.1) ((sq / 8 : Int) + cds.2) ?_ m hmem
  by_cases hpos : 0 < cds.1 + 8 * cds.2
  · refine Or.inl ⟨hpos, ?_⟩
    omega
  · refine Or.inr ⟨by omega, ?_⟩
    omega

theorem find_pseudo_ok {p : Position} (hI : Inv p) {c : Char} {sq : Nat}
    (hsq : sq < 64) (hat : boardGet p.m_board sq = c) (hcl : c ∈ pieceLetters)
    (hcolor : is_upper c = decide (p.m_to_move = 'w')) :
    ∀ m ∈ find_pseudo_legal_moves p c sq, MoveOK p m := by
  fin_cases hcl
  · exact stepMoves_ok hI hsq hat (by decide) hcolor (by decide) (by decide)
  · exact slideMoves_ok hI hsq hat (by decide) hcolor (by decide) (by decide)
  · exact slideMoves_ok hI hsq hat (by decide) hcolor (by decide) (by decide)
  · exact stepMoves_ok hI hsq hat (by decide) hcolor (by decide) (by decide)
  · exact slideMoves_ok hI hsq hat (by decide) hcolor (by decide) (by decide)
  · exact pawnMoves_ok hI hsq hat (Or.inl rfl) hcolor
  · exact stepMoves_ok hI hsq hat (by decide) hcolor (by decide) (by decide)
  · exact slideMoves_ok hI hsq hat (by decide) hcolor (by decide) (by decide)
  · exact slideMoves_ok hI hsq hat (by decide) hcolor (by decide) (by decide)
  · exact stepMoves_ok hI hsq hat (by decide) hcolor (by decide) (by decide)
  · exact slideMoves_ok hI hsq hat (by decide) hcolor (by decide) (by decide)
  · exact pawnMoves_ok hI hsq hat (Or.inr rfl) hcolor

theorem pseudoMoves_ok {p : Position} (hI : Inv p) :
    ∀ m ∈ pseudoMoves p, MoveOK p m := by
  intro m hm
  obtain ⟨e, he, hmem⟩ := List.mem_flatMap.mp hm
  obtain ⟨hepcs, hecol⟩ := List.mem_filter.mp he
  obtain ⟨hlen, -, -, hagree, -, -⟩ := id hI
  have heb : (e.1, e.2) ∈ boardPieces p.m_board := by
    rw [← hagree]
    exact Multiset.mem_coe.mpr hepcs
  obtain ⟨hbat, hne, hlt⟩ := mem_boardPieces_iff.mp heb
  have hcl : e.1 ∈ pieceLetters := by
    obtain ⟨-, -, hbl, -, -, -⟩ := id hI
    rcases hbl e.2 (by omega) with h | h
    · exact absurd (hbat.symm.trans h) hne
    · exact hbat ▸ h
  exact find_pseudo_ok hI (by omega) hbat hcl
    (by simpa using hecol) m hmem

theorem gpm_sub_pseudo {p : Position} {m : Move}
    (hm : m ∈ get_possible_moves p) : m ∈ pseudoMoves p :=
  (List.mem_filter.mp hm).1

theorem gpm_ok {p : Position} (hI : Inv p) :
    ∀ m ∈ get_possible_moves p, MoveOK p m :=
  fun m hm => pseudoMoves_ok hI m (gpm_sub_pseudo hm)

/-! ## King-square tracking through `perform_move` -/

theorem find?_of_filter_singleton {l : List (Char × Nat)} {pr : Char × Nat → Bool}
    {a : Char × Nat} (h : l.filter pr = [a]) : l.find? pr = some a := by
  induction l with
  | nil => simp at h
  | cons x xs ih =>
    cases hx : pr x with
    | true =>
      rw [List.filter_cons, if_pos hx] at h
      simp only [List.cons.injEq] at h
      have hpa : pr a = true := h.1 ▸ hx
      simp [List.find?_cons, hpa, h.1]
    | false =>
      rw [List.filter_cons, if_neg (by simp [hx])] at h
      simp only [List.find?_cons, hx]
      exact ih h

theorem filter_replaceFirst_pos {l : List (Char × Nat)} {pr : Char × Nat → Bool}
    {a b : Char × Nat} (h : l.filter pr = [a]) (hb : pr b = true) :
    (replaceFirst l a b).filter pr = [b] := by
  have hpa : pr a = true := List.of_mem_filter (l := l) (by rw [h]; exact List.mem_singleton_self a)
  induction l with
  | nil => simp at h
  | cons x xs ih =>
    rw [replaceFirst]
    by_cases hxa : x = a
    · subst hxa
      rw [List.filter_cons, if_pos hpa] at h
      simp only [List.cons.injEq] at h
      rw [if_pos rfl, List.filter_cons, if_pos hb, h.2]
    · rw [if_neg hxa, List.filter_cons]
      rw [List.filter_cons] at h
      cases hx : pr x with
      | true =>
        rw [if_pos hx] at h
        simp only [List.cons.injEq] at h
        exact absurd h.1 hxa
      | false =>
        rw [if_neg (by simp [hx])] at h
        rw [if_neg (by simp [hx])]
        exact ih h

theorem filter_replaceFirst_neg {l : List (Char × Nat)} {pr : Char × Nat → Bool}
    {a b : Char × Nat} (ha : pr a = false) (hb : pr b = false) :
    (replaceFirst l a b).filter pr = l.filter pr := by
  induction l with
  | nil => rfl
  | cons x xs ih =>
    rw [replaceFirst]
    by_cases hxa : x = a
    · subst hxa
      rw [if_pos rfl, List.filter_cons, List.filter_cons,
        if_neg (by simp [hb]), if_neg (by simp [ha])]
    · rw [if_neg hxa, List.filter_cons, List.filter_cons]
      cases hx : pr x <;> simp [ih]

theorem filter_eraseFirst_neg {l : List (Char × Nat)} {pr : Char × Nat → Bool}
    {a : Char × Nat} (ha : pr a = false) :
    (eraseFirst l a).filter pr = l.filter pr := by
  induction l with
  | nil => rfl
  | cons x xs ih =>
    rw [eraseFirst]
    by_cases hxa : x = a
    · subst hxa
      rw [if_pos rfl, List.filter_cons, if_neg (by simp [ha])]
    · rw [if_neg hxa, List.filter_cons, List.filter_cons]
      cases hx : pr x <;> simp [ih]

theorem king_square_base {p : Position} {k : Char} {ksq : Nat}
    (hk : p.m_pieces.filter (fun e => e.1 = k) = [(k, ksq)]) :
    king_square_in p k = ksq := by
  rw [king_square_in, find?_of_filter_singleton hk]
  rfl

theorem king_square_perform {p : Position} {m : Move} {ksq : Nat} (hI : Inv p)
    (hm : MoveOK p m)
    (hk : p.m_pieces.filter (fun e => e.1 = moverKing p) = [(moverKing p, ksq)]) :
    king_square_in (perform_move p m) (moverKing p) =
      if m.m_piece = moverKing p then m.m_to else ksq := by
  have hk2 : moverKing p = 'K' ∨ moverKing p = 'k' := by
    rw [moverKing]
    by_cases h : p.m_to_move = 'w'
    · rw [if_pos h]; exact Or.inl rfl
    · rw [if_neg h]; exact Or.inr rfl
  obtain ⟨hto, hne, hat, hletter, hcol, hlep, -⟩ := id hm
  have hKcol : is_upper (moverKing p) = decide (p.m_to_move = 'w') := by
    rw [moverKing]
    by_cases h : p.m_to_move = 'w'
    · rw [if_pos h, h]; decide
    · rw [if_neg h, decide_eq_false h]; decide
  have hsame : is_upper m.m_piece = is_upper (moverKing p) := by rw [hcol, hKcol]
  have hcapfact : m.m_captured = '.' ∨ is_upper m.m_captured ≠ is_upper m.m_piece := by
    rcases moveok_special_cases hm with hs | hs | hs | hs
    · rcases (moveok_spec_none hm hs).2.1 with h | h
      · exact Or.inl h
      · exact Or.inr h.2
    · exact Or.inl (moveok_spec_E hm hs).2.1
    · exact Or.inl (moveok_spec_e hm hs).2.1
    · rcases (moveok_spec_promo hm hs).2.2.2.2.1 with h | h
      · exact Or.inl h
      · exact Or.inr h.2
  have hcapk : ¬ m.m_captured = moverKing p := by
    intro hck
    rcases hcapfact with h | h
    · rw [hck] at h
      rcases hk2 with h2 | h2 <;> rw [h2] at h <;> exact absurd h (by decide)
    · exact h (by rw [hck]; exact hsame.symm)
  have hbase : (if m.m_captured ≠ '.' then eraseFirst p.m_pieces (m.m_captured, m.m_to)
      else p.m_pieces).filter (fun e => e.1 = moverKing p) = [(moverKing p, ksq)] := by
    by_cases hcp : m.m_captured ≠ '.'
    · rw [if_pos hcp, filter_eraseFirst_neg (decide_eq_false hcapk)]
      exact hk
    · rw [if_neg hcp]
      exact hk
  rcases moveok_special_cases hm with hs | hs | hs | hs
  · rw [perform_move_eq_none hI hm hs]
    by_cases hpk : m.m_piece = moverKing p
    · rw [if_pos hpk]
      have hmemk : (m.m_piece, m.m_from) ∈ p.m_pieces :=
        mem_pieces_of_board hI hat (pieceLetters_ne_dot _ hletter)
      have hfq : (m.m_piece, m.m_from) ∈
          p.m_pieces.filter (fun e => e.1 = moverKing p) :=
        List.mem_filter.mpr ⟨hmemk, by simp [hpk]⟩
      rw [hk] at hfq
      simp only [List.mem_singleton, Prod.mk.injEq] at hfq
      apply king_square_base
      dsimp only
      rw [hpk, hfq.2]
      exact filter_replaceFirst_pos hbase (decide_eq_true rfl)
    · rw [if_neg hpk]
      apply king_square_base
      dsimp only
      rw [filter_replaceFirst_neg (decide_eq_false hpk) (decide_eq_false hpk)]
      exact hbase
  · have hP := (moveok_spec_E hm hs).1
    have hpk : ¬ m.m_piece = moverKing p := by
      intro h
      rw [hP] at h
      rcases hk2 with h2 | h2 <;> rw [h2] at h <;> exact absurd h (by decide)
    have hpk2 : ¬ (('p' : Char) = moverKing p) := by
      intro h
      rcases hk2 with h2 | h2 <;> rw [h2] at h <;> exact absurd h (by decide)
    rw [perform_move_eq_E hI hm hs, if_neg hpk]
    apply king_square_base
    dsimp only
    rw [filter_eraseFirst_neg (decide_eq_false hpk2),
      filter_replaceFirst_neg (decide_eq_false hpk) (decide_eq_false hpk)]
    exact hk
  · have hP := (moveok_spec_e hm hs).1
    have hpk : ¬ m.m_piece = moverKing p := by
      intro h
      rw [hP] at h
      rcases hk2 with h2 | h2 <;> rw [h2] at h <;> exact absurd h (by decide)
    have hpk2 : ¬ (('P' : Char) = moverKing p) := by
      intro h
      rcases hk2 with h2 | h2 <;> rw [h2] at h <;> exact absurd h (by decide)
    rw [perform_move_eq_e hI hm hs, if_neg hpk]
    apply king_square_base
    dsimp only
    rw [filter_eraseFirst_neg (decide_eq_false hpk2),
      filter_replaceFirst_neg (decide_eq_false hpk) (decide_eq_false hpk)]
    exact hk
  · have hP := (moveok_spec_promo hm hs).1
    have hpk : ¬ m.m_piece = moverKing p := by
      intro h
      rw [h] at hP
      rcases hk2 with h2 | h2 <;> rw [h2] at hP <;> exact absurd hP (by decide)
    have hspk : ¬ m.m_special = moverKing p := by
      intro h
      rw [h] at hs
      rcases hk2 with h2 | h2 <;> rw [h2] at hs <;> exact absurd hs (by decide)
    rw [perform_move_eq_promo hI hm hs, if_neg hpk]
    apply king_square_base
    dsimp only
    rw [List.filter_cons, if_neg (by simp [hspk]),
      filter_eraseFirst_neg (decide_eq_false hpk),
      filter_replaceFirst_neg (decide_eq_false hpk) (decide_eq_false hpk)]
    exact hbase

/-! ## Claim C2: undo symmetry -/

/-- C2: for every position satisfying the data-model invariants and every
move returned by `get_possible_moves`, performing the move and undoing it
restores the board, the pieces (as unordered content), the side to move,
the en-passant square and the position hash. -/
theorem c2_undo_symmetry {p : Position} {m : Move} (hI : Inv p)
    (hm : m ∈ get_possible_moves p) :
    (undo_move (perform_move p m)).m_board = p.m_board ∧
    ((undo_move (perform_move p m)).m_pieces : Multiset (Char × Nat)) =
      (p.m_pieces : Multiset (Char × Nat)) ∧
    (undo_move (perform_move p m)).m_to_move = p.m_to_move ∧
    (undo_move (perform_move p m)).m_en_passant = p.m_en_passant ∧
    get_hash (undo_move (perform_move p m)) = get_hash p := by
  obtain ⟨hb, ht, he, hp, -⟩ :=
    perform_undo_posEq hI (pseudoMoves_ok hI m (gpm_sub_pseudo hm))
  refine ⟨hb, hp, ht, he, ?_⟩
  rw [get_hash, get_hash, hb, ht, he]

/-- Closed instance of C2 on the bare-kings position and the king move
d4-e4. -/
theorem c2_undo_symmetry_witness :
    (undo_move (perform_move bareKings ⟨35, 36, 'K', '.', specNone, -1⟩)).m_board =
      bareKings.m_board ∧
    ((undo_move (perform_move bareKings ⟨35, 36, 'K', '.', specNone, -1⟩)).m_pieces :
      Multiset (Char × Nat)) = (bareKings.m_pieces : Multiset (Char × Nat)) ∧
    (undo_move (perform_move bareKings ⟨35, 36, 'K', '.', specNone, -1⟩)).m_to_move =
      bareKings.m_to_move ∧
    (undo_move (perform_move bareKings ⟨35, 36, 'K', '.', specNone, -1⟩)).m_en_passant =
      bareKings.m_en_passant ∧
    get_hash (undo_move (perform_move bareKings ⟨35, 36, 'K', '.', specNone, -1⟩)) =
      get_hash bareKings :=
  @c2_undo_symmetry bareKings ⟨35, 36, 'K', '.', specNone, -1⟩ (by decide) (by decide)

/-! ## Claim C3: the legal-move filter checks the mover's king -/

/-- C3: a pseudo-legal move is kept by `get_possible_moves` exactly when,
in the position after `perform_move`, `square_hit` on the mover's king
square (as recorded in the performed position's piece list) for the
opponent's color returns false.  The hypothesis `hk` states the position
has exactly one king of the moving side. -/
theorem c3_legal_iff_king_safe {p : Position} {ksq : Nat} (hI : Inv p)
    (hk : p.m_pieces.filter (fun e => e.1 = moverKing p) = [(moverKing p, ksq)])
    (m : Move) (hm : m ∈ pseudoMoves p) :
    m ∈ get_possible_moves p ↔
      square_hit (perform_move p m)
        (king_square_in (perform_move p m) (moverKing p))
        (! is_upper (moverKing p)) = false := by
  have hks := king_square_perform hI (pseudoMoves_ok hI m hm) hk
  have hbase := king_square_base hk
  rw [get_possible_moves]
  simp only [List.mem_filter, hm, true_and, Bool.not_eq_true', hks, hbase]

/-- Closed instance of C3: the king move d4-e4 on the bare-kings position
is legal, via the claim's criterion. -/
theorem c3_legal_iff_king_safe_witness :
    (⟨35, 36, 'K', '.', specNone, -1⟩ : Move) ∈ get_possible_moves bareKings :=
  (@c3_legal_iff_king_safe bareKings 35 (by decide) (by decide)
    ⟨35, 36, 'K', '.', specNone, -1⟩ (by decide)).mpr (by decide)

/-! ## Claim C5: the mate-distance function -/

/-- C5 as stated fails on the boundary `x = MATE_THRESHOLD`: the code
compares strictly (`abs(num) < MATE_THRESHOLD`), so `process_eval 2000`
is `1999`, while the claim's `|x| ≤ MATE_THRESHOLD` clause demands
`2000`. -/
theorem c5_counterexample :
    |(2000 : Int)| ≤ MATE_THRESHOLD ∧ process_eval 2000 = 1999 ∧
      (1999 : Int) ≠ 2000 := by decide

/-- C5 (amended): `process_eval` returns `x` unchanged when
`|x| < MATE_THRESHOLD` (strictly), `x - 1` when `x ≥ MATE_THRESHOLD`, and
`x + 1` when `x ≤ -MATE_THRESHOLD`. -/
theorem c5_process_eval_amended (x : Int) :
    (|x| < MATE_THRESHOLD → process_eval x = x) ∧
    (x ≥ MATE_THRESHOLD → process_eval x = x - 1) ∧
    (x ≤ -MATE_THRESHOLD → process_eval x = x + 1) := by
  simp only [process_eval, MATE_THRESHOLD, abs_lt]
  refine ⟨fun h => ?_, fun h => ?_, fun h => ?_⟩ <;> split_ifs <;> omega

/-- Closed instances of the three clauses of (amended) C5. -/
theorem c5_process_eval_amended_witness :
    process_eval 500 = 500 ∧ process_eval 3000 = 2999 ∧
      process_eval (-3000) = -2999 :=
  ⟨(c5_process_eval_amended 500).1 (by decide),
   (c5_process_eval_amended 3000).2.1 (by decide),
   (c5_process_eval_amended (-3000)).2.2 (by decide)⟩

/-! ## Claim C10: rendering of en-passant moves -/

/-- C10: an en-passant move (special `'E'` or `'e'`, recorded capture
`'.'`) is rendered by `to_full_string` — the notation `main.cpp` matches
user input against — with the `'-'` separator, because the separator is
chosen from `m_captured` alone; `to_string` renders the same move as a
capture, source file plus `'x'`. -/
theorem c10_enpassant_strings {m : Move}
    (hs : m.m_special = 'E' ∨ m.m_special = 'e')
    (hc : m.m_captured = '.') (hp : m.m_piece.toLower = 'p') :
    Move.to_full_string m =
      square_string m.m_from ++ "-" ++ square_string m.m_to ∧
    Move.to_string m =
      (⟨[(square_chars m.m_from).headD 'a', 'x']⟩ : String) ++
        square_string m.m_to := by
  have hns : ¬ (m.m_special ≠ specNone ∧ m.m_special.toLower ≠ 'e') := by
    rcases hs with h | h <;> rw [h] <;> decide
  have hpre : m.m_captured ≠ '.' ∨ m.m_special.toLower = 'e' := by
    rcases hs with h | h <;> rw [h] <;> exact Or.inr (by decide)
  have hcc : ¬ m.m_captured ≠ '.' := fun hh => hh hc
  constructor
  · rw [Move.to_full_string, if_pos hp]
    simp only []
    rw [if_neg hns, if_neg hcc]
  · rw [Move.to_string, if_pos hp]
    simp only []
    rw [if_neg hns, if_pos hpre]

/-- Closed instance of C10 on the en-passant capture e5xd6. -/
theorem c10_enpassant_strings_witness :
    Move.to_full_string ⟨28, 19, 'P', '.', 'E', 19⟩ = "e5-d6" ∧
    Move.to_string ⟨28, 19, 'P', '.', 'E', 19⟩ = "exd6" :=
  ⟨((@c10_enpassant_strings ⟨28, 19, 'P', '.', 'E', 19⟩ (Or.inl rfl) rfl
      (by decide)).1).trans (by decide),
   ((@c10_enpassant_strings ⟨28, 19, 'P', '.', 'E', 19⟩ (Or.inl rfl) rfl
      (by decide)).2).trans (by decide)⟩

/-! ## Claim C4: mate / stalemate evaluation and the sentinel cache depth -/

theorem evalBody_no_moves (ech : Position → Cache → Int → Int → Int × Cache × Position)
    {p : Position} (d : Nat) (cache : Cache) (alfa beta : Int) (hash : Nat)
    (hemp : get_possible_moves p = []) :
    evalBody ech p d cache alfa beta hash =
      if square_hit p (king_square_in p (moverKing p)) (¬ p.m_to_move = 'w') then
        (-(if p.m_to_move = 'w' then (1 : Int) else -1) * MATE,
         cacheInsert cache hash
           (INT_MAX, -(if p.m_to_move = 'w' then (1 : Int) else -1) * MATE), p)
      else (0, cacheInsert cache hash (INT_MAX, 0), p) := by
  rw [evalBody.eq_def]
  simp only [hemp, List.length_nil]
  rw [if_pos trivial]

theorem evaluate_cache_hit (d : Nat) {p : Position} {cache : Cache} (alfa beta : Int)
    {v : Nat × Int} (hv : cacheFind cache (get_hash p) = some v) (hd : v.1 ≥ d) :
    evaluate d p cache alfa beta = (v.2, cache, p) := by
  cases d with
  | zero =>
    simp only [evaluate, evalTop, hv]
    rw [if_pos hd]
  | succ n =>
    simp only [evaluate, evalTop, hv]
    rw [if_pos hd]

/-- C4: on a position with no legal moves (and not answered from the
cache), `evaluate` returns `-side * MATE` when the mover's king is
attacked and `0` otherwise, inserting a cache entry with the sentinel
depth `INT_MAX`; any subsequent `evaluate` of the position at any
representable depth is answered by that entry unchanged. -/
theorem c4_no_moves_eval {p : Position} {cache : Cache} {d : Nat} {alfa beta : Int}
    (hmiss : cacheFind cache (get_hash p) = none)
    (hemp : get_possible_moves p = []) :
    (square_hit p (king_square_in p (moverKing p)) (¬ p.m_to_move = 'w') = true →
      evaluate d p cache alfa beta =
        (-(if p.m_to_move = 'w' then (1 : Int) else -1) * MATE,
         cacheInsert cache (get_hash p)
           (INT_MAX, -(if p.m_to_move = 'w' then (1 : Int) else -1) * MATE), p)) ∧
    (square_hit p (king_square_in p (moverKing p)) (¬ p.m_to_move = 'w') = false →
      evaluate d p cache alfa beta =
        (0, cacheInsert cache (get_hash p) (INT_MAX, 0), p)) ∧
    (∀ d2 : Nat, d2 ≤ INT_MAX → ∀ alfa2 beta2 : Int,
      evaluate d2 p (evaluate d p cache alfa beta).2.1 alfa2 beta2 =
        ((evaluate d p cache alfa beta).1,
         (evaluate d p cache alfa beta).2.1, p)) := by
  have hbody : evaluate d p cache alfa beta =
      if square_hit p (king_square_in p (moverKing p)) (¬ p.m_to_move = 'w') then
        (-(if p.m_to_move = 'w' then (1 : Int) else -1) * MATE,
         cacheInsert cache (get_hash p)
           (INT_MAX, -(if p.m_to_move = 'w' then (1 : Int) else -1) * MATE), p)
      else (0, cacheInsert cache (get_hash p) (INT_MAX, 0), p) := by
    cases d with
    | zero =>
      simp only [evaluate, evalTop, hmiss]
      exact evalBody_no_moves _ _ _ _ _ _ hemp
    | succ n =>
      simp only [evaluate, evalTop, hmiss]
      exact evalBody_no_moves _ _ _ _ _ _ hemp
  have hfind : ∀ w : Nat × Int,
      cacheFind (cacheInsert cache (get_hash p) w) (get_hash p) = some w := by
    intro w
    have hf0 : (cache : List (Nat × (Nat × Int))).find?
        (fun e => e.1 = get_hash p) = none := Option.map_eq_none'.mp hmiss
    simp only [cacheInsert, hf0]
    simp [cacheFind, List.find?_cons]
  refine ⟨fun hh => by rw [hbody, if_pos hh],
    fun hh => by
      rw [hbody, if_neg (fun hc => absurd (hc ▸ hh) (by decide))], ?_⟩
  intro d2 hd2 alfa2 beta2
  by_cases hh : square_hit p (king_square_in p (moverKing p)) (¬ p.m_to_move = 'w') = true
  · rw [hbody, if_pos hh]
    dsimp only
    exact evaluate_cache_hit d2 alfa2 beta2 (hfind _) hd2
  · rw [hbody, if_neg hh]
    dsimp only
    exact evaluate_cache_hit d2 alfa2 beta2 (hfind _) hd2

/-- Closed instance of C4 on the checkmated position (black to move):
Black is mated, so the result is `MATE` in White's favor with the
sentinel cache entry. -/
theorem c4_no_moves_eval_witness :
    evaluate 2 matePos emptyCache (-MATE) MATE =
      (-(if matePos.m_to_move = 'w' then (1 : Int) else -1) * MATE,
       cacheInsert emptyCache (get_hash matePos)
         (INT_MAX, -(if matePos.m_to_move = 'w' then (1 : Int) else -1) * MATE),
       matePos) :=
  (c4_no_moves_eval (by decide) (by decide)).1 (by decide)

/-! ## Claim C6: the alpha-beta cutoff path writes no cache entry -/

/-- C6: when the move loop of `evaluate` ends in the alpha-beta cutoff,
the function returns `process_eval eval * side` immediately with exactly
the cache the loop held when the cutoff fired — in particular no entry
for the current position's hash is written on this path (the completed
loop, by contrast, ends in `cacheUpd`). -/
theorem c6_cutoff_no_write {p : Position} {cache : Cache} {alfa beta : Int} {d : Nat}
    {ev : Int} {c2 : Cache} {p2 : Position}
    (hmiss : cacheFind cache (get_hash p) = none)
    (hmoves : ¬ (get_possible_moves p).length = 0)
    (hpieces : ¬ p.m_pieces.length ≤ 2)
    (hcut : searchLoop (fun q c a b => evaluate d q c a b)
        (if p.m_to_move = 'w' then (1 : Int) else -1) beta p cache alfa
        (sortMoves (orderKeys p cache (get_possible_moves p))) (-MATE) =
      LoopRes.cutoff ev c2 p2) :
    evaluate (d + 1) p cache alfa beta =
      (process_eval ev * (if p.m_to_move = 'w' then (1 : Int) else -1), c2, p2) := by
  simp only [evaluate, evalTop, hmiss]
  rw [evalBody.eq_def]
  simp only [hcut]
  rw [if_neg hmoves, if_neg hpieces]

set_option maxRecDepth 100000 in
/-- Closed instance of C6: on the king-and-rook position at depth 1 with
`beta = -MATE` the first move already triggers the cutoff; the returned
cache holds only the child entry written by the recursive call, nothing
for the position itself. -/
theorem c6_cutoff_no_write_witness :
    evaluate 1 krkPos emptyCache (-MATE) (-MATE) =
      (process_eval 5 * (if krkPos.m_to_move = 'w' then (1 : Int) else -1),
       [(get_hash (perform_move krkPos ⟨56, 49, 'K', '.', specNone, -1⟩), (0, 5))],
       krkPos) :=
  c6_cutoff_no_write (by decide) (by decide) (by decide) (by decide)

/-! ## Claim C7: `find_fastest_mate` -/

theorem ffmScore_zero (p : Position) (cache : Cache) (d0 : Nat) :
    ffmScore p cache d0 0 = (evaluate (2 * d0) p cache (-MATE) MATE).1 := by
  simp [ffmScore, ffmStates]

theorem ffmScore_shift (p : Position) (cache : Cache) (d0 i : Nat) :
    ffmScore p cache d0 (i + 1) =
      ffmScore (evaluate (2 * d0) p cache (-MATE) MATE).2.2
        (evaluate (2 * d0) p cache (-MATE) MATE).2.1 (d0 + 1) i := by
  rw [ffmScore, ffmScore, ffmStates]
  have h : d0 + (i + 1) = d0 + 1 + i := by omega
  rw [h]

theorem ffmLoop_unknown : ∀ (r : Nat) (p : Position) (cache : Cache) (d0 : Nat),
    (∀ i, i < r → ¬ MATE_THRESHOLD < |ffmScore p cache d0 i|) →
    (ffmLoop p cache d0 r).1 = "Unknown result" := by
  intro r
  induction r with
  | zero => intro p cache d0 _; rfl
  | succ n ih =>
    intro p cache d0 h
    have h0 := h 0 (Nat.succ_pos n)
    rw [ffmScore_zero] at h0
    rw [ffmLoop]
    rw [if_neg h0]
    exact ih _ _ _ (fun i hi => by
      rw [← ffmScore_shift p cache d0 i]
      exact h (i + 1) (by omega))

theorem ffmLoop_hit : ∀ (r : Nat) (p : Position) (cache : Cache) (d0 : Nat) (i : Nat),
    i < r → MATE_THRESHOLD < |ffmScore p cache d0 i| →
    (∀ j, j < i → ¬ MATE_THRESHOLD < |ffmScore p cache d0 j|) →
    (ffmLoop p cache d0 r).1 = mateLabel (ffmScore p cache d0 i) := by
  intro r
  induction r with
  | zero => intro p cache d0 i hi; exact absurd hi (Nat.not_lt_zero i)
  | succ n ih =>
    intro p cache d0 i hi hsc hmin
    cases i with
    | zero =>
      rw [ffmScore_zero] at hsc ⊢
      rw [ffmLoop]
      rw [if_pos hsc, mateLabel]
    | succ m =>
      have h0 := hmin 0 (Nat.succ_pos m)
      rw [ffmScore_zero] at h0
      rw [ffmLoop]
      rw [if_neg h0, ffmScore_shift]
      refine ih _ _ _ m (by omega) ?_ ?_
      · rw [← ffmScore_shift]
        exact hsc
      · intro j hj
        rw [← ffmScore_shift]
        exact hmin (j + 1) (by omega)

/-- C7: `find_fastest_mate` evaluates the threaded position at depths
`2 * d` for `d = 0, 1, 2, ...` in increasing order; at the first depth
whose score exceeds `MATE_THRESHOLD` in magnitude it returns
"White mates in k" for a positive score or "Black mates in k" for a
negative one, with `k = (MATE - |score| + 1) / 2` in integer arithmetic,
and it returns "Unknown result" when no depth below `max_moves`
produces such a score. -/
theorem c7_find_fastest_mate (p : Position) (cache : Cache) (max_moves : Nat) :
    ((∀ i, i < max_moves → ¬ MATE_THRESHOLD < |ffmScore p cache 0 i|) →
      (find_fastest_mate p max_moves cache).1 = "Unknown result") ∧
    (∀ i, i < max_moves → MATE_THRESHOLD < |ffmScore p cache 0 i| →
      (∀ j, j < i → ¬ MATE_THRESHOLD < |ffmScore p cache 0 j|) →
      (find_fastest_mate p max_moves cache).1 = mateLabel (ffmScore p cache 0 i)) :=
  ⟨fun h => ffmLoop_unknown max_moves p cache 0 h,
   fun i hi hs hm => ffmLoop_hit max_moves p cache 0 i hi hs hm⟩

set_option maxRecDepth 100000 in
/-- Closed instance of C7: the already-checkmated position is announced
as "White mates in 0" at the first depth. -/
theorem c7_find_fastest_mate_witness :
    (find_fastest_mate matePos 1 emptyCache).1 = "White mates in 0" :=
  ((c7_find_fastest_mate matePos emptyCache 1).2 0 (by decide) (by decide)
    (fun j hj => absurd hj (Nat.not_lt_zero j))).trans (by decide)

/-! ## `posEq` congruences: the engine's make / evaluate / undo steps
preserve equality of positions up to piece-list order -/

theorem posEq_refl (p : Position) : posEq p p := ⟨rfl, rfl, rfl, rfl, rfl⟩

theorem posEq_symm {p q : Position} (h : posEq p q) : posEq q p :=
  ⟨h.1.symm, h.2.1.symm, h.2.2.1.symm, h.2.2.2.1.symm, h.2.2.2.2.symm⟩

theorem posEq_trans {p q r : Position} (h1 : posEq p q) (h2 : posEq q r) : posEq p r :=
  ⟨h1.1.trans h2.1, h1.2.1.trans h2.2.1, h1.2.2.1.trans h2.2.2.1,
   h1.2.2.2.1.trans h2.2.2.2.1, h1.2.2.2.2.trans h2.2.2.2.2⟩

theorem mem_pieces_of_posEq {p q : Position} (h : posEq q p) {a : Char × Nat} :
    a ∈ q.m_pieces ↔ a ∈ p.m_pieces := by
  constructor <;> intro hm
  · exact Multiset.mem_coe.mp (h.2.2.2.1 ▸ Multiset.mem_coe.mpr hm)
  · exact Multiset.mem_coe.mp (h.2.2.2.1.symm ▸ Multiset.mem_coe.mpr hm)

theorem inv_of_posEq {p q : Position} (hI : Inv p) (hq : posEq q p) : Inv q := by
  obtain ⟨hb, ht, he, hp, -⟩ := hq
  obtain ⟨h1, h2, h3, h4, h5, h6⟩ := hI
  refine ⟨hb ▸ h1, ht ▸ h2, ?_, ?_, ?_, ?_⟩
  · intro i hi
    rw [hb]
    exact h3 i hi
  · rw [hp, hb]
    exact h4
  · intro e hm hpw
    refine h5 e ?_ hpw
    exact Multiset.mem_coe.mp (hp ▸ Multiset.mem_coe.mpr hm)
  · rw [he, hb, ht]
    exact h6

theorem moveok_of_posEq {p q : Position} {m : Move} (hm : MoveOK p m)
    (hq : posEq q p) : MoveOK q m := by
  obtain ⟨hb, ht, he, -, -⟩ := hq
  simp only [MoveOK, hb, ht, he]
  exact hm

theorem coe_eraseFirst_all (l : List (Char × Nat)) (a : Char × Nat) :
    (↑(eraseFirst l a) : Multiset (Char × Nat)) =
      (↑l : Multiset (Char × Nat)).erase a := by
  by_cases h : a ∈ l
  · exact coe_eraseFirst h
  · rw [eraseFirst_of_not_mem h, Multiset.erase_of_not_mem (by simpa using h)]

theorem perform_move_posEq {p q : Position} {m : Move} (hI : Inv p) (hm : MoveOK p m)
    (hq : posEq q p) : posEq (perform_move q m) (perform_move p m) := by
  have hIq : Inv q := inv_of_posEq hI hq
  have hmq : MoveOK q m := moveok_of_posEq hm hq
  obtain ⟨hb, ht, he, hp, hpm⟩ := id hq
  obtain ⟨hto, hne, hat, hletter, -, -, -⟩ := id hm
  have hmemp : (m.m_piece, m.m_from) ∈ p.m_pieces :=
    mem_pieces_of_board hI hat (pieceLetters_ne_dot _ hletter)
  have hl1 : (↑(if m.m_captured ≠ '.' then eraseFirst q.m_pieces (m.m_captured, m.m_to)
        else q.m_pieces) : Multiset (Char × Nat)) =
      ↑(if m.m_captured ≠ '.' then eraseFirst p.m_pieces (m.m_captured, m.m_to)
        else p.m_pieces) := by
    by_cases hcp : m.m_captured ≠ '.'
    · rw [if_pos hcp, if_pos hcp, coe_eraseFirst_all, coe_eraseFirst_all, hp]
    · rw [if_neg hcp, if_neg hcp]
      exact hp
  have hmemL1 : ∀ l : List (Char × Nat), (m.m_piece, m.m_from) ∈ l →
      (m.m_piece, m.m_from) ∈
        (if m.m_captured ≠ '.' then eraseFirst l (m.m_captured, m.m_to) else l) := by
    intro l hmem
    by_cases hcp : m.m_captured ≠ '.'
    · rw [if_pos hcp, ← Multiset.mem_coe, coe_eraseFirst_all]
      refine (Multiset.mem_erase_of_ne ?_).mpr (Multiset.mem_coe.mpr hmem)
      intro hcon
      exact hne (congrArg Prod.snd hcon)
    · rw [if_neg hcp]
      exact hmem
  have hmemq : (m.m_piece, m.m_from) ∈ q.m_pieces := (mem_pieces_of_posEq hq).mpr hmemp
  have hl2 : (↑(replaceFirst
        (if m.m_captured ≠ '.' then eraseFirst q.m_pieces (m.m_captured, m.m_to)
         else q.m_pieces) (m.m_piece, m.m_from) (m.m_piece, m.m_to)) :
          Multiset (Char × Nat)) =
      ↑(replaceFirst
        (if m.m_captured ≠ '.' then eraseFirst p.m_pieces (m.m_captured, m.m_to)
         else p.m_pieces) (m.m_piece, m.m_from) (m.m_piece, m.m_to)) := by
    rw [coe_replaceFirst _ (hmemL1 _ hmemq), coe_replaceFirst _ (hmemL1 _ hmemp), hl1]
  rcases moveok_special_cases hm with hs | hs | hs | hs
  · rw [perform_move_eq_none hI hm hs, perform_move_eq_none hIq hmq hs]
    exact ⟨by rw [hb], by rw [ht], rfl, hl2, by rw [hpm]⟩
  · rw [perform_move_eq_E hI hm hs, perform_move_eq_E hIq hmq hs]
    refine ⟨by rw [hb], by rw [ht], rfl, ?_, by rw [hpm]⟩
    rw [coe_eraseFirst_all, coe_eraseFirst_all,
      coe_replaceFirst _ hmemq, coe_replaceFirst _ hmemp, hp]
  · rw [perform_move_eq_e hI hm hs, perform_move_eq_e hIq hmq hs]
    refine ⟨by rw [hb], by rw [ht], rfl, ?_, by rw [hpm]⟩
    rw [coe_eraseFirst_all, coe_eraseFirst_all,
      coe_replaceFirst _ hmemq, coe_replaceFirst _ hmemp, hp]
  · rw [perform_move_eq_promo hI hm hs, perform_move_eq_promo hIq hmq hs]
    refine ⟨by rw [hb], by rw [ht], rfl, ?_, by rw [hpm]⟩
    rw [← Multiset.cons_coe, ← Multiset.cons_coe,
      coe_eraseFirst_all, coe_eraseFirst_all, hl2]

theorem undo_move_posEq {p q : Position} (hq : posEq q p) :
    posEq (undo_move q) (undo_move p) := by
  obtain ⟨hb, ht, he, hp, hpm⟩ := id hq
  rw [undo_move, undo_move, hb, ht, he, hpm]
  rcases hlast : p.m_prev_moves.getLast? with _ | m
  · simp only [hlast]
    exact hq
  · simp only [hlast]
    rcases hpi : pieceIdx p.m_pieces (boardGet p.m_board m.m_to) m.m_to with _ | k
    · have hpiq : pieceIdx q.m_pieces (boardGet p.m_board m.m_to) m.m_to = none := by
        rw [pieceIdx_eq_none_iff] at hpi ⊢
        intro hmem
        exact hpi ((mem_pieces_of_posEq hq).mp hmem)
      simp only [hpi, hpiq]
      exact hq
    · have hmemp : (boardGet p.m_board m.m_to, m.m_to) ∈ p.m_pieces := by
        by_contra hmem
        exact absurd (hpi.symm.trans (pieceIdx_eq_none_iff.mpr hmem)) (by simp)
      have hmemq : (boardGet p.m_board m.m_to, m.m_to) ∈ q.m_pieces :=
        (mem_pieces_of_posEq hq).mpr hmemp
      rcases hpiq : pieceIdx q.m_pieces (boardGet p.m_board m.m_to) m.m_to with _ | k2
      · exact absurd hpiq (pieceIdx_ne_none hmemq)
      · simp only [hpi, hpiq]
        have hl1c : (↑(if m.m_captured ≠ '.' then (m.m_captured, m.m_to) :: q.m_pieces
              else q.m_pieces) : Multiset (Char × Nat)) =
            ↑(if m.m_captured ≠ '.' then (m.m_captured, m.m_to) :: p.m_pieces
              else p.m_pieces) := by
          by_cases hcp : m.m_captured ≠ '.'
          · rw [if_pos hcp, if_pos hcp, ← Multiset.cons_coe, ← Multiset.cons_coe, hp]
          · rw [if_neg hcp, if_neg hcp]
            exact hp
        have hmem1 : ∀ l : List (Char × Nat),
            (boardGet p.m_board m.m_to, m.m_to) ∈ l →
            (boardGet p.m_board m.m_to, m.m_to) ∈
              (if m.m_captured ≠ '.' then (m.m_captured, m.m_to) :: l else l) := by
          intro l hmem
          by_cases hcp : m.m_captured ≠ '.'
          · rw [if_pos hcp]
            exact List.mem_cons_of_mem _ hmem
          · rw [if_neg hcp]
            exact hmem
        have hl2 : (↑(replaceFirst
              (if m.m_captured ≠ '.' then (m.m_captured, m.m_to) :: q.m_pieces
               else q.m_pieces)
              (boardGet p.m_board m.m_to, m.m_to)
              (boardGet p.m_board m.m_to, m.m_from)) : Multiset (Char × Nat)) =
            ↑(replaceFirst
              (if m.m_captured ≠ '.' then (m.m_captured, m.m_to) :: p.m_pieces
               else p.m_pieces)
              (boardGet p.m_board m.m_to, m.m_to)
              (boardGet p.m_board m.m_to, m.m_from)) := by
          rw [coe_replaceFirst _ (hmem1 _ hmemq), coe_replaceFirst _ (hmem1 _ hmemp),
            hl1c]
        by_cases h1 : m.m_special = specNone
        · rw [if_pos h1, if_pos h1]
          exact ⟨rfl, rfl, rfl, hl2, rfl⟩
        · rw [if_neg h1, if_neg h1]
          by_cases h2 : is_upper m.m_piece ≠ is_upper m.m_special
          · rw [if_pos h2, if_pos h2]
            exact hq
          · rw [if_neg h2, if_neg h2]
            by_cases h3 : m.m_special = 'e'
            · rw [if_pos h3, if_pos h3]
              refine ⟨rfl, rfl, rfl, ?_, rfl⟩
              rw [← Multiset.cons_coe, ← Multiset.cons_coe, hl2]
            · rw [if_neg h3, if_neg h3]
              by_cases h4 : m.m_special = 'E'
              · rw [if_pos h4, if_pos h4]
                refine ⟨rfl, rfl, rfl, ?_, rfl⟩
                rw [← Multiset.cons_coe, ← Multiset.cons_coe, hl2]
              · rw [if_neg h4, if_neg h4]
                refine ⟨rfl, rfl, rfl, ?_, rfl⟩
                rw [← Multiset.cons_coe, ← Multiset.cons_coe,
                  coe_eraseFirst_all, coe_eraseFirst_all, hl2]

/-- One make / child-work / undo round: if the child left a position
equal (as positions compare) to the performed one, undoing it restores
the original. -/
theorem restore_step {p0 q r : Position} {m : Move} (hI : Inv p0)
    (hm : MoveOK p0 m) (hq : posEq q p0)
    (hr : posEq r (perform_move q m)) : posEq (undo_move r) p0 := by
  have h1 : posEq r (perform_move p0 m) :=
    posEq_trans hr (perform_move_posEq hI hm hq)
  have h2 : posEq (undo_move r) (undo_move (perform_move p0 m)) :=
    undo_move_posEq h1
  exact posEq_trans h2 (perform_undo_posEq hI hm)

theorem mem_insertDesc {x y : Int × Move} {l : List (Int × Move)} :
    x ∈ insertDesc y l ↔ x = y ∨ x ∈ l := by
  induction l with
  | nil => simp [insertDesc]
  | cons z zs ih =>
    rw [insertDesc]
    by_cases hc : y.1 ≥ z.1
    · rw [if_pos hc]
      simp
    · rw [if_neg hc]
      simp only [List.mem_cons, ih]
      tauto

theorem mem_sortMoves {x : Int × Move} {l : List (Int × Move)} :
    x ∈ sortMoves l ↔ x ∈ l := by
  induction l with
  | nil => simp [sortMoves]
  | cons z zs ih =>
    rw [sortMoves]
    simp only [mem_insertDesc, List.mem_cons, ih]

theorem ordered_moves_ok {p : Position} (hI : Inv p) (cache : Cache) :
    ∀ km ∈ sortMoves (orderKeys p cache (get_possible_moves p)),
      MoveOK p km.2 := by
  intro km hkm
  rw [mem_sortMoves, orderKeys] at hkm
  obtain ⟨m, hm, rfl⟩ := List.mem_map.mp hkm
  exact gpm_ok hI m hm

theorem searchLoop_restores
    (evalChild : Position → Cache → Int → Int → Int × Cache × Position)
    (hchild : ∀ q c a b, Inv q → posEq (evalChild q c a b).2.2 q)
    (side beta : Int) {p0 : Position} (hI : Inv p0) :
    ∀ (ms : List (Int × Move)) (q : Position) (cache : Cache) (alfa ev : Int),
      posEq q p0 → (∀ km ∈ ms, MoveOK p0 km.2) →
      posEq (searchLoop evalChild side beta q cache alfa ms ev).pos p0 := by
  intro ms
  induction ms with
  | nil =>
    intro q cache alfa ev hq _
    rw [searchLoop]
    exact hq
  | cons km rest ih =>
    intro q cache alfa ev hq hms
    have hmok := hms km (List.mem_cons_self km rest)
    have hIq : Inv q := inv_of_posEq hI hq
    have hp1 : posEq (perform_move q km.2) (perform_move p0 km.2) :=
      perform_move_posEq hI hmok hq
    have hInv1 : Inv (perform_move q km.2) :=
      inv_of_posEq (inv_after_perform hI hmok) hp1
    have hr : posEq (evalChild (perform_move q km.2) cache (-beta) (-alfa)).2.2
        (perform_move q km.2) := hchild _ _ _ _ hInv1
    have hp3 : posEq (undo_move
        (evalChild (perform_move q km.2) cache (-beta) (-alfa)).2.2) p0 :=
      restore_step hI hmok hq hr
    rw [searchLoop]
    split <;> split <;>
      first
        | exact hp3
        | exact ih _ _ _ _ hp3 (fun km2 hk => hms km2 (List.mem_cons_of_mem _ hk))

theorem evalBody_restores
    (evalChild : Position → Cache → Int → Int → Int × Cache × Position)
    (hchild : ∀ q c a b, Inv q → posEq (evalChild q c a b).2.2 q)
    {p : Position} (d : Nat) (cache : Cache) (alfa beta : Int) (hash : Nat)
    (hI : Inv p) :
    posEq (evalBody evalChild p d cache alfa beta hash).2.2 p := by
  rw [evalBody.eq_def]
  by_cases h0 : (get_possible_moves p).length = 0
  · rw [if_pos h0]
    by_cases hh : square_hit p (king_square_in p (moverKing p)) (¬ p.m_to_move = 'w') = true
    · rw [if_pos hh]
      exact posEq_refl p
    · rw [if_neg hh]
      exact posEq_refl p
  · rw [if_neg h0]
    by_cases h2 : p.m_pieces.length ≤ 2
    · rw [if_pos h2]
      exact posEq_refl p
    · rw [if_neg h2]
      cases d with
      | zero => exact posEq_refl p
      | succ n =>
        have hloop := searchLoop_restores evalChild hchild
          (if p.m_to_move = 'w' then (1 : Int) else -1) beta hI
          (sortMoves (orderKeys p cache (get_possible_moves p))) p cache alfa
          (-MATE) (posEq_refl p) (ordered_moves_ok hI cache)
        rcases hsl : searchLoop evalChild (if p.m_to_move = 'w' then (1 : Int) else -1)
            beta p cache alfa
            (sortMoves (orderKeys p cache (get_possible_moves p))) (-MATE)
          with ⟨ev, c2, p2⟩ | ⟨ev, c2, p2⟩
        · rw [hsl] at hloop
          dsimp only
          simp only [hsl]
          exact hloop
        · rw [hsl] at hloop
          dsimp only
          simp only [hsl]
          exact hloop

theorem evalTop_restores
    (evalChild : Position → Cache → Int → Int → Int × Cache × Position)
    (hchild : ∀ q c a b, Inv q → posEq (evalChild q c a b).2.2 q)
    (d : Nat) {p : Position} (cache : Cache) (alfa beta : Int) (hI : Inv p) :
    posEq (evalTop evalChild d p cache alfa beta).2.2 p := by
  rw [evalTop]
  rcases hf : cacheFind cache (get_hash p) with _ | v
  · simp only [hf]
    exact evalBody_restores evalChild hchild d cache alfa beta _ hI
  · simp only [hf]
    by_cases hd : v.1 ≥ d
    · rw [if_pos hd]
      exact posEq_refl p
    · rw [if_neg hd]
      exact evalBody_restores evalChild hchild d cache alfa beta _ hI

theorem evaluate_restores :
    ∀ (d : Nat) (p : Position) (cache : Cache) (alfa beta : Int), Inv p →
      posEq (evaluate d p cache alfa beta).2.2 p := by
  intro d
  induction d with
  | zero =>
    intro p cache alfa beta hI
    exact evalTop_restores _ (fun q c a b _ => posEq_refl q) 0 cache alfa beta hI
  | succ n ih =>
    intro p cache alfa beta hI
    exact evalTop_restores _ (fun q c a b hq => ih q c a b hq) (n + 1) cache alfa beta hI

theorem iterWarm_restores {p : Position} (cache : Cache) (hI : Inv p) :
    ∀ n : Nat, posEq (iterWarm p cache n).1 p := by
  intro n
  induction n with
  | zero => exact posEq_refl p
  | succ k ih =>
    rw [iterWarm]
    exact posEq_trans
      (evaluate_restores (k + 1) (iterWarm p cache k).1 (iterWarm p cache k).2
        (-MATE) MATE (inv_of_posEq hI ih)) ih

theorem iter_evaluate_restores {p : Position} (max_depth : Nat) (cache : Cache)
    (hI : Inv p) : posEq (iter_evaluate p max_depth cache).2.2 p := by
  rw [iter_evaluate]
  exact posEq_trans
    (evaluate_restores max_depth (iterWarm p cache max_depth).1
      (iterWarm p cache max_depth).2 (-MATE) MATE
      (inv_of_posEq hI (iterWarm_restores cache hI max_depth)))
    (iterWarm_restores cache hI max_depth)

theorem prbLoop_result {p0 : Position} (hI : Inv p0) (max_depth : Nat) (target : Int) :
    ∀ (ms : List Move) (q : Position) (cache : Cache),
      posEq q p0 → (∀ m ∈ ms, m ∈ get_possible_moves p0) →
      (posEq (prbLoop max_depth target q cache ms).1 p0 ∨
        ∃ m ∈ get_possible_moves p0,
          posEq (prbLoop max_depth target q cache ms).1 (perform_move p0 m)) := by
  intro ms
  induction ms with
  | nil =>
    intro q cache hq _
    rw [prbLoop]
    exact Or.inl hq
  | cons m rest ih =>
    intro q cache hq hms
    have hmem := hms m (List.mem_cons_self m rest)
    have hmok := gpm_ok hI m (by exact hmem)
    have hp1 : posEq (perform_move q m) (perform_move p0 m) :=
      perform_move_posEq hI hmok hq
    have hInv1 : Inv (perform_move q m) :=
      inv_of_posEq (inv_after_perform hI hmok) hp1
    have hr : posEq (iter_evaluate (perform_move q m) (max_depth - 1) cache).2.2
        (perform_move q m) := iter_evaluate_restores (max_depth - 1) cache hInv1
    rw [prbLoop]
    split
    · exact Or.inr ⟨m, hmem, posEq_trans hr hp1⟩
    · exact ih _ _ (restore_step hI hmok hq hr)
        (fun m2 hk => hms m2 (List.mem_cons_of_mem _ hk))

/-! ## Claim C1: which engine entry points restore the position -/

set_option maxRecDepth 400000 in
/-- C1 as stated fails for `play_random_best`: its purpose is to leave
the chosen best move played, so the position it returns differs from the
entry position (here the bare-kings position at depth 2, where a king
move gets played). -/
theorem c1_counterexample :
    ¬ posEq (play_random_best bareKings 2 emptyCache).1 bareKings := by decide

/-- C1 (amended): `evaluate` does restore the position it operated on,
on every exit path including the alpha-beta cutoff — every `perform_move`
is balanced by an `undo_move`, so the returned position equals the entry
position (board, side to move, en passant, history, and pieces as
unordered content).  `play_random_best`, however, returns either the
entry position (mate / stalemate, or the fall-through of its move loop)
or the entry position with one legal move performed — not the entry
position itself whenever a move was played. -/
theorem c1_restore_amended {p : Position} (hI : Inv p) (d : Nat) (cache : Cache)
    (alfa beta : Int) (max_depth : Nat) :
    posEq (evaluate d p cache alfa beta).2.2 p ∧
    (posEq (play_random_best p max_depth cache).1 p ∨
      ∃ m ∈ get_possible_moves p,
        posEq (play_random_best p max_depth cache).1 (perform_move p m)) := by
  refine ⟨evaluate_restores d p cache alfa beta hI, ?_⟩
  rw [play_random_best]
  by_cases h0 : (get_possible_moves p).length = 0
  · rw [if_pos h0]
    exact Or.inl (posEq_refl p)
  · rw [if_neg h0]
    exact prbLoop_result hI max_depth _ (get_possible_moves p) _ _
      (iter_evaluate_restores max_depth (cacheErase cache (get_hash p)) hI)
      (fun m h => h)

/-- Closed instance of (amended) C1 on the bare-kings position. -/
theorem c1_restore_amended_witness :
    posEq (evaluate 0 bareKings emptyCache (-MATE) MATE).2.2 bareKings ∧
    (posEq (play_random_best bareKings 1 emptyCache).1 bareKings ∨
      ∃ m ∈ get_possible_moves bareKings,
        posEq (play_random_best bareKings 1 emptyCache).1
          (perform_move bareKings m)) :=
  c1_restore_amended (by decide) 0 emptyCache (-MATE) MATE 1

/-! ## Claim C8: negamax symmetry under color swap -/

set_option maxRecDepth 1000000 in
/-- C8 as stated fails already at depth 1: swapping the letter case of
every piece without flipping the board vertically is not a symmetry of
pawn play.  White king c1, white pawn a2, black king g8: White's pawn is
six pushes from promotion (depth-1 evaluation 1), but in the
color-swapped position Black's pawn on a2 promotes next move, which the
one-ply search already sees (evaluation -9, queen value): `1 ≠ -(-9)`. -/
theorem c8_counterexample :
    (evaluate 1 pawnAsym emptyCache (-MATE) MATE).1 = 1 ∧
    (evaluate 1 (swapColors pawnAsym) emptyCache (-MATE) MATE).1 = -9 ∧
    (1 : Int) ≠ -(-9) := by decide

theorem piece_values_swap {c : Char} (h : c ∈ pieceLetters) :
    piece_values (swap_case c) = -piece_values c := by
  fin_cases h <;> decide

theorem pieces_letters {p : Position} (hI : Inv p) :
    ∀ e ∈ p.m_pieces, e.1 ∈ pieceLetters := by
  intro e he
  obtain ⟨hlen, -, hbl, hagree, -, -⟩ := id hI
  have heb : (e.1, e.2) ∈ boardPieces p.m_board := by
    rw [← hagree]
    exact Multiset.mem_coe.mpr he
  obtain ⟨hbat, hne, hlt⟩ := mem_boardPieces_iff.mp heb
  rcases hbl e.2 (by omega) with h | h
  · exact absurd (hbat.symm.trans h) hne
  · exact hbat ▸ h

theorem foldl_pv_swap :
    ∀ (l : List (Char × Nat)), (∀ e ∈ l, e.1 ∈ pieceLetters) → ∀ acc : Int,
      List.foldl (fun a e => a + piece_values e.1) acc
        (l.map fun e => (swap_case e.1, e.2)) =
      -(List.foldl (fun a e => a + piece_values e.1) (-acc) l) := by
  intro l
  induction l with
  | nil => intro _ acc; simp
  | cons x xs ih =>
    intro h acc
    rw [List.map_cons, List.foldl_cons, List.foldl_cons]
    rw [ih (fun e he => h e (List.mem_cons_of_mem _ he))]
    have hx := piece_values_swap (h x (List.mem_cons_self x xs))
    rw [hx]
    have hacc : -(acc + -piece_values x.1) = -acc + piece_values x.1 := by omega
    rw [hacc]

theorem material_swap {p : Position} (hI : Inv p) :
    material (swapColors p) = -material p := by
  rw [material, material, swapColors]
  have := foldl_pv_swap p.m_pieces (pieces_letters hI) 0
  simpa using this

/-- C8 (amended): the negamax antisymmetry `evaluate(P) = -evaluate(P')`
under the color swap `P' = swapColors P` holds for the leaf material
evaluation — depth 0, with legal moves and more than two pieces on both
sides, empty cache — because every piece value is exactly negated by the
case swap.  At depth 1 and beyond the claimed symmetry is false in
general (see the counterexample): the swap does not flip the board, so
pawn direction, promotion ranks and double-push ranks break it. -/
theorem c8_leaf_antisymmetry {p : Position} (hI : Inv p)
    (h1 : ¬ (get_possible_moves p).length = 0)
    (h1s : ¬ (get_possible_moves (swapColors p)).length = 0)
    (h2 : ¬ p.m_pieces.length ≤ 2) (alfa beta alfa2 beta2 : Int) :
    (evaluate 0 p emptyCache alfa beta).1 =
      -(evaluate 0 (swapColors p) emptyCache alfa2 beta2).1 := by
  have h2s : ¬ (swapColors p).m_pieces.length ≤ 2 := by
    rw [swapColors]
    simpa using h2
  have hmiss : ∀ q : Position, cacheFind emptyCache (get_hash q) = none := fun _ => rfl
  have hred : ∀ (q : Position) (a b : Int), ¬ (get_possible_moves q).length = 0 →
      ¬ q.m_pieces.length ≤ 2 →
      evaluate 0 q emptyCache a b = (material q, cacheUpd emptyCache (get_hash q) (0, material q), q) := by
    intro q a b hq1 hq2
    simp only [evaluate, evalTop, hmiss q]
    rw [evalBody.eq_def]
    rw [if_neg hq1, if_neg hq2]
  rw [hred p alfa beta h1 h2, hred (swapColors p) alfa2 beta2 h1s h2s]
  exact (material_swap hI) ▸ (neg_neg (material p)).symm

/-- Closed instance of (amended) C8 on the king-and-rook position. -/
theorem c8_leaf_antisymmetry_witness :
    (evaluate 0 krkPos emptyCache (-MATE) MATE).1 =
      -(evaluate 0 (swapColors krkPos) emptyCache (-MATE) MATE).1 :=
  c8_leaf_antisymmetry (by decide) (by decide) (by decide) (by decide)
    (-MATE) MATE (-MATE) MATE

/-! ## Claim C9: FEN round trip -/

theorem parse_done (s : List Char) (i : Nat) (h : 64 ≤ i) :
    parseBoardGo s i = ([], [], s) := by
  rw [parseBoardGo.eq_def, if_pos h]

theorem parse_slash (rest : List Char) (i : Nat) (h : i < 64) :
    parseBoardGo ('/' :: rest) i = parseBoardGo rest i := by
  rw [parseBoardGo.eq_def, if_neg (by omega)]
  dsimp only
  rw [if_pos rfl]

theorem parse_digit (rest : List Char) (i : Nat) (hlt : i < 64) :
    ∀ n : Nat, 1 ≤ n → n ≤ 8 →
      parseBoardGo (Char.ofNat ('0'.toNat + n) :: rest) i =
        (List.replicate n '.' ++ (parseBoardGo rest (i + n)).1,
         (parseBoardGo rest (i + n)).2.1, (parseBoardGo rest (i + n)).2.2) := by
  intro n h1 h2
  interval_cases n <;>
    (rw [parseBoardGo.eq_def, if_neg (by omega)]
     dsimp only
     rw [if_neg (by decide), if_pos (by decide)]
     rfl)

theorem parse_piece {c : Char} (hc : ¬ c = '/') (hd : ¬ ('0' ≤ c ∧ c ≤ '9'))
    (rest : List Char) (i : Nat) (hlt : i < 64) :
    parseBoardGo (c :: rest) i =
      (c :: (parseBoardGo rest (i + 1)).1,
       (c, i) :: (parseBoardGo rest (i + 1)).2.1,
       (parseBoardGo rest (i + 1)).2.2) := by
  rw [parseBoardGo.eq_def, if_neg (by omega)]
  dsimp only
  rw [if_neg hc, if_neg hd]

theorem toString_digit_data : ∀ n : Nat, 1 ≤ n → n ≤ 8 →
    (toString n).data = [Char.ofNat ('0'.toNat + n)] := by
  intro n h1 h2
  interval_cases n <;> decide

theorem replicate_append_cons (n : Nat) (c : Char) (l : List Char) :
    List.replicate n c ++ c :: l = List.replicate (n + 1) c ++ l := by
  rw [List.replicate_succ', List.append_assoc]
  rfl

theorem piece_char_facts {c : Char} (h : c ∈ pieceLetters) :
    ¬ c = '/' ∧ ¬ ('0' ≤ c ∧ c ≤ '9') := by
  fin_cases h <;> exact ⟨by decide, by decide⟩

theorem parse_fen_board :
    ∀ (bs : List Char) (i buf : Nat) (tail : List Char),
      i + bs.length = 64 → buf ≤ i % 8 →
      (∀ c ∈ bs, c = '.' ∨ c ∈ pieceLetters) →
      parseBoardGo ((fenBoardGo bs i buf).data ++ tail) (i - buf) =
        (List.replicate buf '.' ++ bs, listPieces bs i, tail) := by
  intro bs
  induction bs with
  | nil =>
    intro i buf tail hlen hbuf _
    have hi : i = 64 := by simpa using hlen
    subst hi
    have hbuf0 : buf = 0 := by omega
    subst hbuf0
    rw [fenBoardGo, parse_done _ _ (by omega)]
    rfl
  | cons c rest ih =>
    intro i buf tail hlen hbuf hlet
    simp only [List.length_cons] at hlen
    have hi : i < 64 := by omega
    have hrest : (i + 1) + rest.length = 64 := by omega
    have hletr : ∀ x ∈ rest, x = '.' ∨ x ∈ pieceLetters :=
      fun x hx => hlet x (List.mem_cons_of_mem _ hx)
    have hbi : buf ≤ i := Nat.le_trans hbuf (Nat.mod_le i 8)
    rcases hlet c (List.mem_cons_self c rest) with hcdot | hcpl
    · subst hcdot
      by_cases h63 : i = 63
      · subst h63
        obtain rfl : rest = [] := List.length_eq_zero.mp (by omega)
        rw [fenBoardGo, if_pos rfl, if_pos (by omega : (63:Nat) % 8 = 7)]
        dsimp only
        rw [if_pos (by omega : 0 < buf + 1), if_neg (by omega : ¬ (63:Nat) ≠ 63)]
        rw [fenBoardGo]
        simp only [String.data_append, toString_digit_data (buf + 1) (by omega) (by omega),
          show ("" : String).data = [] from rfl, List.nil_append, List.append_nil,
          List.cons_append]
        rw [parse_digit _ _ (by omega) (buf + 1) (by omega) (by omega)]
        rw [show 63 - buf + (buf + 1) = 64 from by omega]
        rw [parse_done _ _ (by omega)]
        dsimp only
        rw [listPieces, if_pos rfl, listPieces, replicate_append_cons]
      · by_cases h7 : i % 8 = 7
        · rw [fenBoardGo, if_pos rfl, if_pos h7]
          dsimp only
          rw [if_pos (by omega : 0 < buf + 1), if_pos h63]
          simp only [String.data_append, toString_digit_data (buf + 1) (by omega) (by omega),
            show ("" : String).data = [] from rfl, show ("/" : String).data = ['/'] from rfl,
            List.nil_append, List.cons_append, List.append_assoc]
          rw [parse_digit _ _ (by omega) (buf + 1) (by omega) (by omega)]
          rw [show i - buf + (buf + 1) = i + 1 from by omega]
          rw [parse_slash _ _ (by omega)]
          have hih := ih (i + 1) 0 tail hrest (by omega) hletr
          rw [Nat.sub_zero] at hih
          rw [hih, listPieces, if_pos rfl, replicate_append_cons]
          simp only [List.replicate_zero, List.nil_append]
        · rw [fenBoardGo, if_pos rfl, if_neg h7]
          dsimp only
          simp only [String.data_append, show ("" : String).data = [] from rfl,
            List.nil_append]
          rw [show i - buf = (i + 1) - (buf + 1) from by omega]
          rw [ih (i + 1) (buf + 1) tail hrest (by omega) hletr]
          rw [listPieces, if_pos rfl, replicate_append_cons]
    · have hcd : ¬ c = '.' := pieceLetters_ne_dot _ hcpl
      obtain ⟨hslash, hdig⟩ := piece_char_facts hcpl
      by_cases h63 : i = 63
      · subst h63
        obtain rfl : rest = [] := List.length_eq_zero.mp (by omega)
        rw [fenBoardGo, if_neg hcd, if_pos (by omega : (63:Nat) % 8 = 7)]
        dsimp only
        rw [if_neg (by omega : ¬ (0:Nat) > 0), if_neg (by omega : ¬ (63:Nat) ≠ 63)]
        rw [fenBoardGo]
        by_cases hbp : 0 < buf
        · rw [if_pos hbp]
          simp only [String.data_append, toString_digit_data buf (by omega) (by omega),
            show ("" : String).data = [] from rfl, List.nil_append, List.append_nil,
            List.cons_append]
          rw [parse_digit _ _ (by omega) buf (by omega) (by omega)]
          rw [show 63 - buf + buf = 63 from by omega]
          rw [parse_piece hslash hdig _ _ (by omega)]
          rw [parse_done _ _ (by omega)]
          dsimp only
          rw [listPieces, if_neg hcd, listPieces]
        · have hb0 : buf = 0 := by omega
          subst hb0
          rw [if_neg hbp]
          simp only [String.data_append, show ("" : String).data = [] from rfl,
            List.nil_append, List.append_nil, List.cons_append]
          rw [Nat.sub_zero]
          rw [parse_piece hslash hdig _ _ (by omega)]
          rw [parse_done _ _ (by omega)]
          dsimp only
          rw [listPieces, if_neg hcd, listPieces]
          simp only [List.replicate_zero, List.nil_append]
      · by_cases h7 : i % 8 = 7
        · rw [fenBoardGo, if_neg hcd, if_pos h7]
          dsimp only
          rw [if_neg (by omega : ¬ (0:Nat) > 0), if_pos h63]
          by_cases hbp : 0 < buf
          · rw [if_pos hbp]
            simp only [String.data_append, toString_digit_data buf (by omega) (by omega),
              show ("" : String).data = [] from rfl, show ("/" : String).data = ['/'] from rfl,
              List.nil_append, List.cons_append, List.append_assoc]
            rw [parse_digit _ _ (by omega) buf (by omega) (by omega)]
            rw [show i - buf + buf = i from by omega]
            rw [parse_piece hslash hdig _ _ (by omega)]
            rw [parse_slash _ _ (by omega)]
            have hih := ih (i + 1) 0 tail hrest (by omega) hletr
            rw [Nat.sub_zero] at hih
            rw [hih]
            dsimp only
            rw [listPieces, if_neg hcd]
            simp only [List.replicate_zero, List.nil_append]
          · have hb0 : buf = 0 := by omega
            subst hb0
            rw [if_neg hbp]
            simp only [String.data_append, show ("" : String).data = [] from rfl,
              show ("/" : String).data = ['/'] from rfl,
              List.nil_append, List.cons_append, List.append_assoc]
            rw [show i - 0 = i from by omega]
            rw [parse_piece hslash hdig _ _ (by omega)]
            rw [parse_slash _ _ (by omega)]
            have hih := ih (i + 1) 0 tail hrest (by omega) hletr
            rw [Nat.sub_zero] at hih
            rw [hih]
            dsimp only
            rw [listPieces, if_neg hcd]
            simp only [List.replicate_zero, List.nil_append]
        · rw [fenBoardGo, if_neg hcd, if_neg h7]
          dsimp only
          by_cases hbp : 0 < buf
          · rw [if_pos hbp]
            simp only [String.data_append, toString_digit_data buf (by omega) (by omega),
              show ("" : String).data = [] from rfl, List.nil_append, List.cons_append,
              List.append_assoc]
            rw [parse_digit _ _ (by omega) buf (by omega) (by omega)]
            rw [show i - buf + buf = i from by omega]
            rw [parse_piece hslash hdig _ _ (by omega)]
            have hih := ih (i + 1) 0 tail hrest (by omega) hletr
            rw [Nat.sub_zero] at hih
            rw [hih]
            dsimp only
            rw [listPieces, if_neg hcd]
            simp only [List.replicate_zero, List.nil_append]
          · have hb0 : buf = 0 := by omega
            subst hb0
            rw [if_neg hbp]
            simp only [String.data_append, show ("" : String).data = [] from rfl,
              List.nil_append, List.cons_append, List.append_assoc]
            rw [show i - 0 = i from by omega]
            rw [parse_piece hslash hdig _ _ (by omega)]
            have hih := ih (i + 1) 0 tail hrest (by omega) hletr
            rw [Nat.sub_zero] at hih
            rw [hih]
            dsimp only
            rw [listPieces, if_neg hcd]
            simp only [List.replicate_zero, List.nil_append]

theorem get_square_s_chars :
    ∀ a b : Nat, a < 8 → b < 8 →
      get_square_s (Char.ofNat (a + 'a'.toNat)) (Char.ofNat ('0'.toNat + (8 - b))) =
        a + 8 * b := by
  intro a b ha hb
  interval_cases a <;> interval_cases b <;> decide

theorem board_letters_mem {p : Position} (hI : Inv p) :
    ∀ c ∈ p.m_board, c = '.' ∨ c ∈ pieceLetters := by
  intro c hc
  obtain ⟨hlen, -, hbl, -, -, -⟩ := id hI
  obtain ⟨i, hilt, hie⟩ := List.mem_iff_getElem.mp hc
  have hb : boardGet p.m_board i = c := by
    rw [boardGet, List.getD_eq_getElem?_getD, List.getElem?_eq_getElem hilt]
    exact hie
  rcases hbl i (by omega) with h | h
  · exact Or.inl (hb ▸ h)
  · exact Or.inr (hb ▸ h)

/-- C9: rebuilding a Position from its own FEN string restores the
64-square board, the side to move, the en-passant square and the piece
list (as unordered content). -/
theorem c9_fen_roundtrip {p : Position} (hI : Inv p) :
    (positionOfFEN (get_fen p)).m_board = p.m_board ∧
    (positionOfFEN (get_fen p)).m_to_move = p.m_to_move ∧
    (positionOfFEN (get_fen p)).m_en_passant = p.m_en_passant ∧
    ((positionOfFEN (get_fen p)).m_pieces : Multiset (Char × Nat)) =
      (p.m_pieces : Multiset (Char × Nat)) := by
  obtain ⟨hlen, htm, hbl, hagree, hpawn, hep⟩ := id hI
  have hboard := parse_fen_board p.m_board 0 0
  rw [Nat.sub_zero] at hboard
  by_cases hepm : p.m_en_passant = -1
  · have hdata : (get_fen p).data =
        (fenBoardGo p.m_board 0 0).data ++
          (' ' :: p.m_to_move :: [' ', '-', ' ', '-', ' ', '0', ' ', '1']) := by
      rw [get_fen, if_pos hepm]
      simp only [String.data_append, show (" " : String).data = [' '] from rfl,
        show (" - " : String).data = [' ', '-', ' '] from rfl,
        show ("-" : String).data = ['-'] from rfl,
        show (" 0 1" : String).data = [' ', '0', ' ', '1'] from rfl]
      simp only [List.append_assoc, List.cons_append, List.nil_append]
    rw [positionOfFEN, hdata,
      hboard _ (by omega) (by omega) (board_letters_mem hI)]
    exact ⟨rfl, rfl, hepm.symm, by rw [hagree]; rfl⟩
  · rcases hep with h | ⟨hep0, hdot, hside⟩
    · exact absurd h hepm
    have hlt : p.m_en_passant.toNat < 64 := by
      rcases hside with ⟨-, h2, -⟩ | ⟨-, h2, -⟩ <;> omega
    obtain ⟨a, ha8, haeq⟩ : ∃ a, a < 8 ∧ p.m_en_passant.toNat % 8 = a :=
      ⟨_, by omega, rfl⟩
    obtain ⟨b, hb8, hbeq⟩ : ∃ b, b < 8 ∧ p.m_en_passant.toNat / 8 = b :=
      ⟨_, by omega, rfl⟩
    have hdata : (get_fen p).data =
        (fenBoardGo p.m_board 0 0).data ++
          (' ' :: p.m_to_move :: ' ' :: '-' :: ' ' ::
            Char.ofNat (a + 'a'.toNat) :: Char.ofNat ('0'.toNat + (8 - b)) ::
            [' ', '0', ' ', '1']) := by
      rw [get_fen, if_neg hepm, square_string, square_chars, haeq, hbeq]
      simp only [String.data_append, show (" " : String).data = [' '] from rfl,
        show (" - " : String).data = [' ', '-', ' '] from rfl,
        show (" 0 1" : String).data = [' ', '0', ' ', '1'] from rfl]
      simp only [List.append_assoc, List.cons_append, List.nil_append]
    rw [positionOfFEN, hdata,
      hboard _ (by omega) (by omega) (board_letters_mem hI)]
    refine ⟨rfl, rfl, ?_, by rw [hagree]; rfl⟩
    dsimp only
    have hr5 : (((' ' :: '-' :: ' ' :: Char.ofNat (a + 'a'.toNat) ::
          Char.ofNat ('0'.toNat + (8 - b)) ::
          [' ', '0', ' ', '1'] : List Char).drop 1).dropWhile
            (fun c => ¬ c = ' ')).drop 1 =
        Char.ofNat (a + 'a'.toNat) :: Char.ofNat ('0'.toNat + (8 - b)) ::
          [' ', '0', ' ', '1'] := rfl
    rw [hr5]
    split
    · next r6 tl heq =>
      have hc1 : Char.ofNat (a + 'a'.toNat) = '-' :=
        ((List.cons.injEq _ _ _ _).mp heq).1
      interval_cases a <;> exact absurd hc1 (by decide)
    · next r6 c1 c2 tl hne heq =>
      have h0 := (List.cons.injEq _ _ _ _).mp heq
      have h1 : Char.ofNat (a + 'a'.toNat) = c1 := h0.1
      have h2 : Char.ofNat ('0'.toNat + (8 - b)) = c2 :=
        ((List.cons.injEq _ _ _ _).mp h0.2).1
      rw [← h1, ← h2, get_square_s_chars a b ha8 hb8]
      omega
    · next r6 hne1 hne2 =>
      exact absurd rfl (hne2 _ _ _)

/-- Closed instance of C9 on the en-passant position (kings e1/e8,
pawns e5/d5, en-passant square d6). -/
theorem c9_fen_roundtrip_witness :
    (positionOfFEN (get_fen epPos)).m_board = epPos.m_board ∧
    (positionOfFEN (get_fen epPos)).m_to_move = epPos.m_to_move ∧
    (positionOfFEN (get_fen epPos)).m_en_passant = epPos.m_en_passant ∧
    ((positionOfFEN (get_fen epPos)).m_pieces : Multiset (Char × Nat)) =
      (epPos.m_pieces : Multiset (Char × Nat)) :=
  c9_fen_roundtrip (by decide)

end ChessTactics
